import Mathlib

/-!
SST core: configuration graph, partition graph and partition boundary analysis.

A shallow embedding of `sst/core/configGraph.cc` (and the parts of the headers it
relies on) together with the properties the specification states about it.

Conventions of the embedding

* `std::map<K,V>` is an association list kept in ascending key order with unique
  keys; iteration order is list order. `std::multimap<K,V>` is an association list
  in ascending key order in which equal keys keep their insertion order.
* `std::string` is `String`; `operator<` on strings is the lexicographic order of
  the character sequences (`strLt`).
* `int` values are `Int`; where the source narrows a 64-bit `SimTime_t` to `int`
  the wrap-around is explicit (`toInt32`). The process-wide object counters
  (`Vertex::count`, `Edge::count`, ...) are assumed not to overflow.
* A path on which the source dereferences a null pointer has no defined behaviour;
  the embedding returns `none` there.
-/

namespace SST

/-! ## Strings and ordered containers -/

/-- The order `std::string::operator<` induces: lexicographic on the characters. -/
def strLt (a b : String) : Prop := a.data < b.data

instance strLt.instDecidable (a b : String) : Decidable (strLt a b) := by
  unfold strLt; infer_instance

/-- The strict order a `std::map` / `std::multimap` uses to compare its keys. -/
class KeyOrd (K : Type) where
  /-- The comparison `std::less<K>`. -/
  klt : K → K → Bool

instance instKeyOrdString : KeyOrd String := ⟨fun a b => decide (strLt a b)⟩

instance instKeyOrdInt : KeyOrd Int := ⟨fun a b => decide (a < b)⟩

instance instKeyOrdNat : KeyOrd Nat := ⟨fun a b => decide (a < b)⟩

/-- The lookup `m.find(k)` of a `std::map`: `none` stands for `m.end()`. -/
def mapFind {K V : Type} [DecidableEq K] (k : K) : List (K × V) → Option V
  | [] => none
  | (k1, v) :: t => if k1 = k then some v else mapFind k t

/-- The assignment `m[k] = v` of a `std::map`: replaces the value stored under `k`,
or inserts the pair at its place in key order. -/
def mapSet {K V : Type} [KeyOrd K] [DecidableEq K] (k : K) (v : V) :
    List (K × V) → List (K × V)
  | [] => [(k, v)]
  | (k1, v1) :: t =>
    if KeyOrd.klt k k1 then (k, v) :: (k1, v1) :: t
    else if k1 = k then (k, v) :: t
    else (k1, v1) :: mapSet k v t

/-- The call `m.insert(pair(k, v))` of a `std::multimap`: the pair goes after every
entry whose key is not greater than `k`. -/
def mmInsert {K V : Type} [KeyOrd K] (k : K) (v : V) : List (K × V) → List (K × V)
  | [] => [(k, v)]
  | (k1, v1) :: t =>
    if KeyOrd.klt k k1 then (k, v) :: (k1, v1) :: t
    else (k1, v1) :: mmInsert k v t

/-- Applies `f` to the object stored under key `k` (a write through the pointer that a
`std::map<K, T*>` holds under `k`). -/
def mapModify {K V : Type} [DecidableEq K] (k : K) (f : V → V) : List (K × V) → List (K × V)
  | [] => []
  | (k1, v) :: t => if k1 = k then (k1, f v) :: t else (k1, v) :: mapModify k f t

/-! ## Integer conversions -/

/-- Conversion of an integer value to `int` (32 bit, two's complement wrap-around). -/
def toInt32 (x : Int) : Int :=
  let m := x % 4294967296
  if m < 2147483648 then m else m - 4294967296

/-- Saturation of `strtol` at the range of `long` (64 bit). -/
def clampLong (x : Int) : Int :=
  if x < -9223372036854775808 then -9223372036854775808
  else if 9223372036854775807 < x then 9223372036854775807
  else x

/-- The characters `isspace` accepts in the C locale. -/
def isSpace (c : Char) : Bool :=
  c = ' ' || c = '\t' || c = '\n' || c = '\x0b' || c = '\x0c' || c = '\r'

/-- The digit-reading loop of `strtol` in base 10: stops at the first non-digit. -/
def atoiDigits (acc : Nat) : List Char → Nat
  | [] => acc
  | c :: t => if c.isDigit then atoiDigits (acc * 10 + (c.toNat - 48)) t else acc

/-- The optional sign followed by the digits. -/
def atoiSigned : List Char → Int
  | [] => 0
  | c :: t =>
    if c = '-' then - (atoiDigits 0 t : Int)
    else if c = '+' then (atoiDigits 0 t : Int)
    else (atoiDigits 0 (c :: t) : Int)

/-- The C library `atoi`, as `(int) strtol(s, NULL, 10)`: leading white space is
skipped, an optional sign and the longest run of digits are read, the value
saturates at the range of `long` and is then narrowed to `int`. -/
def atoi (s : String) : Int :=
  toInt32 (clampLong (atoiSigned (s.data.dropWhile isSpace)))

/-- The decimal digits of `n`, most significant first, prepended to `acc`
(`fuel` bounds the number of digits). -/
def decDigitsAux : Nat → Nat → List Char → List Char
  | 0, _, acc => acc
  | fuel + 1, n, acc =>
    if n / 10 = 0 then Nat.digitChar (n % 10) :: acc
    else decDigitsAux fuel (n / 10) (Nat.digitChar (n % 10) :: acc)

/-- The decimal digits of a natural number. -/
def decDigits (n : Nat) : List Char := decDigitsAux (n + 1) n []

/-- The text `boost::str(boost::format("%1%") % x)` produces for an `int` `x`: the
decimal rendering, with a leading minus sign for a negative value. -/
def fmtInt (x : Int) : String :=
  if x < 0 then String.mk ('-' :: decDigits x.natAbs) else String.mk (decDigits x.natAbs)

/-- The function `static inline int min(int x, int y)` of configGraph.cc. -/
def min (x y : Int) : Int := if x < y then x else y

/-! ## The partition graph (graph.h) -/

/-- Modelled from the spec: the property key under which a vertex records the name of
its component (the macro GRAPH_COMP_NAME of graph.h, which is not part of the sources
at hand; only that the keys are pairwise distinct matters). -/
def GRAPH_COMP_NAME : String := "comp_name"

/-- Modelled from the spec: the property key of the link name of an edge. -/
def GRAPH_LINK_NAME : String := "link_name"

/-- Modelled from the spec: the property key of the weight of a vertex or an edge. -/
def GRAPH_WEIGHT : String := "weight"

/-- Modelled from the spec: the property key of the positional index of a vertex. -/
def GRAPH_ID : String := "id"

/-- Modelled from the spec: the named-property list of a vertex or an edge (class
PropList of graph.h), a map from property name to property value. -/
structure PropList where
  /-- The underlying `std::map<std::string, std::string>`. -/
  map : List (String × String) := []
deriving DecidableEq, Repr

/-- The call `prop_list.set(name, value)`. -/
def PropList.set (p : PropList) (name value : String) : PropList :=
  ⟨mapSet name value p.map⟩

/-- The call `prop_list.get(name)`; the empty string when the property is not set. -/
def PropList.get (p : PropList) (name : String) : String :=
  (mapFind name p.map).getD ""

/-- Modelled from the spec: a vertex of the partition graph (class Vertex of graph.h):
identifier, rank, property list and the adjacency list of edge identifiers. -/
structure Vertex where
  /-- The identifier, taken from the counter `Vertex::count` on construction. -/
  id : Int
  /-- The rank of the component the vertex stands for. -/
  rank : Int
  /-- The named properties. -/
  prop_list : PropList
  /-- The identifiers of the incident edges. -/
  adj_list : List Int
deriving DecidableEq, Repr

/-- Modelled from the spec: an edge of the partition graph (class Edge of graph.h):
identifier, the two vertex identifiers it joins, and a property list. -/
structure Edge where
  /-- The identifier, taken from the counter `Edge::count` on construction. -/
  id : Int
  /-- The two endpoint vertex identifiers. -/
  vertex : Int × Int
  /-- The named properties. -/
  prop_list : PropList
deriving DecidableEq, Repr

/-- The accessor `e->v(index)`. -/
def Edge.v (e : Edge) (index : Nat) : Int :=
  if index = 0 then e.vertex.1 else e.vertex.2

/-- Modelled from the spec: the partition graph (class Graph of graph.h): the vertex
list and the edge list, both `std::map`s keyed by identifier. -/
structure Graph where
  /-- The vertices, by identifier. -/
  vlist : List (Int × Vertex) := []
  /-- The edges, by identifier. -/
  elist : List (Int × Edge) := []
deriving DecidableEq, Repr

/-! ## Partition boundary analysis: findMinPart -/

/-- The loop of `findMinPart` over the edge list, started with the current value of
`minPart`. `graph.vlist[e->v(i)]` on an identifier that is not in the vertex list
yields a null pointer, whose dereference is undefined: `none`. -/
def findMinPart_scan (vlist : List (Int × Vertex)) : List (Int × Edge) → Int → Option Int
  | [], minPart => some minPart
  | (_, e) :: rest, minPart =>
    let lat := atoi (e.prop_list.get GRAPH_WEIGHT)
    match mapFind (e.v 0) vlist, mapFind (e.v 1) vlist with
    | some s, some t =>
      if s.rank ≠ t.rank then
        if lat < minPart then findMinPart_scan vlist rest lat
        else findMinPart_scan vlist rest minPart
      else findMinPart_scan vlist rest minPart
    | _, _ => none

/-- The value of `minPart` a process of rank `rank` holds just before the broadcast:
only rank 0 scans its graph. -/
def findMinPart_local (rank : Nat) (graph : Graph) : Option Int :=
  if rank = 0 then findMinPart_scan graph.vlist graph.elist 99999 else some 99999

/-- The local phase on every process of the communicator, in rank order starting at
`rank`. -/
def findMinPart_locals : Nat → List Graph → Option (List Int)
  | _, [] => some []
  | rank, g :: gs =>
    match findMinPart_local rank g, findMinPart_locals (rank + 1) gs with
    | some m, some ms => some (m :: ms)
    | _, _ => none

/-- Modelled from the spec: the collective `broadcast(world, value, root)` of
boost::mpi: every process ends up with the value the root process passed in. -/
def broadcast (values : List Int) (root : Nat) : List Int :=
  values.map (fun x => values.getD root x)

/-- The collective call `findMinPart(graph)`: `world` lists the graph each process
passes, by rank; the result lists the value each process returns. -/
def findMinPart (world : List Graph) : Option (List Int) :=
  (findMinPart_locals 0 world).map (fun locals => broadcast locals 0)

/-- The integer weight `findMinPart` reads off an edge. -/
def Edge.weight (e : Edge) : Int := atoi (e.prop_list.get GRAPH_WEIGHT)

/-- The edge `e` joins two vertices of `g` whose ranks differ. -/
def Graph.crossRank (g : Graph) (e : Edge) : Prop :=
  match mapFind (e.v 0) g.vlist, mapFind (e.v 1) g.vlist with
  | some s, some t => s.rank ≠ t.rank
  | _, _ => False

instance Graph.crossRank.instDecidable (g : Graph) (e : Edge) : Decidable (g.crossRank e) := by
  unfold Graph.crossRank; split <;> infer_instance

/-- The edge `e` joins two vertices of `g` of the same rank. -/
def Graph.sameRank (g : Graph) (e : Edge) : Prop :=
  match mapFind (e.v 0) g.vlist, mapFind (e.v 1) g.vlist with
  | some s, some t => s.rank = t.rank
  | _, _ => False

instance Graph.sameRank.instDecidable (g : Graph) (e : Edge) : Decidable (g.sameRank e) := by
  unfold Graph.sameRank; split <;> infer_instance

/-- Both endpoints of every edge of `g` are in the vertex list of `g`. -/
def Graph.endpointsPresent (g : Graph) : Prop :=
  ∀ p ∈ g.elist, (mapFind (p.2.v 0) g.vlist).isSome ∧ (mapFind (p.2.v 1) g.vlist).isSome

instance Graph.endpointsPresent.instDecidable (g : Graph) : Decidable g.endpointsPresent := by
  unfold Graph.endpointsPresent; infer_instance

/-- The weights of the cross-rank edges of `g`. -/
def Graph.crossWeights (g : Graph) : Set Int :=
  {x | ∃ p ∈ g.elist, g.crossRank p.2 ∧ x = p.2.weight}

/-! ## Process-wide state and the external services -/

/-- A `float` value, identified by its bit pattern; no floating-point arithmetic is
performed by the code under study, values are only stored and copied. -/
structure FloatVal where
  /-- The IEEE-754 bit pattern. -/
  bits : Nat
deriving DecidableEq, Repr

/-- Modelled from the spec: the Time Service reached through
`sim->getTimeLord()->getSimCycles(str, where)` (timeLord.h is not part of the sources
at hand): a total conversion of a duration string to ticks. The second argument is the
context label. The result is a `SimTime_t`, an unsigned 64-bit value. -/
structure Simulation where
  /-- The raw conversion; reduced modulo `2^64` by `Simulation.getSimCycles`. -/
  cycles : String → String → Nat

/-- The value of `getSimCycles(str, where)` as a `SimTime_t`. -/
def Simulation.getSimCycles (sim : Simulation) (str label : String) : Nat :=
  sim.cycles str label % 18446744073709551616

/-- Modelled from the spec: the parameter set (class Params of params.h, which is not
part of the sources at hand). Section 3 of the specification describes it as a
multi-valued mapping: an insert of an existing key adds a further entry, an
assignment through `params[key]` leaves exactly one entry for the key. Entries are
kept in key order, equal keys in insertion order. -/
structure Params where
  /-- The entries in iteration order. -/
  map : List (String × String) := []
deriving DecidableEq, Repr

/-- The call `params.insert(pair(key, value))`. -/
def Params.insert (p : Params) (key value : String) : Params :=
  ⟨mmInsert key value p.map⟩

/-- The call `params.insert(first, last)` over the entries of another parameter set. -/
def Params.insertRange (p : Params) (entries : List (String × String)) : Params :=
  entries.foldl (fun acc kv => acc.insert kv.1 kv.2) p

/-- The assignment `params[key] = value`: the entries of `key` are replaced by one
entry carrying `value`. -/
def Params.assign (p : Params) (key value : String) : Params :=
  ⟨mmInsert key value (p.map.filter (fun kv => kv.1 ≠ key))⟩

/-- The lookup `params.find(key)`: the first entry of `key`, `none` for `end()`. -/
def Params.find (p : Params) (key : String) : Option String :=
  mapFind key p.map

/-! ## The configuration graph (configGraph.h, configGraph.cc) -/

/-- Modelled from the spec: a link of the configuration graph (class ConfigLink of
configGraph.h, which is not part of the sources at hand): name, reference counter and
the two endpoint slots. A fresh link has no reference; the content of a slot that is
not yet occupied is unspecified and modelled as zero or the empty string. -/
structure ConfigLink where
  /-- The identifier, taken from the counter `ConfigLink::count` on construction. -/
  id : Nat
  /-- The link name. -/
  name : String
  /-- The component identifier of each endpoint slot. -/
  component : Nat × Nat
  /-- The port name of each endpoint slot. -/
  port : String × String
  /-- The latency in ticks of each endpoint slot. -/
  latency : Nat × Nat
  /-- The number of occupied slots. -/
  current_ref : Nat
deriving DecidableEq, Repr

/-- The store `array[index] = x` into a two-element array, for `index` 0 or 1. -/
def setSlot {α : Type} (index : Nat) (x : α) (slots : α × α) : α × α :=
  if index = 0 then (x, slots.2) else (slots.1, x)

/-- The read `array[index]` of a two-element array, for `index` 0 or 1. -/
def getSlot {α : Type} (index : Nat) (slots : α × α) : α :=
  if index = 0 then slots.1 else slots.2

/-- Modelled from the spec: a component of the configuration graph (class
ConfigComponent of configGraph.h): a `ConfigLink*` in `links` is the address of the
object in the heap of the process. -/
structure ConfigComponent where
  /-- The identifier, taken from the counter `ConfigComponent::count`. -/
  id : Nat
  /-- The component name. -/
  name : String
  /-- The type tag. -/
  type : String
  /-- The partition cost estimate. -/
  weight : FloatVal
  /-- The owning rank. -/
  rank : Int
  /-- The owned links, as addresses of `ConfigLink` objects. -/
  links : List Nat
  /-- The parameters. -/
  params : Params
  /-- Whether the component is an introspector. -/
  isIntrospector : Bool
deriving DecidableEq, Repr

/-- The static counters of the classes and the `ConfigLink` objects allocated so far.
A `ConfigLink*` is the position of the object in `linkHeap`. -/
structure ProcState where
  /-- The counter `Vertex::count`. -/
  Vertex_count : Int := 0
  /-- The counter `Edge::count`. -/
  Edge_count : Int := 0
  /-- The counter `ConfigComponent::count`. -/
  ConfigComponent_count : Nat := 0
  /-- The counter `ConfigLink::count`. -/
  ConfigLink_count : Nat := 0
  /-- The objects created by `new ConfigLink()`, by address. -/
  linkHeap : List ConfigLink := []
deriving DecidableEq, Repr

/-- The class ConfigGraph: the component table keyed by identifier and the link table
keyed by name (holding `ConfigLink*`). -/
structure ConfigGraph where
  /-- The component table `comps`. -/
  comps : List (Nat × ConfigComponent) := []
  /-- The link table `links`. -/
  links : List (String × Nat) := []
deriving DecidableEq, Repr

/-- How a call ends: it returns (`ok`), or the process is terminated by `abort()` or
`exit(code)`; each case carries the state reached at that point. `undefined` marks a
dereference of a dangling or null pointer. -/
inductive Outcome (σ α : Type) where
  /-- Normal return with a result. -/
  | ok (s : σ) (a : α)
  /-- Termination by `abort()`. -/
  | abort (s : σ)
  /-- Termination by `exit(code)`. -/
  | exit (code : Int) (s : σ)
  /-- Undefined behaviour. -/
  | undefined
deriving DecidableEq, Repr

/-- Modelled from the spec: the constructor `ConfigComponent()`: takes the next
identifier; weight 0, rank unassigned (-1), not an introspector, no links, no
parameters. -/
def ConfigComponent.new (count : Nat) : ConfigComponent :=
  { id := count, name := "", type := "", weight := ⟨0⟩, rank := -1, links := [],
    params := {}, isIntrospector := false }

/-- Modelled from the spec: the constructor `ConfigLink()`: takes the next identifier
and starts with no occupied slot. -/
def ConfigLink.new (count : Nat) : ConfigLink :=
  { id := count, name := "", component := (0, 0), port := ("", ""), latency := (0, 0),
    current_ref := 0 }

/-- The method `ConfigGraph::setComponentRanks(rank)`. -/
def ConfigGraph.setComponentRanks (ps : ProcState) (g : ConfigGraph) (rank : Int) :
    Outcome (ProcState × ConfigGraph) Unit :=
  .ok (ps, { g with comps := g.comps.map (fun p => (p.1, { p.2 with rank := rank })) }) ()

/-- The method `ConfigGraph::addComponent(name, type, weight, rank)`. -/
def ConfigGraph.addComponent4 (ps : ProcState) (g : ConfigGraph) (name type : String)
    (weight : FloatVal) (rank : Int) : Outcome (ProcState × ConfigGraph) Nat :=
  let comp := ConfigComponent.new ps.ConfigComponent_count
  let ps1 := { ps with ConfigComponent_count := ps.ConfigComponent_count + 1 }
  let comp := { comp with name := name, type := type, weight := weight, rank := rank }
  .ok (ps1, { g with comps := mapSet comp.id comp g.comps }) comp.id

/-- The method `ConfigGraph::addComponent(name, type)`. -/
def ConfigGraph.addComponent (ps : ProcState) (g : ConfigGraph) (name type : String) :
    Outcome (ProcState × ConfigGraph) Nat :=
  let comp := ConfigComponent.new ps.ConfigComponent_count
  let ps1 := { ps with ConfigComponent_count := ps.ConfigComponent_count + 1 }
  let comp := { comp with name := name, type := type }
  .ok (ps1, { g with comps := mapSet comp.id comp g.comps }) comp.id

/-- The method `ConfigGraph::setComponentRank(comp_id, rank)`. -/
def ConfigGraph.setComponentRank (ps : ProcState) (g : ConfigGraph) (comp_id : Nat)
    (rank : Int) : Outcome (ProcState × ConfigGraph) Unit :=
  if mapFind comp_id g.comps = none then .abort (ps, g)
  else .ok (ps, { g with comps := mapModify comp_id (fun c => { c with rank := rank }) g.comps }) ()

/-- The method `ConfigGraph::setComponentWeight(comp_id, weight)`. -/
def ConfigGraph.setComponentWeight (ps : ProcState) (g : ConfigGraph) (comp_id : Nat)
    (weight : FloatVal) : Outcome (ProcState × ConfigGraph) Unit :=
  if mapFind comp_id g.comps = none then .abort (ps, g)
  else
    .ok (ps, { g with
      comps := mapModify comp_id (fun c => { c with weight := weight }) g.comps }) ()

/-- The method `ConfigGraph::addParams(comp_id, p)`. -/
def ConfigGraph.addParams (ps : ProcState) (g : ConfigGraph) (comp_id : Nat) (p : Params) :
    Outcome (ProcState × ConfigGraph) Unit :=
  if mapFind comp_id g.comps = none then .abort (ps, g)
  else
    .ok (ps, { g with
      comps := mapModify comp_id
        (fun c => { c with params := c.params.insertRange p.map }) g.comps }) ()

/-- The method `ConfigGraph::addParameter(comp_id, key, value, overwrite)`. -/
def ConfigGraph.addParameter (ps : ProcState) (g : ConfigGraph) (comp_id : Nat)
    (key value : String) (overwrite : Bool) : Outcome (ProcState × ConfigGraph) Unit :=
  if mapFind comp_id g.comps = none then .abort (ps, g)
  else if overwrite then
    .ok (ps, { g with
      comps := mapModify comp_id
        (fun c => { c with params := c.params.assign key value }) g.comps }) ()
  else
    .ok (ps, { g with
      comps := mapModify comp_id
        (fun c => { c with params := c.params.insert key value }) g.comps }) ()

/-- The tail of `ConfigGraph::addLink` once `link` points at the link object: the
latency conversion, the occupation of the next slot and the append to the link list
of the component. -/
def ConfigGraph.addLink_fill (sim : Simulation) (ps : ProcState) (g : ConfigGraph)
    (comp_id : Nat) (link : Nat) (port latency_str : String) :
    Outcome (ProcState × ConfigGraph) Unit :=
  let latency := sim.getSimCycles latency_str "ConfigGraph::addLink"
  match ps.linkHeap[link]? with
  | none => .undefined
  | some l =>
    let index := l.current_ref
    let l1 := { l with current_ref := l.current_ref + 1 }
    let l2 := { l1 with component := setSlot index comp_id l1.component }
    let l3 := { l2 with port := setSlot index port l2.port }
    let l4 := { l3 with latency := setSlot index latency l3.latency }
    let ps1 := { ps with linkHeap := ps.linkHeap.set link l4 }
    .ok (ps1, { g with
      comps := mapModify comp_id (fun c => { c with links := c.links ++ [link] }) g.comps }) ()

/-- The method `ConfigGraph::addLink(comp_id, link_name, port, latency_str)`. -/
def ConfigGraph.addLink (sim : Simulation) (ps : ProcState) (g : ConfigGraph)
    (comp_id : Nat) (link_name port latency_str : String) :
    Outcome (ProcState × ConfigGraph) Unit :=
  if mapFind comp_id g.comps = none then .abort (ps, g)
  else
    match mapFind link_name g.links with
    | none =>
      let link := ps.linkHeap.length
      let l := { ConfigLink.new ps.ConfigLink_count with name := link_name }
      let ps1 := { ps with ConfigLink_count := ps.ConfigLink_count + 1,
                           linkHeap := ps.linkHeap ++ [l] }
      let g1 := { g with links := mapSet link_name link g.links }
      ConfigGraph.addLink_fill sim ps1 g1 comp_id link port latency_str
    | some link =>
      match ps.linkHeap[link]? with
      | none => .undefined
      | some l =>
        if l.current_ref ≥ 2 then .exit 1 (ps, g)
        else ConfigGraph.addLink_fill sim ps g comp_id link port latency_str

/-- The method `ConfigGraph::addIntrospector(name, type)`. -/
def ConfigGraph.addIntrospector (ps : ProcState) (g : ConfigGraph) (name type : String) :
    Outcome (ProcState × ConfigGraph) Nat :=
  let comp := ConfigComponent.new ps.ConfigComponent_count
  let ps1 := { ps with ConfigComponent_count := ps.ConfigComponent_count + 1 }
  let comp := { comp with name := name, type := type, isIntrospector := true }
  .ok (ps1, { g with comps := mapSet comp.id comp g.comps }) comp.id

/-! ## Partition graph construction: find_lat and makeGraph -/

/-- Modelled from the spec: a link as a component descriptor declares it (class
SDL_Link of sdl.h, which is not part of the sources at hand): its parameter set. -/
structure SDL_Link where
  /-- The parameters of the link at this endpoint. -/
  params : Params
deriving DecidableEq, Repr

/-- Modelled from the spec: a component descriptor (class SDL_Component of sdl.h):
declared weight, declared rank and the map from link name to link. -/
structure SDL_Component where
  /-- The declared weight. -/
  weight : FloatVal
  /-- The declared rank. -/
  rank : Int
  /-- The map `links` from link name to link, in key order. -/
  links : List (String × SDL_Link)
deriving DecidableEq, Repr

/-- The function `find_lat(sim, c, edge)`; the `SimTime_t` result of the Time Service
is narrowed to the `int` return type. -/
def find_lat (sim : Simulation) (c : SDL_Component) (edge : String) : Int :=
  match mapFind edge c.links with
  | none => 0
  | some l =>
    match l.params.find "lat" with
    | none => 0
    | some s => toInt32 (sim.getSimCycles s ("edge " ++ edge))

/-- The inner loop of the first loop of `makeGraph`: one association from link name
to the vertex `v` per link of the component. A `Vertex*` is represented by the
identifier of the vertex, under which the object is stored in `graph.vlist`. -/
def makeGraph_links (v : Int) : List (String × SDL_Link) → List (String × Int) →
    List (String × Int)
  | [], linkMap => linkMap
  | (name, _) :: rest, linkMap => makeGraph_links v rest (mmInsert name v linkMap)

/-- The first loop of `makeGraph` over the component map: `count` is `Vertex::count`,
`vId` the positional index, `vlist` the vertex list of the graph. -/
def makeGraph_vertices (fmtFloat : FloatVal → String) :
    List (String × SDL_Component) → Int → Int → List (Int × Vertex) → List (String × Int) →
    Int × List (Int × Vertex) × List (String × Int)
  | [], count, _, vlist, linkMap => (count, vlist, linkMap)
  | (name, c) :: rest, count, vId, vlist, linkMap =>
    let v : Vertex := { id := count, rank := -1, prop_list := {}, adj_list := [] }
    let v := { v with prop_list := v.prop_list.set GRAPH_COMP_NAME name }
    let v := { v with prop_list := v.prop_list.set GRAPH_ID (fmtInt vId) }
    let v := { v with prop_list := v.prop_list.set GRAPH_WEIGHT (fmtFloat c.weight) }
    let v := { v with rank := c.rank }
    makeGraph_vertices fmtFloat rest (count + 1) (vId + 1) (mapSet v.id v vlist)
      (makeGraph_links v.id c.links linkMap)

/-- The second loop of `makeGraph`, which consumes the associations two at a time:
`count` is `Edge::count`. The pointers `v[0]`, `v[1]` and `map[...]` are resolved
through the vertex list and the component map. -/
def makeGraph_edges (sim : Simulation) (map : List (String × SDL_Component)) :
    List (String × Int) → Int → Graph → Option (Int × Graph)
  | [], count, graph => some (count, graph)
  | [_], _, _ => none
  | (_, p0) :: (edge, p1) :: rest, count, graph =>
    match mapFind p0 graph.vlist, mapFind p1 graph.vlist with
    | some v0, some v1 =>
      match mapFind (v0.prop_list.get GRAPH_COMP_NAME) map,
            mapFind (v1.prop_list.get GRAPH_COMP_NAME) map with
      | some c0, some c1 =>
        let e : Edge := { id := count, vertex := (v0.id, v1.id), prop_list := {} }
        let e := { e with prop_list := e.prop_list.set GRAPH_LINK_NAME edge }
        let lat := min (find_lat sim c0 edge) (find_lat sim c1 edge)
        let e := { e with prop_list := e.prop_list.set GRAPH_WEIGHT (fmtInt lat) }
        let elist := mapSet e.id e graph.elist
        let vlist := mapModify p0 (fun v => { v with adj_list := v.adj_list ++ [e.id] })
          graph.vlist
        let vlist := mapModify p1 (fun v => { v with adj_list := v.adj_list ++ [e.id] }) vlist
        makeGraph_edges sim map rest (count + 1) { vlist := vlist, elist := elist }
      | _, _ => none
    | _, _ => none

/-- What a call of `makeGraph` leaves behind: the static counters, the graph and
whether the message about an odd number of associations was printed. -/
structure MakeGraphResult where
  /-- The process state after the call. -/
  ps : ProcState
  /-- The graph after the call. -/
  graph : Graph
  /-- Whether `error, linkMap.size() not even` was printed. -/
  reported : Bool
deriving DecidableEq, Repr

/-- The function `makeGraph(sim, map, graph)`. `fmtFloat` is the text the format
library produces for a `float`. -/
def makeGraph (fmtFloat : FloatVal → String) (sim : Simulation)
    (map : List (String × SDL_Component)) (ps : ProcState) (graph : Graph) :
    Option MakeGraphResult :=
  let r := makeGraph_vertices fmtFloat map ps.Vertex_count 0 graph.vlist []
  let ps1 := { ps with Vertex_count := r.1 }
  let graph1 : Graph := { graph with vlist := r.2.1 }
  let linkMap := r.2.2
  if linkMap.length % 2 ≠ 0 then some { ps := ps1, graph := graph1, reported := true }
  else
    match makeGraph_edges sim map linkMap ps.Edge_count graph1 with
    | none => none
    | some (count, graph2) =>
      some { ps := { ps1 with Edge_count := count }, graph := graph2, reported := false }

/-- The total number of link references of a component map. -/
def linkRefCount (map : List (String × SDL_Component)) : Nat :=
  (map.map (fun p => p.2.links.length)).sum

/-! ## Auxiliary notions used to state the properties of makeGraph -/

/-- The consecutive pairs of a list: first with second, third with fourth, and so on
(a last element without partner is left out). -/
def pairs {α : Type} : List α → List (α × α)
  | a :: b :: rest => (a, b) :: pairs rest
  | _ => []

/-- The component map with the vertex identifier each component receives when the
counter `Vertex::count` stands at `count`. -/
def vertexIds (count : Int) :
    List (String × SDL_Component) → List (Int × String × SDL_Component)
  | [] => []
  | x :: rest => (count, x.1, x.2) :: vertexIds (count + 1) rest

/-- The link references of the components, each with the vertex identifier of the
component that owns it. -/
def linkRefs : List (Int × String × SDL_Component) → List (String × Int)
  | [] => []
  | x :: rest => x.2.2.links.map (fun l => (l.1, x.1)) ++ linkRefs rest

/-- The link names referenced by the components of a map, with repetition. -/
def refNames : List (String × SDL_Component) → List String
  | [] => []
  | y :: rest => y.2.links.map Prod.fst ++ refNames rest

/-- The edge the second loop of `makeGraph` builds for the link name `edge` between
the vertices `p0` and `p1` of the components `c0` and `c1`. -/
def mkEdge (sim : Simulation) (id p0 p1 : Int) (c0 c1 : SDL_Component) (edge : String) :
    Edge :=
  { id := id, vertex := (p0, p1),
    prop_list := (({} : PropList).set GRAPH_LINK_NAME edge).set GRAPH_WEIGHT
      (fmtInt (min (find_lat sim c0 edge) (find_lat sim c1 edge))) }

/-- The vertex the first loop of `makeGraph` builds for the component `c` stored
under `name`, when `Vertex::count` stands at `count` and the positional index at
`vId`. -/
def mkVertex (fmtFloat : FloatVal → String) (count vId : Int) (name : String)
    (c : SDL_Component) : Vertex :=
  { id := count, rank := c.rank,
    prop_list := ((({} : PropList).set GRAPH_COMP_NAME name).set GRAPH_ID (fmtInt vId)).set
      GRAPH_WEIGHT (fmtFloat c.weight),
    adj_list := [] }

/-- The vertex list holds under `p` a vertex with identifier `p`, the given rank and
the given component name. -/
def VertexOf (vlist : List (Int × Vertex)) (p : Int) (name : String) (rank : Int) : Prop :=
  ∃ v, mapFind p vlist = some v ∧ v.id = p ∧ v.rank = rank ∧
    v.prop_list.get GRAPH_COMP_NAME = name

/-- The entry `x` of an edge list is the edge built for the pair `pr` of associations:
its key lies in the range `lo .. hi` of fresh identifiers and, whatever components
`c0` and `c1` the two vertices of the pair resolve to, the edge is `mkEdge` of them
under the link name of the second association. -/
def NewEdge (sim : Simulation) (map : List (String × SDL_Component))
    (vlist : List (Int × Vertex)) (lo hi : Int)
    (pr : (String × Int) × (String × Int)) (x : Int × Edge) : Prop :=
  lo ≤ x.1 ∧ x.1 < hi ∧
  ∀ n0 r0 c0 n1 r1 c1, VertexOf vlist pr.1.2 n0 r0 → mapFind n0 map = some c0 →
    VertexOf vlist pr.2.2 n1 r1 → mapFind n1 map = some c1 →
    x.2 = mkEdge sim x.1 pr.1.2 pr.2.2 c0 c1 pr.2.1

/-- The temporary index `linkMap` as the first loop of `makeGraph` leaves it. -/
def makeGraph_linkMap (fmtFloat : FloatVal → String) (map : List (String × SDL_Component))
    (ps : ProcState) (graph : Graph) : List (String × Int) :=
  (makeGraph_vertices fmtFloat map ps.Vertex_count 0 graph.vlist []).2.2

/-- The vertex list as the first loop of `makeGraph` leaves it. -/
def makeGraph_vlist1 (fmtFloat : FloatVal → String) (map : List (String × SDL_Component))
    (ps : ProcState) (graph : Graph) : List (Int × Vertex) :=
  (makeGraph_vertices fmtFloat map ps.Vertex_count 0 graph.vlist []).2.1

/-- The latency in ticks an endpoint declares for the link `name`: the Time Service
applied to its "lat" parameter, 0 when there is none. -/
def declaredLat (sim : Simulation) (name : String) (l : SDL_Link) : Int :=
  match l.params.find "lat" with
  | some s => (sim.getSimCycles s ("edge " ++ name) : Int)
  | none => 0

/-- The latencies of the links that cross ranks: for every link name referenced by two
components of different rank, the smaller of the two declared latencies. -/
def crossLinkLatencies (sim : Simulation) (map : List (String × SDL_Component)) : Set Int :=
  {x | ∃ a ∈ map, ∃ b ∈ map, ∃ n la lb, a.2.rank ≠ b.2.rank ∧
    (n, la) ∈ a.2.links ∧ (n, lb) ∈ b.2.links ∧
    x = Min.min (declaredLat sim n la) (declaredLat sim n lb)}

/-- The link object after `addLink` has occupied its next free slot with the given
component, port and latency. -/
def ConfigLink.fill (l : ConfigLink) (comp_id : Nat) (port : String) (latency : Nat) :
    ConfigLink :=
  { l with
    current_ref := l.current_ref + 1
    component := setSlot l.current_ref comp_id l.component
    port := setSlot l.current_ref port l.port
    latency := setSlot l.current_ref latency l.latency }

/-- The component table after `addLink` has appended the link to the link list of
the component. -/
def ownLink (comp_id link : Nat) (comps : List (Nat × ConfigComponent)) :
    List (Nat × ConfigComponent) :=
  mapModify comp_id (fun c => { c with links := c.links ++ [link] }) comps

/-- The keys of a `std::map` keyed by strings are strictly ascending. -/
def keysAscending {V : Type} (m : List (String × V)) : Prop :=
  m.Pairwise (fun a b => strLt a.1 b.1)

instance keysAscending.instDecidable {V : Type} (m : List (String × V)) :
    Decidable (keysAscending m) := by
  unfold keysAscending; infer_instance

/-! ## Example inputs -/

/-- A vertex with the given identifier and rank and nothing else. -/
def exVertex (id rank : Int) : Vertex :=
  { id := id, rank := rank, prop_list := {}, adj_list := [] }

/-- An edge with the given identifier, endpoints and weight text. -/
def exEdge (id v0 v1 : Int) (weight : String) : Edge :=
  { id := id, vertex := (v0, v1), prop_list := ({} : PropList).set GRAPH_WEIGHT weight }

/-- Two vertices of ranks 0 and 1 joined by a single edge of weight 100000. -/
def exGraphLarge : Graph :=
  { vlist := [(0, exVertex 0 0), (1, exVertex 1 1)],
    elist := [(0, exEdge 0 0 1 "100000")] }

/-- Cross-rank edges of weights 5, 3 and 9, and same-rank edges of weights 1 and 0. -/
def exGraph539 : Graph :=
  { vlist := [(0, exVertex 0 0), (1, exVertex 1 1), (2, exVertex 2 0), (3, exVertex 3 1)],
    elist := [(0, exEdge 0 0 1 "5"), (1, exEdge 1 0 2 "1"), (2, exEdge 2 2 3 "3"),
              (3, exEdge 3 1 3 "0"), (4, exEdge 4 0 3 "9")] }

/-- Edges of weights 0, -5 and 7 that all join vertices of the same rank. -/
def exGraphSameRank : Graph :=
  { vlist := [(0, exVertex 0 0), (1, exVertex 1 1), (2, exVertex 2 0), (3, exVertex 3 1)],
    elist := [(0, exEdge 0 0 2 "0"), (1, exEdge 1 1 3 "-5"), (2, exEdge 2 2 2 "7")] }


/-- A Time Service whose duration strings are plain decimal tick counts. -/
def exSim : Simulation := ⟨fun s _ => atoiDigits 0 s.data⟩

/-- A rendering of weights that prints the bit pattern in decimal. -/
def exFmtFloat (w : FloatVal) : String := String.mk (decDigits w.bits)

/-- A link endpoint that declares the latency `lat`. -/
def exLink (lat : String) : SDL_Link := ⟨⟨[("lat", lat)]⟩⟩

/-- A link endpoint without a latency parameter. -/
def exLinkNoLat : SDL_Link := ⟨⟨[("other", "1")]⟩⟩

/-- The example of section 8: A (rank 0), B (rank 0), C (rank 1); link x joins A
(latency 4) and C (latency 7), link y joins A (latency 2) and B (latency 2). -/
def exMapABC : List (String × SDL_Component) :=
  [("A", ⟨⟨0⟩, 0, [("x", exLink "4"), ("y", exLink "2")]⟩),
   ("B", ⟨⟨0⟩, 0, [("y", exLink "2")]⟩),
   ("C", ⟨⟨0⟩, 1, [("x", exLink "7")]⟩)]

/-- Link x joins A, which declares no latency, and B, which declares 4294967295
ticks. -/
def exMapMissingLat : List (String × SDL_Component) :=
  [("A", ⟨⟨0⟩, 0, [("x", exLinkNoLat)]⟩),
   ("B", ⟨⟨0⟩, 1, [("x", exLink "4294967295")]⟩)]

/-- Three link references: x at A and at B, y at B only. -/
def exMapOdd : List (String × SDL_Component) :=
  [("A", ⟨⟨0⟩, 0, [("x", exLink "4")]⟩),
   ("B", ⟨⟨0⟩, 1, [("x", exLink "7"), ("y", exLink "1")]⟩)]

/-- A configuration graph with three components (identifiers 0, 1, 2) and no link. -/
def exConfigGraph : ConfigGraph :=
  { comps := [(0, { ConfigComponent.new 0 with name := "A", type := "cpu" }),
              (1, { ConfigComponent.new 1 with name := "B", type := "mem" }),
              (2, { ConfigComponent.new 2 with name := "C", type := "nic" })],
    links := [] }

/-- The process state that goes with `exConfigGraph`. -/
def exProcState : ProcState := { ConfigComponent_count := 3 }

/-- A component with the parameters clock = 1GHz and size = 8. -/
def exComponentParam : ConfigComponent :=
  { ConfigComponent.new 0 with
    name := "A", type := "cpu", params := ⟨[("clock", "1GHz"), ("size", "8")]⟩ }

/-- A configuration graph whose only component is `exComponentParam`. -/
def exConfigGraphParam : ConfigGraph :=
  { comps := [(0, exComponentParam)], links := [] }

/-! ## Events (event.h) -/

/-- The class Event of event.h with its two private fields: the direct reference
`delivery_link` (a `Link*`, `none` while it does not point to a live link) and the
portable identifier `link_id`. The constructor `Event()` sets neither field. -/
structure Event where
  /-- The in-process reference to the delivering link. -/
  delivery_link : Option Nat
  /-- The portable link identifier. -/
  link_id : Nat
deriving DecidableEq, Repr

/-- The content of a serialization archive: the values written so far, in order. -/
abbrev Archive := List Nat

/-- The member template `Event::serialize(ar, version)`, used for saving and for
loading alike: its body is empty, so neither the event nor the archive changes. -/
def Event.serialize (e : Event) (ar : Archive) (_version : Nat) : Event × Archive := (e, ar)

/-- Saving an event into an empty archive. -/
def Event.save (e : Event) (version : Nat) : Archive := (e.serialize [] version).2

/-- Loading an event from an archive into the object `fresh` that the receiving side
has constructed. -/
def Event.load (fresh : Event) (ar : Archive) (version : Nat) : Event :=
  (fresh.serialize ar version).1

/-! ## Sequences of configuration calls -/

/-- A call of one of the building operations of the configuration graph. -/
inductive ConfigCall where
  /-- The call `addComponent(name, type)`. -/
  | addComponent (name type : String)
  /-- The call `addComponent(name, type, weight, rank)`. -/
  | addComponent4 (name type : String) (weight : FloatVal) (rank : Int)
  /-- The call `addIntrospector(name, type)`. -/
  | addIntrospector (name type : String)
  /-- The call `setComponentRank(comp_id, rank)`. -/
  | setComponentRank (comp_id : Nat) (rank : Int)
  /-- The call `setComponentWeight(comp_id, weight)`. -/
  | setComponentWeight (comp_id : Nat) (weight : FloatVal)
  /-- The call `setComponentRanks(rank)`. -/
  | setComponentRanks (rank : Int)
  /-- The call `addParams(comp_id, p)`. -/
  | addParams (comp_id : Nat) (p : Params)
  /-- The call `addParameter(comp_id, key, value, overwrite)`. -/
  | addParameter (comp_id : Nat) (key value : String) (overwrite : Bool)
  /-- The call `addLink(comp_id, link_name, port, latency_str)`. -/
  | addLink (comp_id : Nat) (link_name port latency_str : String)
deriving DecidableEq, Repr

/-- The state a call leaves when it returns; `none` when the process is terminated. -/
def Outcome.state? {σ α : Type} : Outcome σ α → Option σ
  | .ok s _ => some s
  | _ => none

/-- The state after a successful call, `none` when the call does not return. -/
def ConfigCall.run (sim : Simulation) (s : ProcState × ConfigGraph) :
    ConfigCall → Option (ProcState × ConfigGraph)
  | .addComponent name type => (ConfigGraph.addComponent s.1 s.2 name type).state?
  | .addComponent4 name type weight rank =>
    (ConfigGraph.addComponent4 s.1 s.2 name type weight rank).state?
  | .addIntrospector name type => (ConfigGraph.addIntrospector s.1 s.2 name type).state?
  | .setComponentRank comp_id rank =>
    (ConfigGraph.setComponentRank s.1 s.2 comp_id rank).state?
  | .setComponentWeight comp_id weight =>
    (ConfigGraph.setComponentWeight s.1 s.2 comp_id weight).state?
  | .setComponentRanks rank => (ConfigGraph.setComponentRanks s.1 s.2 rank).state?
  | .addParams comp_id p => (ConfigGraph.addParams s.1 s.2 comp_id p).state?
  | .addParameter comp_id key value overwrite =>
    (ConfigGraph.addParameter s.1 s.2 comp_id key value overwrite).state?
  | .addLink comp_id link_name port latency_str =>
    (ConfigGraph.addLink sim s.1 s.2 comp_id link_name port latency_str).state?

/-- The state after a sequence of calls that all return. -/
def runCalls (sim : Simulation) :
    List ConfigCall → ProcState × ConfigGraph → Option (ProcState × ConfigGraph)
  | [], s => some s
  | c :: cs, s =>
    match c.run sim s with
    | some s1 => runCalls sim cs s1
    | none => none

/-- The number of times the link at address `link` occurs in the link lists of the
components. -/
def refTotal (link : Nat) (comps : List (Nat × ConfigComponent)) : Nat :=
  (comps.map (fun x => x.2.links.count link)).sum

/-- The referential invariant of a configuration graph: every link a component owns
is the link the link table holds under the name of that link; every occupied slot
of a link of the table names a component of the component table; and the reference
count of every link of the table is 1 or 2 and equals the number of occurrences of
the link in the link lists of the components. -/
def ConfigGraph.referential (ps : ProcState) (g : ConfigGraph) : Prop :=
  (∀ x ∈ g.comps, ∀ p ∈ x.2.links,
    ∃ l, ps.linkHeap[p]? = some l ∧ mapFind l.name g.links = some p) ∧
  (∀ y ∈ g.links, ∃ l, ps.linkHeap[y.2]? = some l ∧
    (∀ i, i < l.current_ref → mapFind (getSlot i l.component) g.comps ≠ none) ∧
    1 ≤ l.current_ref ∧ l.current_ref ≤ 2 ∧ l.current_ref = refTotal y.2 g.comps)

/-- The sum of the lengths of the adjacency lists of a vertex list. -/
def adjTotal (vlist : List (Int × Vertex)) : Nat :=
  (vlist.map (fun x => x.2.adj_list.length)).sum

/-- The edge identifiers the second loop of `makeGraph` appends to the adjacency
list of the vertex `k`, in order, when `Edge::count` stands at `count`. -/
def adjAdd : List (String × Int) → Int → Int → List Int
  | (_, p0) :: (_, p1) :: rest, count, k =>
    (if p0 = k then [count] else []) ++ (if p1 = k then [count] else []) ++
      adjAdd rest (count + 1) k
  | _, _, _ => []

/-! ## Further example inputs -/

/-- An event that carries the portable identifier 7 and no live link reference. -/
def exEventUnresolved : Event := { delivery_link := none, link_id := 7 }

/-- The object a receiving process constructs before loading: no live link,
identifier 0. -/
def exEventFresh : Event := { delivery_link := none, link_id := 0 }

/-- A parameter set with two entries. -/
def exParams : Params := ⟨[("clock", "2GHz"), ("width", "64")]⟩

/-- A sequence of calls: two components, a link between them, a rank, a parameter. -/
def exCalls : List ConfigCall :=
  [.addComponent "A" "cpu", .addComponent4 "B" "mem" ⟨1⟩ 1, .addLink 0 "bus" "p0" "10",
   .setComponentRank 0 0, .addLink 1 "bus" "p1" "20", .addParameter 0 "clock" "1GHz" true,
   .addIntrospector "I" "probe", .addLink 2 "tap" "p2" "5"]

/-- What a component-creating call does when the counter `ConfigComponent::count`
lies above every identifier in use: it returns the counter value as the new
identifier and advances the counter; the identifier was not in use and exceeds
every identifier in use; the table holds under it a component with the given
name, type and introspector flag that satisfies `extra`; the table has one
component more, every other entry and the link table are as before, and the
advanced counter again lies above every identifier in use. -/
def allocatesFresh (ps : ProcState) (g : ConfigGraph)
    (out : Outcome (ProcState × ConfigGraph) Nat) (name type : String) (introspector : Bool)
    (extra : ConfigComponent → Prop) : Prop :=
  ∃ g2 c,
    out = .ok ({ ps with ConfigComponent_count := ps.ConfigComponent_count + 1 }, g2)
      ps.ConfigComponent_count ∧
    mapFind ps.ConfigComponent_count g.comps = none ∧
    (∀ k, mapFind k g.comps ≠ none → k < ps.ConfigComponent_count) ∧
    mapFind ps.ConfigComponent_count g2.comps = some c ∧
    c.id = ps.ConfigComponent_count ∧ c.name = name ∧ c.type = type ∧
    c.isIntrospector = introspector ∧ c.links = [] ∧ extra c ∧
    g2.comps.length = g.comps.length + 1 ∧
    (∀ k, k ≠ ps.ConfigComponent_count → mapFind k g2.comps = mapFind k g.comps) ∧
    g2.links = g.links ∧
    (∀ k, ps.ConfigComponent_count + 1 ≤ k → mapFind k g2.comps = none)

/-- The invariant that the building operations maintain: the counter
`ConfigComponent::count` lies above every identifier in use; every link a
component owns is a live object that the link table holds under its name; and
every entry of the link table points to a live object of that name whose occupied
slots name components of the table and whose reference count is 1 or 2 and equals
the number of occurrences of the link in the link lists of the components. -/
def ConfigGraph.consistent (ps : ProcState) (g : ConfigGraph) : Prop :=
  (∀ k, ps.ConfigComponent_count ≤ k → mapFind k g.comps = none) ∧
  (∀ x ∈ g.comps, ∀ p ∈ x.2.links,
    ∃ l, ps.linkHeap[p]? = some l ∧ mapFind l.name g.links = some p) ∧
  (∀ y ∈ g.links, ∃ l, ps.linkHeap[y.2]? = some l ∧ l.name = y.1 ∧
    (∀ i, i < l.current_ref → mapFind (getSlot i l.component) g.comps ≠ none) ∧
    1 ≤ l.current_ref ∧ l.current_ref ≤ 2 ∧ l.current_ref = refTotal y.2 g.comps)

/-- The state `exCalls` leads to from the empty graph with all counters at 0. -/
def exCallsState : ProcState × ConfigGraph :=
  ({ ConfigComponent_count := 3, ConfigLink_count := 2,
     linkHeap := [{ id := 0, name := "bus", component := (0, 1), port := ("p0", "p1"),
                    latency := (10, 20), current_ref := 2 },
                  { id := 1, name := "tap", component := (2, 0), port := ("p2", ""),
                    latency := (5, 0), current_ref := 1 }] },
   { comps := [(0, { id := 0, name := "A", type := "cpu", weight := ⟨0⟩, rank := 0,
                     links := [0], params := ⟨[("clock", "1GHz")]⟩, isIntrospector := false }),
               (1, { id := 1, name := "B", type := "mem", weight := ⟨1⟩, rank := 1,
                     links := [0], params := ⟨[]⟩, isIntrospector := false }),
               (2, { id := 2, name := "I", type := "probe", weight := ⟨0⟩, rank := -1,
                     links := [1], params := ⟨[]⟩, isIntrospector := true })],
     links := [("bus", 0), ("tap", 1)] })

/-- A single component that references two links, a and b. -/
def exMapSelfLoop : List (String × SDL_Component) :=
  [("A", ⟨⟨0⟩, 0, [("a", exLink "4"), ("b", exLink "7")]⟩)]

/-! ## Ordered containers -/

theorem mapFind_mapSet_self {K V : Type} [KeyOrd K] [DecidableEq K] (k : K) (v : V)
    (l : List (K × V)) : mapFind k (mapSet k v l) = some v := by
  induction l with
  | nil => simp [mapSet, mapFind]
  | cons p t ih =>
    obtain ⟨k1, v1⟩ := p
    unfold mapSet
    split
    · simp [mapFind]
    · split
      · simp [mapFind]
      · rename_i h1 h2
        simp [mapFind, h2, ih]

theorem mapFind_mapSet_ne {K V : Type} [KeyOrd K] [DecidableEq K] (k k2 : K) (v : V)
    (l : List (K × V)) (h : k ≠ k2) : mapFind k2 (mapSet k v l) = mapFind k2 l := by
  induction l with
  | nil => simp [mapSet, mapFind, h]
  | cons p t ih =>
    obtain ⟨k1, v1⟩ := p
    unfold mapSet
    split
    · simp [mapFind, h]
    · split
      · rename_i h1 h2
        subst h2
        simp [mapFind, h]
      · rename_i h1 h2
        simp [mapFind, ih]

theorem mem_mapSet {K V : Type} [KeyOrd K] [DecidableEq K] (k : K) (v : V)
    (l : List (K × V)) (p : K × V) (hp : p ∈ mapSet k v l) : p = (k, v) ∨ p ∈ l := by
  induction l with
  | nil => simpa [mapSet] using hp
  | cons q t ih =>
    obtain ⟨k1, v1⟩ := q
    unfold mapSet at hp
    split at hp
    · simpa using hp
    · split at hp
      · rcases List.mem_cons.mp hp with h | h
        · exact Or.inl h
        · exact Or.inr (List.mem_cons_of_mem _ h)
      · rcases List.mem_cons.mp hp with h | h
        · exact Or.inr (h ▸ List.mem_cons_self _ _)
        · rcases ih h with h2 | h2
          · exact Or.inl h2
          · exact Or.inr (List.mem_cons_of_mem _ h2)

theorem mem_mapSet_self {K V : Type} [KeyOrd K] [DecidableEq K] (k : K) (v : V)
    (l : List (K × V)) : (k, v) ∈ mapSet k v l := by
  induction l with
  | nil => simp [mapSet]
  | cons q t ih =>
    obtain ⟨k1, v1⟩ := q
    unfold mapSet
    split
    · simp
    · split
      · simp
      · exact List.mem_cons_of_mem _ ih

theorem mem_mapSet_of_mem {K V : Type} [KeyOrd K] [DecidableEq K] (k : K) (v : V)
    (l : List (K × V)) (p : K × V) (hp : p ∈ l) (hk : p.1 ≠ k) : p ∈ mapSet k v l := by
  induction l with
  | nil => simp at hp
  | cons q t ih =>
    obtain ⟨k1, v1⟩ := q
    unfold mapSet
    split
    · exact List.mem_cons_of_mem _ hp
    · split
      · rename_i h1 h2
        rcases List.mem_cons.mp hp with h | h
        · subst h
          exact absurd h2 hk
        · exact List.mem_cons_of_mem _ h
      · rcases List.mem_cons.mp hp with h | h
        · exact h ▸ List.mem_cons_self _ _
        · exact List.mem_cons_of_mem _ (ih h)

theorem mapFind_eq_none_iff {K V : Type} [DecidableEq K] (k : K) (l : List (K × V)) :
    mapFind k l = none ↔ ∀ p ∈ l, p.1 ≠ k := by
  induction l with
  | nil => simp [mapFind]
  | cons q t ih =>
    obtain ⟨k1, v1⟩ := q
    by_cases h : k1 = k
    · simp [mapFind, h]
    · simp [mapFind, h, ih]

theorem mapFind_mem {K V : Type} [DecidableEq K] (k : K) (v : V) (l : List (K × V))
    (h : mapFind k l = some v) : (k, v) ∈ l := by
  induction l with
  | nil => simp [mapFind] at h
  | cons q t ih =>
    obtain ⟨k1, v1⟩ := q
    by_cases h1 : k1 = k
    · simp [mapFind, h1] at h
      simp [h1, h]
    · simp [mapFind, h1] at h
      exact List.mem_cons_of_mem _ (ih h)

theorem mapFind_isSome_of_mem {K V : Type} [DecidableEq K] (k : K) (v : V) (l : List (K × V))
    (h : (k, v) ∈ l) : ∃ w, mapFind k l = some w := by
  induction l with
  | nil => simp at h
  | cons q t ih =>
    obtain ⟨k1, v1⟩ := q
    by_cases h1 : k1 = k
    · exact ⟨v1, by simp [mapFind, h1]⟩
    · rcases List.mem_cons.mp h with h2 | h2
      · exact absurd (congrArg Prod.fst h2).symm h1
      · obtain ⟨w, hw⟩ := ih h2
        exact ⟨w, by simp [mapFind, h1, hw]⟩

theorem mapFind_of_mem_distinct {K V : Type} [DecidableEq K] (k : K) (v : V)
    (l : List (K × V)) (hd : (l.map Prod.fst).Nodup) (h : (k, v) ∈ l) :
    mapFind k l = some v := by
  induction l with
  | nil => simp at h
  | cons q t ih =>
    obtain ⟨k1, v1⟩ := q
    simp only [List.map_cons, List.nodup_cons] at hd
    rcases List.mem_cons.mp h with h2 | h2
    · cases h2
      simp [mapFind]
    · have hne : k1 ≠ k := by
        rintro rfl
        exact hd.1 (List.mem_map.mpr ⟨(k1, v), h2, rfl⟩)
      simp [mapFind, hne, ih hd.2 h2]

theorem length_mapSet_fresh {K V : Type} [KeyOrd K] [DecidableEq K] (k : K) (v : V)
    (l : List (K × V)) (h : mapFind k l = none) : (mapSet k v l).length = l.length + 1 := by
  induction l with
  | nil => simp [mapSet]
  | cons q t ih =>
    obtain ⟨k1, v1⟩ := q
    by_cases h1 : k1 = k
    · simp [mapFind, h1] at h
    · simp only [mapFind, h1, if_false] at h
      unfold mapSet
      split
      · simp
      · simp [h1, ih h]

theorem mapFind_mapModify_self {K V : Type} [DecidableEq K] (k : K) (f : V → V)
    (l : List (K × V)) : mapFind k (mapModify k f l) = (mapFind k l).map f := by
  induction l with
  | nil => simp [mapModify, mapFind]
  | cons q t ih =>
    obtain ⟨k1, v1⟩ := q
    by_cases h1 : k1 = k
    · simp [mapModify, mapFind, h1]
    · simp [mapModify, mapFind, h1, ih]

theorem mapFind_mapModify_ne {K V : Type} [DecidableEq K] (k k2 : K) (f : V → V)
    (l : List (K × V)) (h : k ≠ k2) : mapFind k2 (mapModify k f l) = mapFind k2 l := by
  induction l with
  | nil => simp [mapModify, mapFind]
  | cons q t ih =>
    obtain ⟨k1, v1⟩ := q
    by_cases h1 : k1 = k
    · subst h1
      simp [mapModify, mapFind, h]
    · simp [mapModify, mapFind, h1, ih]

theorem mapFind_mapModify_none {K V : Type} [DecidableEq K] (k k2 : K) (f : V → V)
    (l : List (K × V)) : mapFind k2 (mapModify k f l) = none ↔ mapFind k2 l = none := by
  by_cases h : k = k2
  · subst h
    rw [mapFind_mapModify_self]
    cases mapFind k l <;> simp
  · rw [mapFind_mapModify_ne _ _ _ _ h]

theorem length_mapModify {K V : Type} [DecidableEq K] (k : K) (f : V → V)
    (l : List (K × V)) : (mapModify k f l).length = l.length := by
  induction l with
  | nil => simp [mapModify]
  | cons q t ih =>
    obtain ⟨k1, v1⟩ := q
    by_cases h1 : k1 = k
    · simp [mapModify, h1]
    · simp [mapModify, h1, ih]

theorem mmInsert_perm {K V : Type} [KeyOrd K] (k : K) (v : V) (l : List (K × V)) :
    List.Perm (mmInsert k v l) ((k, v) :: l) := by
  induction l with
  | nil => simp [mmInsert]
  | cons q t ih =>
    obtain ⟨k1, v1⟩ := q
    unfold mmInsert
    split
    · exact List.Perm.refl _
    · exact (List.Perm.cons _ ih).trans (List.Perm.swap _ _ _)

theorem klt_string_iff (a b : String) : KeyOrd.klt a b = true ↔ a < b := by
  show decide (strLt a b) = true ↔ a < b
  rw [decide_eq_true_iff]
  exact String.lt_iff_toList_lt.symm

/-- A multimap keyed by strings is in ascending key order. -/
theorem mmInsert_sorted {V : Type} (k : String) (v : V) (l : List (String × V))
    (h : l.Pairwise (fun a b => a.1 ≤ b.1)) :
    (mmInsert k v l).Pairwise (fun a b => a.1 ≤ b.1) := by
  induction l with
  | nil => simp [mmInsert]
  | cons q t ih =>
    obtain ⟨k1, v1⟩ := q
    rw [List.pairwise_cons] at h
    unfold mmInsert
    split
    · rename_i hlt
      have hlt2 : k < k1 := (klt_string_iff k k1).mp hlt
      rw [List.pairwise_cons]
      refine ⟨?_, List.pairwise_cons.mpr h⟩
      intro b hb
      rcases List.mem_cons.mp hb with rfl | hb
      · exact le_of_lt hlt2
      · exact le_trans (le_of_lt hlt2) (h.1 b hb)
    · rename_i hlt
      have hge : k1 ≤ k := by
        rw [klt_string_iff] at hlt
        exact not_lt.mp hlt
      rw [List.pairwise_cons]
      refine ⟨?_, ih h.2⟩
      intro b hb
      have hb2 := (mmInsert_perm k v t).subset hb
      rcases List.mem_cons.mp hb2 with rfl | hb2
      · exact hge
      · exact h.1 b hb2

/-! ## Decimal rendering and atoi -/

theorem digitChar_facts : ∀ d, d < 10 →
    (Nat.digitChar d).isDigit = true ∧ (Nat.digitChar d).toNat - 48 = d ∧
    isSpace (Nat.digitChar d) = false ∧ Nat.digitChar d ≠ '-' ∧ Nat.digitChar d ≠ '+' := by
  decide

theorem atoiDigits_decDigitsAux (fuel : Nat) : ∀ (n : Nat) (acc : List Char), n < fuel →
    ∃ k, ∀ a, atoiDigits a (decDigitsAux fuel n acc) = atoiDigits (a * 10 ^ k + n) acc := by
  induction fuel with
  | zero => intro n acc h; omega
  | succ fuel ih =>
    intro n acc h
    have hd := digitChar_facts (n % 10) (Nat.mod_lt _ (by decide))
    by_cases h0 : n / 10 = 0
    · refine ⟨1, fun a => ?_⟩
      have hn : n % 10 = n := by omega
      rw [hn] at hd
      simp only [decDigitsAux, h0, if_true, atoiDigits, hd.1, hd.2.1, hn, pow_one]
    · have hlt : n / 10 < fuel := by omega
      obtain ⟨k, hk⟩ := ih (n / 10) (Nat.digitChar (n % 10) :: acc) hlt
      refine ⟨k + 1, fun a => ?_⟩
      simp only [decDigitsAux, h0, if_false]
      rw [hk a]
      simp only [atoiDigits, hd.1, hd.2.1, if_true]
      congr 1
      rw [pow_succ]
      have := Nat.div_add_mod n 10
      nlinarith [this]

theorem decDigitsAux_head (fuel : Nat) : ∀ (n : Nat) (acc : List Char), n < fuel →
    ∃ d t, d < 10 ∧ decDigitsAux fuel n acc = Nat.digitChar d :: t := by
  induction fuel with
  | zero => intro n acc h; omega
  | succ fuel ih =>
    intro n acc h
    by_cases h0 : n / 10 = 0
    · exact ⟨n % 10, acc, Nat.mod_lt _ (by decide), by simp [decDigitsAux, h0]⟩
    · have hlt : n / 10 < fuel := by omega
      obtain ⟨d, t, hd, ht⟩ := ih (n / 10) (Nat.digitChar (n % 10) :: acc) hlt
      exact ⟨d, t, hd, by simp [decDigitsAux, h0, ht]⟩

theorem atoiDigits_decDigits (n : Nat) : atoiDigits 0 (decDigits n) = n := by
  obtain ⟨k, hk⟩ := atoiDigits_decDigitsAux (n + 1) n [] (Nat.lt_succ_self n)
  rw [decDigits, hk 0]
  simp [atoiDigits]

/-- The text written for a non-negative `int` is read back by `atoi` unchanged. -/
theorem atoi_fmtInt (v : Int) (h0 : 0 ≤ v) (h1 : v < 2147483648) : atoi (fmtInt v) = v := by
  obtain ⟨d, t, hd, ht⟩ := decDigitsAux_head (v.natAbs + 1) v.natAbs [] (Nat.lt_succ_self _)
  have hf := digitChar_facts d hd
  have hneg : ¬ v < 0 := by omega
  have hdata : (fmtInt v).data = decDigits v.natAbs := by
    simp only [fmtInt, hneg, if_false]
  have hdig := atoiDigits_decDigits v.natAbs
  have hdd : decDigits v.natAbs = Nat.digitChar d :: t := ht
  unfold atoi
  rw [hdata, hdd]
  rw [hdd] at hdig
  simp only [List.dropWhile, hf.2.2.1, atoiSigned, hf.2.2.2.1, hf.2.2.2.2, if_false, hdig]
  have hv : ((v.natAbs : Nat) : Int) = v := Int.natAbs_of_nonneg h0
  rw [hv]
  unfold clampLong toInt32
  have e1 : ¬ v < -9223372036854775808 := by omega
  have e2 : ¬ 9223372036854775807 < v := by omega
  simp only [e1, e2, if_false]
  have e3 : v % 4294967296 = v := Int.emod_eq_of_lt h0 (by omega)
  simp only [e3, h1, if_true]

theorem toInt32_small (n : Nat) (h : n < 2147483648) : toInt32 (n : Int) = n := by
  unfold toInt32
  have e3 : (n : Int) % 4294967296 = n := Int.emod_eq_of_lt (by omega) (by omega)
  have e4 : (n : Int) < 2147483648 := by omega
  simp only [e3, e4, if_true]

theorem min_comm_int (a b : Int) : SST.min a b = SST.min b a := by
  unfold SST.min
  split <;> split <;> omega

theorem min_eq_Min (a b : Int) : SST.min a b = Min.min a b := by
  unfold SST.min
  split
  · rename_i h
    exact (min_eq_left (le_of_lt h)).symm
  · rename_i h
    exact (min_eq_right (not_lt.mp h)).symm

/-! ## Pairing up a sorted multimap -/

theorem count_names_cons {V : Type} (a : String × V) (l : List (String × V)) (n : String) :
    ((a :: l).map Prod.fst).count n = (l.map Prod.fst).count n + (if a.1 = n then 1 else 0) := by
  simp only [List.map_cons, List.count_cons]
  simp only [beq_iff_eq]

theorem pairs_head_same {V : Type} (a b : String × V) (rest : List (String × V))
    (hs : (a :: b :: rest).Pairwise (fun x y => x.1 ≤ y.1))
    (hev : ((a :: b :: rest).map Prod.fst).count a.1 % 2 = 0) : a.1 = b.1 := by
  by_contra hne
  rw [List.pairwise_cons] at hs
  obtain ⟨ha, hs2⟩ := hs
  rw [List.pairwise_cons] at hs2
  have hab : a.1 < b.1 := lt_of_le_of_ne (ha b (List.mem_cons_self _ _)) hne
  have hrest : (rest.map Prod.fst).count a.1 = 0 := by
    rw [List.count_eq_zero]
    intro hmem
    obtain ⟨x, hx, hxa⟩ := List.mem_map.mp hmem
    have h1 : b.1 ≤ x.1 := hs2.1 x hx
    rw [hxa] at h1
    exact absurd hab (not_lt.mpr h1)
  rw [count_names_cons, count_names_cons, hrest] at hev
  have hba : ¬ b.1 = a.1 := fun h => hne h.symm
  simp [hba] at hev

theorem pairs_same_name {V : Type} : ∀ (lm : List (String × V)),
    lm.Pairwise (fun x y => x.1 ≤ y.1) →
    (∀ n, (lm.map Prod.fst).count n % 2 = 0) →
    ∀ pr ∈ pairs lm, pr.1.1 = pr.2.1
  | [], _, _ => by simp [pairs]
  | [_], _, _ => by simp [pairs]
  | a :: b :: rest, hs, hev => by
    intro pr hpr
    have hab : a.1 = b.1 := pairs_head_same a b rest hs (hev a.1)
    simp only [pairs, List.mem_cons] at hpr
    rcases hpr with rfl | hpr
    · exact hab
    · have hs2 : rest.Pairwise (fun x y => x.1 ≤ y.1) :=
        (List.pairwise_cons.mp (List.pairwise_cons.mp hs).2).2
      refine pairs_same_name rest hs2 ?_ pr hpr
      intro n
      have h := hev n
      rw [count_names_cons, count_names_cons] at h
      by_cases hn : a.1 = n
      · have hb : b.1 = n := hab ▸ hn
        simp only [hn, hb, if_true] at h
        omega
      · have hb : ¬ b.1 = n := fun hb => hn (hab.trans hb)
        simp only [hn, hb, if_false] at h
        omega

theorem pairs_complete {V : Type} : ∀ (lm : List (String × V)),
    lm.Pairwise (fun x y => x.1 ≤ y.1) →
    (∀ n, (lm.map Prod.fst).count n = 0 ∨ (lm.map Prod.fst).count n = 2) →
    ∀ x ∈ lm, ∀ y ∈ lm, x.1 = y.1 → x ≠ y → (x, y) ∈ pairs lm ∨ (y, x) ∈ pairs lm
  | [], _, _ => by simp
  | [a], _, hc => by
    have h := hc a.1
    simp at h
  | a :: b :: rest, hs, hc => by
    intro x hx y hy hxy hne
    have hab : a.1 = b.1 := by
      refine pairs_head_same a b rest hs ?_
      rcases hc a.1 with h | h <;> omega
    have hs2 : rest.Pairwise (fun x y => x.1 ≤ y.1) :=
      (List.pairwise_cons.mp (List.pairwise_cons.mp hs).2).2
    have hcount : ∀ n, (rest.map Prod.fst).count n =
        ((a :: b :: rest).map Prod.fst).count n - (if a.1 = n then 2 else 0) := by
      intro n
      rw [count_names_cons, count_names_cons]
      by_cases hn : a.1 = n
      · have hb : b.1 = n := hab ▸ hn
        simp only [hn, hb, if_true]
        omega
      · have hb : ¬ b.1 = n := fun hb => hn (hab.trans hb)
        simp only [hn, hb, if_false]
        omega
    have hnot : ∀ z ∈ rest, z.1 ≠ a.1 := by
      intro z hz hza
      have h1 := hcount a.1
      simp only [if_true] at h1
      have h2 : 0 < (rest.map Prod.fst).count a.1 :=
        List.count_pos_iff.mpr (List.mem_map.mpr ⟨z, hz, hza⟩)
      rcases hc a.1 with h | h <;> omega
    have hrestc : ∀ n, (rest.map Prod.fst).count n = 0 ∨ (rest.map Prod.fst).count n = 2 := by
      intro n
      have h1 := hcount n
      by_cases hn : a.1 = n
      · simp only [hn, if_true] at h1
        rcases hc n with h | h <;> omega
      · simp only [hn, if_false] at h1
        rcases hc n with h | h <;> omega
    simp only [List.mem_cons] at hx hy
    simp only [pairs, List.mem_cons]
    by_cases hxa : x.1 = a.1
    · have hya : y.1 = a.1 := hxy ▸ hxa
      have hx2 : x = a ∨ x = b := by
        rcases hx with h | h | h
        · exact Or.inl h
        · exact Or.inr h
        · exact absurd hxa (hnot x h)
      have hy2 : y = a ∨ y = b := by
        rcases hy with h | h | h
        · exact Or.inl h
        · exact Or.inr h
        · exact absurd hya (hnot y h)
      rcases hx2 with rfl | rfl <;> rcases hy2 with rfl | rfl
      · exact absurd rfl hne
      · exact Or.inl (Or.inl rfl)
      · exact Or.inr (Or.inl rfl)
      · exact absurd rfl hne
    · have hya : y.1 ≠ a.1 := fun h => hxa (hxy.trans h)
      have hx2 : x ∈ rest := by
        rcases hx with h | h | h
        · exact absurd (congrArg Prod.fst h) hxa
        · exact absurd ((congrArg Prod.fst h).trans hab.symm) hxa
        · exact h
      have hy2 : y ∈ rest := by
        rcases hy with h | h | h
        · exact absurd (congrArg Prod.fst h) hya
        · exact absurd ((congrArg Prod.fst h).trans hab.symm) hya
        · exact h
      rcases pairs_complete rest hs2 hrestc x hx2 y hy2 hxy hne with h | h
      · exact Or.inl (Or.inr h)
      · exact Or.inr (Or.inr h)

theorem pairs_mem {α : Type} : ∀ (l : List α), ∀ pr ∈ pairs l, pr.1 ∈ l ∧ pr.2 ∈ l
  | [], _, h => by simp [pairs] at h
  | [_], _, h => by simp [pairs] at h
  | a :: b :: rest, pr, h => by
    simp only [pairs, List.mem_cons] at h
    rcases h with rfl | h
    · simp
    · have := pairs_mem rest pr h
      exact ⟨List.mem_cons_of_mem _ (List.mem_cons_of_mem _ this.1),
        List.mem_cons_of_mem _ (List.mem_cons_of_mem _ this.2)⟩

theorem pairs_length {α : Type} : ∀ (l : List α), (pairs l).length = l.length / 2
  | [] => by simp [pairs]
  | [_] => by simp [pairs]
  | a :: b :: rest => by
    simp only [pairs, List.length_cons, pairs_length rest]
    omega

/-! ## The first loop of makeGraph -/

theorem makeGraph_links_perm (v : Int) (links : List (String × SDL_Link))
    (lm : List (String × Int)) :
    List.Perm (makeGraph_links v links lm) (lm ++ links.map (fun l => (l.1, v))) := by
  induction links generalizing lm with
  | nil => simp [makeGraph_links]
  | cons l rest ih =>
    obtain ⟨name, sl⟩ := l
    simp only [makeGraph_links, List.map_cons]
    refine (ih _).trans ?_
    refine ((mmInsert_perm name v lm).append_right _).trans ?_
    simp only [List.cons_append]
    exact List.perm_middle.symm

theorem makeGraph_links_sorted (v : Int) (links : List (String × SDL_Link))
    (lm : List (String × Int)) (h : lm.Pairwise (fun a b => a.1 ≤ b.1)) :
    (makeGraph_links v links lm).Pairwise (fun a b => a.1 ≤ b.1) := by
  induction links generalizing lm with
  | nil => simpa [makeGraph_links] using h
  | cons l rest ih =>
    obtain ⟨name, sl⟩ := l
    simp only [makeGraph_links]
    exact ih _ (mmInsert_sorted name v lm h)

theorem makeGraph_vertices_cons (fmtFloat : FloatVal → String) (name : String)
    (c : SDL_Component) (rest : List (String × SDL_Component)) (count vId : Int)
    (vlist : List (Int × Vertex)) (lm : List (String × Int)) :
    makeGraph_vertices fmtFloat ((name, c) :: rest) count vId vlist lm =
      makeGraph_vertices fmtFloat rest (count + 1) (vId + 1)
        (mapSet count (mkVertex fmtFloat count vId name c) vlist)
        (makeGraph_links count c.links lm) := rfl

theorem vertexIds_bounds (count : Int) (map : List (String × SDL_Component)) :
    ∀ x ∈ vertexIds count map, count ≤ x.1 ∧ x.1 < count + map.length := by
  induction map generalizing count with
  | nil => simp [vertexIds]
  | cons y rest ih =>
    intro x hx
    simp only [vertexIds, List.mem_cons] at hx
    simp only [List.length_cons, Nat.cast_add, Nat.cast_one]
    rcases hx with rfl | hx
    · simp only
      omega
    · have := ih (count + 1) x hx
      omega

theorem mkVertex_comp_name (fmtFloat : FloatVal → String) (count vId : Int) (name : String)
    (c : SDL_Component) :
    (mkVertex fmtFloat count vId name c).prop_list.get GRAPH_COMP_NAME = name := by
  simp only [mkVertex, PropList.get, PropList.set]
  rw [mapFind_mapSet_ne _ _ _ _ (by decide), mapFind_mapSet_ne _ _ _ _ (by decide),
    mapFind_mapSet_self]
  rfl

theorem makeGraph_vertices_count (fmtFloat : FloatVal → String)
    (map : List (String × SDL_Component)) (count vId : Int) (vlist : List (Int × Vertex))
    (lm : List (String × Int)) :
    (makeGraph_vertices fmtFloat map count vId vlist lm).1 = count + map.length := by
  induction map generalizing count vId vlist lm with
  | nil => simp [makeGraph_vertices]
  | cons y rest ih =>
    obtain ⟨name, c⟩ := y
    rw [makeGraph_vertices_cons, ih]
    simp only [List.length_cons, Nat.cast_add, Nat.cast_one]
    omega

theorem makeGraph_vertices_sorted (fmtFloat : FloatVal → String)
    (map : List (String × SDL_Component)) (count vId : Int) (vlist : List (Int × Vertex))
    (lm : List (String × Int)) (h : lm.Pairwise (fun a b => a.1 ≤ b.1)) :
    (makeGraph_vertices fmtFloat map count vId vlist lm).2.2.Pairwise
      (fun a b => a.1 ≤ b.1) := by
  induction map generalizing count vId vlist lm with
  | nil => simpa [makeGraph_vertices] using h
  | cons y rest ih =>
    obtain ⟨name, c⟩ := y
    rw [makeGraph_vertices_cons]
    exact ih _ _ _ _ (makeGraph_links_sorted _ _ _ h)

theorem makeGraph_vertices_perm (fmtFloat : FloatVal → String)
    (map : List (String × SDL_Component)) (count vId : Int) (vlist : List (Int × Vertex))
    (lm : List (String × Int)) :
    List.Perm (makeGraph_vertices fmtFloat map count vId vlist lm).2.2
      (lm ++ linkRefs (vertexIds count map)) := by
  induction map generalizing count vId vlist lm with
  | nil => simp [makeGraph_vertices, vertexIds, linkRefs]
  | cons y rest ih =>
    obtain ⟨name, c⟩ := y
    rw [makeGraph_vertices_cons]
    refine (ih _ _ _ _).trans ?_
    simp only [vertexIds, linkRefs]
    refine ((makeGraph_links_perm count c.links lm).append_right _).trans ?_
    rw [List.append_assoc]

theorem makeGraph_vertices_other (fmtFloat : FloatVal → String)
    (map : List (String × SDL_Component)) (count vId : Int) (vlist : List (Int × Vertex))
    (lm : List (String × Int)) (k : Int) (hk : k < count ∨ count + map.length ≤ k) :
    mapFind k (makeGraph_vertices fmtFloat map count vId vlist lm).2.1 = mapFind k vlist := by
  induction map generalizing count vId vlist lm with
  | nil => simp [makeGraph_vertices]
  | cons y rest ih =>
    obtain ⟨name, c⟩ := y
    simp only [List.length_cons, Nat.cast_add, Nat.cast_one] at hk
    rw [makeGraph_vertices_cons, ih _ _ _ _ (by omega)]
    exact mapFind_mapSet_ne _ _ _ _ (by omega)

theorem makeGraph_vertices_new (fmtFloat : FloatVal → String)
    (map : List (String × SDL_Component)) (count vId : Int) (vlist : List (Int × Vertex))
    (lm : List (String × Int)) :
    ∀ x ∈ vertexIds count map, ∃ i : Int,
      mapFind x.1 (makeGraph_vertices fmtFloat map count vId vlist lm).2.1 =
        some (mkVertex fmtFloat x.1 i x.2.1 x.2.2) := by
  induction map generalizing count vId vlist lm with
  | nil => simp [vertexIds]
  | cons y rest ih =>
    obtain ⟨name, c⟩ := y
    intro x hx
    rw [makeGraph_vertices_cons]
    simp only [vertexIds, List.mem_cons] at hx
    rcases hx with rfl | hx
    · refine ⟨vId, ?_⟩
      rw [makeGraph_vertices_other _ _ _ _ _ _ _ (Or.inl (by omega))]
      exact mapFind_mapSet_self _ _ _
    · exact ih _ _ _ _ x hx

/-! ## The second loop of makeGraph -/

theorem VertexOf_mapModify (vlist : List (Int × Vertex)) (k a : Int) (p : Int) (name : String)
    (rank : Int) (h : VertexOf vlist p name rank) :
    VertexOf (mapModify k (fun v => { v with adj_list := v.adj_list ++ [a] }) vlist)
      p name rank := by
  obtain ⟨v, hv, hid, hr, hn⟩ := h
  by_cases hk : k = p
  · subst hk
    exact ⟨{ v with adj_list := v.adj_list ++ [a] }, by rw [mapFind_mapModify_self, hv]; rfl,
      hid, hr, hn⟩
  · exact ⟨v, by rw [mapFind_mapModify_ne _ _ _ _ hk, hv], hid, hr, hn⟩

theorem VertexOf_unique (vlist : List (Int × Vertex)) (p : Int) (n1 n2 : String) (r1 r2 : Int)
    (h1 : VertexOf vlist p n1 r1) (h2 : VertexOf vlist p n2 r2) : n1 = n2 ∧ r1 = r2 := by
  obtain ⟨v, hv, _, hr, hn⟩ := h1
  obtain ⟨w, hw, _, hr2, hn2⟩ := h2
  rw [hv] at hw
  cases hw
  exact ⟨hn.symm.trans hn2, hr.symm.trans hr2⟩

theorem makeGraph_edges_step (sim : Simulation) (map : List (String × SDL_Component))
    (n0 edge : String) (p0 p1 : Int) (rest : List (String × Int)) (count : Int) (g : Graph)
    (name0 name1 : String) (r0 r1 : Int) (c0 c1 : SDL_Component)
    (h0 : VertexOf g.vlist p0 name0 r0) (hc0 : mapFind name0 map = some c0)
    (h1 : VertexOf g.vlist p1 name1 r1) (hc1 : mapFind name1 map = some c1) :
    makeGraph_edges sim map ((n0, p0) :: (edge, p1) :: rest) count g =
      makeGraph_edges sim map rest (count + 1)
        { vlist := mapModify p1 (fun v => { v with adj_list := v.adj_list ++ [count] })
            (mapModify p0 (fun v => { v with adj_list := v.adj_list ++ [count] }) g.vlist),
          elist := mapSet count (mkEdge sim count p0 p1 c0 c1 edge) g.elist } := by
  obtain ⟨v0, hv0, hid0, _, hn0⟩ := h0
  obtain ⟨v1, hv1, hid1, _, hn1⟩ := h1
  simp only [makeGraph_edges, hv0, hv1, hn0, hn1, hc0, hc1, hid0, hid1, mkEdge]

theorem makeGraph_edges_spec (sim : Simulation) (map : List (String × SDL_Component)) :
    ∀ (lm : List (String × Int)) (count : Int) (g : Graph),
    (∀ q ∈ lm, ∃ name rank c, VertexOf g.vlist q.2 name rank ∧ mapFind name map = some c) →
    lm.length % 2 = 0 →
    ∃ g2, makeGraph_edges sim map lm count g = some (count + (pairs lm).length, g2) ∧
      (∀ p name rank, VertexOf g.vlist p name rank → VertexOf g2.vlist p name rank) ∧
      (∀ x ∈ g2.elist, x ∈ g.elist ∨
        ∃ pr ∈ pairs lm, NewEdge sim map g.vlist count (count + (pairs lm).length) pr x) ∧
      ((∀ k, count ≤ k → mapFind k g.elist = none) →
        g2.elist.length = g.elist.length + (pairs lm).length ∧
        (∀ x ∈ g.elist, x ∈ g2.elist) ∧
        (∀ pr ∈ pairs lm, ∃ x ∈ g2.elist,
          NewEdge sim map g.vlist count (count + (pairs lm).length) pr x))
  | [], count, g, _, _ => by
    refine ⟨g, by simp [makeGraph_edges, pairs], fun _ _ _ h => h, fun x hx => Or.inl hx, ?_⟩
    intro _
    exact ⟨by simp [pairs], fun x hx => hx, by simp [pairs]⟩
  | [_], _, _, _, hev => by simp at hev
  | (n0, p0) :: (edge, p1) :: rest, count, g, hres, hev => by
    obtain ⟨name0, r0, c0, h0, hc0⟩ := hres (n0, p0) (by simp)
    obtain ⟨name1, r1, c1, h1, hc1⟩ := hres (edge, p1) (by simp)
    rw [makeGraph_edges_step sim map n0 edge p0 p1 rest count g name0 name1 r0 r1 c0 c1
      h0 hc0 h1 hc1]
    have hfwd : ∀ p name rank, VertexOf g.vlist p name rank →
        VertexOf (mapModify p1 (fun v => { v with adj_list := v.adj_list ++ [count] })
          (mapModify p0 (fun v => { v with adj_list := v.adj_list ++ [count] }) g.vlist))
          p name rank := fun p name rank h =>
      VertexOf_mapModify _ _ _ _ _ _ (VertexOf_mapModify _ _ _ _ _ _ h)
    have hres3 : ∀ q ∈ rest, ∃ name rank c,
        VertexOf (mapModify p1 (fun v => { v with adj_list := v.adj_list ++ [count] })
          (mapModify p0 (fun v => { v with adj_list := v.adj_list ++ [count] }) g.vlist))
          q.2 name rank ∧ mapFind name map = some c := by
      intro q hq
      obtain ⟨name, rank, c, hv, hc⟩ := hres q (by simp [hq])
      exact ⟨name, rank, c, hfwd _ _ _ hv, hc⟩
    have hev3 : rest.length % 2 = 0 := by
      simp only [List.length_cons] at hev
      omega
    obtain ⟨g2, heq, hpres, hmem, hfresh⟩ := makeGraph_edges_spec sim map rest (count + 1)
      { vlist := mapModify p1 (fun v => { v with adj_list := v.adj_list ++ [count] })
          (mapModify p0 (fun v => { v with adj_list := v.adj_list ++ [count] }) g.vlist),
        elist := mapSet count (mkEdge sim count p0 p1 c0 c1 edge) g.elist } hres3 hev3
    have hlen : count + 1 + ((pairs rest).length : Int) =
        count + ((pairs ((n0, p0) :: (edge, p1) :: rest)).length : Int) := by
      simp only [pairs, List.length_cons, Nat.cast_add, Nat.cast_one]
      omega
    have hhead : NewEdge sim map g.vlist count
        (count + ((pairs ((n0, p0) :: (edge, p1) :: rest)).length : Int))
        ((n0, p0), (edge, p1)) (count, mkEdge sim count p0 p1 c0 c1 edge) := by
      refine ⟨le_refl _, ?_, ?_⟩
      · simp only [pairs, List.length_cons, Nat.cast_add, Nat.cast_one]
        omega
      · intro m0 s0 d0 m1 s1 d1 hm0 hd0 hm1 hd1
        have e0 := (VertexOf_unique _ _ _ _ _ _ h0 hm0).1
        have e1 := (VertexOf_unique _ _ _ _ _ _ h1 hm1).1
        subst e0 e1
        rw [hc0] at hd0
        rw [hc1] at hd1
        cases hd0
        cases hd1
        rfl
    have hconv : ∀ pr x, NewEdge sim map
        (mapModify p1 (fun v => { v with adj_list := v.adj_list ++ [count] })
          (mapModify p0 (fun v => { v with adj_list := v.adj_list ++ [count] }) g.vlist))
        (count + 1) (count + 1 + ((pairs rest).length : Int)) pr x →
        NewEdge sim map g.vlist count
          (count + ((pairs ((n0, p0) :: (edge, p1) :: rest)).length : Int)) pr x := by
      intro pr x ⟨hlo, hhi, hall⟩
      refine ⟨by omega, by omega, ?_⟩
      intro m0 s0 d0 m1 s1 d1 hm0 hd0 hm1 hd1
      exact hall m0 s0 d0 m1 s1 d1 (hfwd _ _ _ hm0) hd0 (hfwd _ _ _ hm1) hd1
    refine ⟨g2, by rw [heq, hlen], fun p name rank h => hpres p name rank (hfwd p name rank h),
      ?_, ?_⟩
    · intro x hx
      rcases hmem x hx with h | ⟨pr, hpr, hne⟩
      · rcases mem_mapSet _ _ _ _ h with h2 | h2
        · exact Or.inr ⟨((n0, p0), (edge, p1)), by simp [pairs], h2 ▸ hhead⟩
        · exact Or.inl h2
      · exact Or.inr ⟨pr, by simp [pairs, hpr], hconv pr x hne⟩
    · intro hfr
      have hfr3 : ∀ k, count + 1 ≤ k →
          mapFind k (mapSet count (mkEdge sim count p0 p1 c0 c1 edge) g.elist) = none := by
        intro k hk
        rw [mapFind_mapSet_ne _ _ _ _ (by omega)]
        exact hfr k (by omega)
      obtain ⟨hl, hold, hcomp⟩ := hfresh hfr3
      refine ⟨?_, ?_, ?_⟩
      · rw [hl, length_mapSet_fresh _ _ _ (hfr count (le_refl _))]
        simp only [pairs, List.length_cons]
        omega
      · intro x hx
        refine hold x (mem_mapSet_of_mem _ _ _ _ hx ?_)
        exact (mapFind_eq_none_iff count g.elist).mp (hfr count (le_refl _)) x hx
      · intro pr hpr
        simp only [pairs, List.mem_cons] at hpr
        rcases hpr with rfl | hpr
        · exact ⟨(count, mkEdge sim count p0 p1 c0 c1 edge),
            hold _ (mem_mapSet_self _ _ _), hhead⟩
        · obtain ⟨x, hx, hne⟩ := hcomp pr hpr
          exact ⟨x, hx, hconv pr x hne⟩

/-! ## makeGraph as a whole -/

theorem linkRefs_mem (ids : List (Int × String × SDL_Component)) (q : String × Int) :
    q ∈ linkRefs ids ↔ ∃ x ∈ ids, ∃ l ∈ x.2.2.links, q = (l.1, x.1) := by
  induction ids with
  | nil => simp [linkRefs]
  | cons y rest ih =>
    simp only [linkRefs, List.mem_append, List.mem_map, ih, List.mem_cons]
    constructor
    · rintro (⟨l, hl, rfl⟩ | ⟨x, hx, l, hl, rfl⟩)
      · exact ⟨y, Or.inl rfl, l, hl, rfl⟩
      · exact ⟨x, Or.inr hx, l, hl, rfl⟩
    · rintro ⟨x, (rfl | hx), l, hl, rfl⟩
      · exact Or.inl ⟨l, hl, rfl⟩
      · exact Or.inr ⟨x, hx, l, hl, rfl⟩

theorem linkRefs_length (count : Int) (map : List (String × SDL_Component)) :
    (linkRefs (vertexIds count map)).length = linkRefCount map := by
  induction map generalizing count with
  | nil => simp [linkRefs, vertexIds, linkRefCount]
  | cons y rest ih =>
    have := ih (count + 1)
    simp only [linkRefCount] at this
    simp only [linkRefs, vertexIds, linkRefCount, List.length_append, List.length_map,
      List.map_cons, List.sum_cons, this]

theorem vertexIds_mem_map (count : Int) (map : List (String × SDL_Component)) :
    ∀ x ∈ vertexIds count map, (x.2.1, x.2.2) ∈ map := by
  induction map generalizing count with
  | nil => simp [vertexIds]
  | cons y rest ih =>
    intro x hx
    simp only [vertexIds, List.mem_cons] at hx
    rcases hx with rfl | hx
    · simp
    · exact List.mem_cons_of_mem _ (ih _ x hx)

theorem vertexIds_of_mem_map (count : Int) (map : List (String × SDL_Component)) :
    ∀ y ∈ map, ∃ k, (k, y.1, y.2) ∈ vertexIds count map := by
  induction map generalizing count with
  | nil => simp
  | cons z rest ih =>
    intro y hy
    rcases List.mem_cons.mp hy with rfl | hy
    · exact ⟨count, by simp [vertexIds]⟩
    · obtain ⟨k, hk⟩ := ih (count + 1) y hy
      exact ⟨k, by simp [vertexIds, hk]⟩

theorem vertexIds_key_unique (count : Int) (map : List (String × SDL_Component)) :
    ∀ x ∈ vertexIds count map, ∀ y ∈ vertexIds count map, x.1 = y.1 → x = y := by
  induction map generalizing count with
  | nil => simp [vertexIds]
  | cons z rest ih =>
    intro x hx y hy hxy
    simp only [vertexIds, List.mem_cons] at hx hy
    rcases hx with rfl | hx <;> rcases hy with rfl | hy
    · rfl
    · have := (vertexIds_bounds (count + 1) rest y hy).1
      simp only at hxy
      omega
    · have := (vertexIds_bounds (count + 1) rest x hx).1
      simp only at hxy
      omega
    · exact ih _ x hx y hy hxy

theorem vertexIds_get (count : Int) (map : List (String × SDL_Component)) (i : Nat)
    (h : i < map.length) : (count + i, map[i].1, map[i].2) ∈ vertexIds count map := by
  induction map generalizing count i with
  | nil => simp at h
  | cons z rest ih =>
    cases i with
    | zero => simp [vertexIds]
    | succ j =>
      have hj : j < rest.length := by simpa using h
      have := ih (count + 1) j hj
      simp only [vertexIds, List.mem_cons, List.getElem_cons_succ]
      right
      have e : count + ((j + 1 : Nat) : Int) = count + 1 + (j : Int) := by
        push_cast; ring
      rw [e]
      exact this

theorem makeGraph_linkMap_perm (fmtFloat : FloatVal → String)
    (map : List (String × SDL_Component)) (ps : ProcState) (graph : Graph) :
    List.Perm (makeGraph_linkMap fmtFloat map ps graph)
      (linkRefs (vertexIds ps.Vertex_count map)) := by
  have := makeGraph_vertices_perm fmtFloat map ps.Vertex_count 0 graph.vlist []
  simpa [makeGraph_linkMap] using this

theorem makeGraph_linkMap_sorted (fmtFloat : FloatVal → String)
    (map : List (String × SDL_Component)) (ps : ProcState) (graph : Graph) :
    (makeGraph_linkMap fmtFloat map ps graph).Pairwise (fun a b => a.1 ≤ b.1) :=
  makeGraph_vertices_sorted fmtFloat map ps.Vertex_count 0 graph.vlist [] List.Pairwise.nil

theorem makeGraph_linkMap_length (fmtFloat : FloatVal → String)
    (map : List (String × SDL_Component)) (ps : ProcState) (graph : Graph) :
    (makeGraph_linkMap fmtFloat map ps graph).length = linkRefCount map := by
  rw [(makeGraph_linkMap_perm fmtFloat map ps graph).length_eq, linkRefs_length]

theorem makeGraph_vlist1_new (fmtFloat : FloatVal → String)
    (map : List (String × SDL_Component)) (ps : ProcState) (graph : Graph) :
    ∀ x ∈ vertexIds ps.Vertex_count map,
      VertexOf (makeGraph_vlist1 fmtFloat map ps graph) x.1 x.2.1 x.2.2.rank ∧
      ∃ v, mapFind x.1 (makeGraph_vlist1 fmtFloat map ps graph) = some v ∧ v.adj_list = [] := by
  intro x hx
  obtain ⟨i, hi⟩ := makeGraph_vertices_new fmtFloat map ps.Vertex_count 0 graph.vlist [] x hx
  exact ⟨⟨_, hi, rfl, rfl, mkVertex_comp_name _ _ _ _ _⟩, _, hi, rfl⟩

theorem makeGraph_linkMap_resolves (fmtFloat : FloatVal → String)
    (map : List (String × SDL_Component)) (ps : ProcState) (graph : Graph) :
    ∀ q ∈ makeGraph_linkMap fmtFloat map ps graph, ∃ name rank c,
      VertexOf (makeGraph_vlist1 fmtFloat map ps graph) q.2 name rank ∧
      mapFind name map = some c := by
  intro q hq
  have hq2 := (makeGraph_linkMap_perm fmtFloat map ps graph).subset hq
  obtain ⟨x, hx, l, _, rfl⟩ := (linkRefs_mem _ _).mp hq2
  obtain ⟨c, hc⟩ := mapFind_isSome_of_mem _ _ _ (vertexIds_mem_map _ _ x hx)
  exact ⟨x.2.1, x.2.2.rank, c, (makeGraph_vlist1_new fmtFloat map ps graph x hx).1, hc⟩

theorem makeGraph_odd_spec (fmtFloat : FloatVal → String) (sim : Simulation)
    (map : List (String × SDL_Component)) (ps : ProcState) (graph : Graph)
    (hodd : linkRefCount map % 2 = 1) :
    makeGraph fmtFloat sim map ps graph =
      some { ps := { ps with Vertex_count := ps.Vertex_count + map.length },
             graph := { graph with vlist := makeGraph_vlist1 fmtFloat map ps graph },
             reported := true } := by
  have hl := makeGraph_linkMap_length fmtFloat map ps graph
  have hc := makeGraph_vertices_count fmtFloat map ps.Vertex_count 0 graph.vlist []
  unfold makeGraph_linkMap at hl
  unfold makeGraph makeGraph_vlist1
  simp only [hl, hodd, hc]
  simp

theorem makeGraph_even_spec (fmtFloat : FloatVal → String) (sim : Simulation)
    (map : List (String × SDL_Component)) (ps : ProcState) (graph : Graph)
    (hev : linkRefCount map % 2 = 0) :
    ∃ g2, makeGraph fmtFloat sim map ps graph =
        some { ps := { ps with Vertex_count := ps.Vertex_count + map.length,
                               Edge_count := ps.Edge_count + (linkRefCount map / 2 : Nat) },
               graph := g2, reported := false } ∧
      (∀ p name rank, VertexOf (makeGraph_vlist1 fmtFloat map ps graph) p name rank →
        VertexOf g2.vlist p name rank) ∧
      (∀ x ∈ g2.elist, x ∈ graph.elist ∨
        ∃ pr ∈ pairs (makeGraph_linkMap fmtFloat map ps graph),
          NewEdge sim map (makeGraph_vlist1 fmtFloat map ps graph) ps.Edge_count
            (ps.Edge_count + (linkRefCount map / 2 : Nat)) pr x) ∧
      ((∀ k, ps.Edge_count ≤ k → mapFind k graph.elist = none) →
        g2.elist.length = graph.elist.length + linkRefCount map / 2 ∧
        (∀ x ∈ graph.elist, x ∈ g2.elist) ∧
        (∀ pr ∈ pairs (makeGraph_linkMap fmtFloat map ps graph), ∃ x ∈ g2.elist,
          NewEdge sim map (makeGraph_vlist1 fmtFloat map ps graph) ps.Edge_count
            (ps.Edge_count + (linkRefCount map / 2 : Nat)) pr x)) := by
  have hl := makeGraph_linkMap_length fmtFloat map ps graph
  have hc := makeGraph_vertices_count fmtFloat map ps.Vertex_count 0 graph.vlist []
  have hpl : (pairs (makeGraph_linkMap fmtFloat map ps graph)).length = linkRefCount map / 2 := by
    rw [pairs_length, hl]
  obtain ⟨g2, heq, hpres, hmem, hfresh⟩ := makeGraph_edges_spec sim map
    (makeGraph_linkMap fmtFloat map ps graph) ps.Edge_count
    { graph with vlist := makeGraph_vlist1 fmtFloat map ps graph }
    (makeGraph_linkMap_resolves fmtFloat map ps graph) (by rw [hl]; exact hev)
  rw [hpl] at heq hmem hfresh
  refine ⟨g2, ?_, hpres, hmem, hfresh⟩
  unfold makeGraph_linkMap at hl
  unfold makeGraph_linkMap makeGraph_vlist1 at heq
  unfold makeGraph
  simp only [hl, hev, hc, heq]
  simp


theorem mkEdge_weight (sim : Simulation) (id p0 p1 : Int) (c0 c1 : SDL_Component)
    (edge : String) :
    (mkEdge sim id p0 p1 c0 c1 edge).prop_list.get GRAPH_WEIGHT =
      fmtInt (min (find_lat sim c0 edge) (find_lat sim c1 edge)) := by
  simp only [mkEdge, PropList.get, PropList.set]
  rw [mapFind_mapSet_self]
  rfl

theorem linkRefs_names (count : Int) (map : List (String × SDL_Component)) :
    (linkRefs (vertexIds count map)).map Prod.fst = refNames map := by
  induction map generalizing count with
  | nil => simp [linkRefs, vertexIds, refNames]
  | cons y rest ih =>
    simp only [linkRefs, vertexIds, refNames, List.map_append, List.map_map, ih]
    rfl

theorem makeGraph_linkMap_names (fmtFloat : FloatVal → String)
    (map : List (String × SDL_Component)) (ps : ProcState) (graph : Graph) (n : String) :
    ((makeGraph_linkMap fmtFloat map ps graph).map Prod.fst).count n =
      (refNames map).count n := by
  rw [← linkRefs_names ps.Vertex_count map]
  exact ((makeGraph_linkMap_perm fmtFloat map ps graph).map Prod.fst).count_eq n

theorem keysAscending_nodup {V : Type} (m : List (String × V)) (h : keysAscending m) :
    (m.map Prod.fst).Nodup := by
  unfold keysAscending at h
  rw [List.Nodup, List.pairwise_map]
  refine h.imp ?_
  intro a b hab heq
  have hlt : a.1 < b.1 := String.lt_iff_toList_lt.mpr hab
  exact absurd heq (ne_of_lt hlt)

theorem even_length_of_even_counts {V : Type} : ∀ (lm : List (String × V)),
    lm.Pairwise (fun x y => x.1 ≤ y.1) →
    (∀ n, (lm.map Prod.fst).count n % 2 = 0) → lm.length % 2 = 0
  | [], _, _ => rfl
  | [a], _, hev => by
    have := hev a.1
    simp at this
  | a :: b :: rest, hs, hev => by
    have hab : a.1 = b.1 := pairs_head_same a b rest hs (hev a.1)
    have hs2 : rest.Pairwise (fun x y => x.1 ≤ y.1) :=
      (List.pairwise_cons.mp (List.pairwise_cons.mp hs).2).2
    have := even_length_of_even_counts rest hs2 (by
      intro n
      have h := hev n
      rw [count_names_cons, count_names_cons] at h
      by_cases hn : a.1 = n
      · have hb : b.1 = n := hab ▸ hn
        simp only [hn, hb, if_true] at h
        omega
      · have hb : ¬ b.1 = n := fun hb => hn (hab.trans hb)
        simp only [hn, hb, if_false] at h
        omega)
    simp only [List.length_cons]
    omega

/-- Every association of the temporary index stems from a link of the component whose
vertex it points to. -/
theorem makeGraph_linkMap_owner (fmtFloat : FloatVal → String)
    (map : List (String × SDL_Component)) (ps : ProcState) (graph : Graph) :
    ∀ q ∈ makeGraph_linkMap fmtFloat map ps graph,
      ∃ x ∈ vertexIds ps.Vertex_count map, q.2 = x.1 ∧ ∃ l, (q.1, l) ∈ x.2.2.links := by
  intro q hq
  have hq2 := (makeGraph_linkMap_perm fmtFloat map ps graph).subset hq
  obtain ⟨x, hx, l, hl, rfl⟩ := (linkRefs_mem _ _).mp hq2
  exact ⟨x, hx, rfl, l.2, hl⟩


/-- What is known about the edge built for a pair of associations: the owners of the
two associations, the vertices and components they resolve to, and the edge itself. -/
theorem makeGraph_new_edge_data (fmtFloat : FloatVal → String) (sim : Simulation)
    (map : List (String × SDL_Component)) (ps : ProcState) (graph : Graph)
    (vlist2 : List (Int × Vertex)) (lo hi : Int)
    (hpres : ∀ p name rank, VertexOf (makeGraph_vlist1 fmtFloat map ps graph) p name rank →
      VertexOf vlist2 p name rank)
    (pr : (String × Int) × (String × Int))
    (hpr : pr ∈ pairs (makeGraph_linkMap fmtFloat map ps graph)) (x : Int × Edge)
    (hne : NewEdge sim map (makeGraph_vlist1 fmtFloat map ps graph) lo hi pr x) :
    ∃ x0 ∈ vertexIds ps.Vertex_count map, ∃ x1 ∈ vertexIds ps.Vertex_count map,
    ∃ l0 l1 c0 c1 v0 v1,
      pr.1.2 = x0.1 ∧ pr.2.2 = x1.1 ∧
      (pr.1.1, l0) ∈ x0.2.2.links ∧ (pr.2.1, l1) ∈ x1.2.2.links ∧
      mapFind x0.2.1 map = some c0 ∧ mapFind x1.2.1 map = some c1 ∧
      mapFind pr.1.2 vlist2 = some v0 ∧ v0.rank = x0.2.2.rank ∧
      v0.prop_list.get GRAPH_COMP_NAME = x0.2.1 ∧
      mapFind pr.2.2 vlist2 = some v1 ∧ v1.rank = x1.2.2.rank ∧
      v1.prop_list.get GRAPH_COMP_NAME = x1.2.1 ∧
      x.2 = mkEdge sim x.1 pr.1.2 pr.2.2 c0 c1 pr.2.1 := by
  obtain ⟨hm0, hm1⟩ := pairs_mem _ pr hpr
  obtain ⟨x0, hx0, e0, l0, hl0⟩ := makeGraph_linkMap_owner fmtFloat map ps graph pr.1 hm0
  obtain ⟨x1, hx1, e1, l1, hl1⟩ := makeGraph_linkMap_owner fmtFloat map ps graph pr.2 hm1
  obtain ⟨c0, hc0⟩ := mapFind_isSome_of_mem _ _ _ (vertexIds_mem_map _ _ x0 hx0)
  obtain ⟨c1, hc1⟩ := mapFind_isSome_of_mem _ _ _ (vertexIds_mem_map _ _ x1 hx1)
  have hv0 := (makeGraph_vlist1_new fmtFloat map ps graph x0 hx0).1
  have hv1 := (makeGraph_vlist1_new fmtFloat map ps graph x1 hx1).1
  rw [← e0] at hv0
  rw [← e1] at hv1
  have hedge := hne.2.2 _ _ _ _ _ _ hv0 hc0 hv1 hc1
  obtain ⟨v0, hf0, _, hr0, hn0⟩ := hpres _ _ _ hv0
  obtain ⟨v1, hf1, _, hr1, hn1⟩ := hpres _ _ _ hv1
  exact ⟨x0, hx0, x1, hx1, l0, l1, c0, c1, v0, v1, e0, e1, hl0, hl1, hc0, hc1,
    hf0, hr0, hn0, hf1, hr1, hn1, hedge⟩
/-! # Properties -/

/-! ## findMinPart -/

theorem findMinPart_scan_spec (g : Graph) (es : List (Int × Edge)) (m0 : Int)
    (hwf : ∀ p ∈ es, (mapFind (p.2.v 0) g.vlist).isSome ∧ (mapFind (p.2.v 1) g.vlist).isSome) :
    ∃ m, findMinPart_scan g.vlist es m0 = some m ∧ m ≤ m0 ∧
      (∀ p ∈ es, g.crossRank p.2 → m ≤ p.2.weight) ∧
      (m = m0 ∨ ∃ p ∈ es, g.crossRank p.2 ∧ m = p.2.weight) := by
  induction es generalizing m0 with
  | nil => exact ⟨m0, rfl, le_refl _, by simp, Or.inl rfl⟩
  | cons p rest ih =>
    obtain ⟨k, e⟩ := p
    have hrest : ∀ p ∈ rest, (mapFind (p.2.v 0) g.vlist).isSome ∧
        (mapFind (p.2.v 1) g.vlist).isSome := fun p hp => hwf p (List.mem_cons_of_mem _ hp)
    obtain ⟨h0, h1⟩ := hwf (k, e) (List.mem_cons_self _ _)
    obtain ⟨s, hs⟩ := Option.isSome_iff_exists.mp h0
    obtain ⟨t, ht⟩ := Option.isSome_iff_exists.mp h1
    simp only at hs ht
    have hcross : g.crossRank e ↔ s.rank ≠ t.rank := by
      unfold Graph.crossRank; rw [hs, ht]
    by_cases hr : s.rank = t.rank
    · obtain ⟨m, hm, hle, hall, hex⟩ := ih m0 hrest
      refine ⟨m, ?_, hle, ?_, ?_⟩
      · simp [findMinPart_scan, hs, ht, hr, hm]
      · intro p hp hc
        rcases List.mem_cons.mp hp with rfl | hp
        · exact absurd hr (hcross.mp hc)
        · exact hall p hp hc
      · rcases hex with h | ⟨p, hp, hc, hpm⟩
        · exact Or.inl h
        · exact Or.inr ⟨p, List.mem_cons_of_mem _ hp, hc, hpm⟩
    · by_cases hlt : e.weight < m0
      · obtain ⟨m, hm, hle, hall, hex⟩ := ih e.weight hrest
        refine ⟨m, ?_, by omega, ?_, ?_⟩
        · have hlt2 : atoi (e.prop_list.get GRAPH_WEIGHT) < m0 := hlt
          simp only [findMinPart_scan, hs, ht]
          simp only [ne_eq, hr, not_false_eq_true, if_true, hlt2]
          exact hm
        · intro p hp hc
          rcases List.mem_cons.mp hp with rfl | hp
          · exact hle
          · exact hall p hp hc
        · rcases hex with h | ⟨p, hp, hc, hpm⟩
          · exact Or.inr ⟨(k, e), List.mem_cons_self _ _, hcross.mpr hr, h⟩
          · exact Or.inr ⟨p, List.mem_cons_of_mem _ hp, hc, hpm⟩
      · obtain ⟨m, hm, hle, hall, hex⟩ := ih m0 hrest
        refine ⟨m, ?_, hle, ?_, ?_⟩
        · have hlt2 : ¬ atoi (e.prop_list.get GRAPH_WEIGHT) < m0 := hlt
          simp only [findMinPart_scan, hs, ht]
          simp only [ne_eq, hr, not_false_eq_true, if_true, hlt2, if_false]
          exact hm
        · intro p hp hc
          rcases List.mem_cons.mp hp with rfl | hp
          · show m ≤ e.weight
            omega
          · exact hall p hp hc
        · rcases hex with h | ⟨p, hp, hc, hpm⟩
          · exact Or.inl h
          · exact Or.inr ⟨p, List.mem_cons_of_mem _ hp, hc, hpm⟩

theorem findMinPart_locals_succ (r : Nat) (gs : List Graph) :
    findMinPart_locals (r + 1) gs = some (List.replicate gs.length 99999) := by
  induction gs generalizing r with
  | nil => rfl
  | cons g gs ih =>
    simp [findMinPart_locals, findMinPart_local, ih, List.replicate_succ]

theorem broadcast_root (m : Int) (ms : List Int) :
    broadcast (m :: ms) 0 = List.replicate (ms.length + 1) m := by
  simp [broadcast, List.replicate_succ, List.eq_replicate_iff]

theorem findMinPart_cons (g : Graph) (others : List Graph) :
    findMinPart (g :: others) =
      (findMinPart_scan g.vlist g.elist 99999).map
        (fun m => List.replicate (others.length + 1) m) := by
  unfold findMinPart
  simp only [findMinPart_locals, findMinPart_local, findMinPart_locals_succ, if_true]
  cases h : findMinPart_scan g.vlist g.elist 99999 with
  | none => simp
  | some m => simp [broadcast_root]

/-- C1, as stated, fails: on two vertices of ranks 0 and 1 joined by one edge of weight
100000 every endpoint is present and the edge crosses ranks, yet every process gets
99999, which is not the minimum of the cross-rank weights (no cross-rank edge has
that weight). -/
theorem findMinPart_min_counterexample :
    exGraphLarge.endpointsPresent ∧ (∃ p ∈ exGraphLarge.elist, exGraphLarge.crossRank p.2) ∧
    findMinPart [exGraphLarge, exGraphLarge] = some [99999, 99999] ∧
    ¬ IsLeast exGraphLarge.crossWeights 99999 := by
  refine ⟨by decide, by decide, by decide, ?_⟩
  rintro ⟨⟨p, hp, _, hw⟩, _⟩
  have hp2 : p = (0, exEdge 0 0 1 "100000") := by simpa [exGraphLarge] using hp
  subst hp2
  revert hw
  decide

/-- C1 (amended): on a graph whose edges all have their endpoints in the vertex list,
every process returns the same value, and that value is the least element of the
cross-rank edge weights together with the start value 99999; it is the minimum of
the cross-rank edge weights as soon as one of them is at most 99999. Same-rank edges
do not take part. -/
theorem findMinPart_min_capped (g : Graph) (others : List Graph) (h : g.endpointsPresent) :
    ∃ m, findMinPart (g :: others) = some (List.replicate (others.length + 1) m) ∧
      IsLeast (insert 99999 g.crossWeights) m ∧
      ((∃ x ∈ g.crossWeights, x ≤ 99999) → IsLeast g.crossWeights m) := by
  obtain ⟨m, hm, hle, hall, hex⟩ := findMinPart_scan_spec g g.elist 99999 h
  have hmem : m ∈ insert (99999 : Int) g.crossWeights := by
    rcases hex with h1 | ⟨p, hp, hc, hpm⟩
    · exact Or.inl h1
    · exact Or.inr ⟨p, hp, hc, hpm⟩
  have hlow : ∀ x ∈ g.crossWeights, m ≤ x := by
    rintro x ⟨p, hp, hc, rfl⟩
    exact hall p hp hc
  refine ⟨m, by rw [findMinPart_cons, hm]; rfl, ⟨hmem, ?_⟩, ?_⟩
  · rintro x (rfl | hx)
    · exact hle
    · exact hlow x hx
  · rintro ⟨x, hx, hx9⟩
    refine ⟨?_, hlow⟩
    rcases hex with h1 | ⟨p, hp, hc, hpm⟩
    · have h2 := hlow x hx
      have h3 : x = m := by omega
      exact h3 ▸ hx
    · exact ⟨p, hp, hc, hpm⟩

/-- Witness for C1 (amended): the graph with cross-rank weights 5, 3, 9 and same-rank
weights 1, 0 returns 3 on both processes. -/
theorem findMinPart_min_capped_witness :
    exGraph539.endpointsPresent ∧
    findMinPart [exGraph539, exGraph539] = some [3, 3] ∧
    ∃ m, findMinPart (exGraph539 :: [exGraph539]) = some (List.replicate (1 + 1) m) ∧
      IsLeast (insert 99999 exGraph539.crossWeights) m ∧
      ((∃ x ∈ exGraph539.crossWeights, x ≤ 99999) → IsLeast exGraph539.crossWeights m) :=
  ⟨by decide, by decide, findMinPart_min_capped exGraph539 [exGraph539] (by decide)⟩

/-- C2: on a graph in which every edge joins two vertices of the same rank (in
particular on a graph without edges) every process returns 99999, whatever the
weights of the edges are. -/
theorem findMinPart_no_cross (g : Graph) (others : List Graph)
    (h : ∀ p ∈ g.elist, g.sameRank p.2) :
    findMinPart (g :: others) = some (List.replicate (others.length + 1) 99999) := by
  have hwf : g.endpointsPresent := by
    intro p hp
    have := h p hp
    unfold Graph.sameRank at this
    split at this
    · rename_i s t hs ht
      simp [hs, ht]
    · exact this.elim
  obtain ⟨m, hm, _, _, hex⟩ := findMinPart_scan_spec g g.elist 99999 hwf
  rcases hex with h1 | ⟨p, hp, hc, _⟩
  · rw [findMinPart_cons, hm, h1]; rfl
  · exfalso
    have hsame := h p hp
    unfold Graph.sameRank at hsame
    unfold Graph.crossRank at hc
    split at hsame
    · rename_i s t hs ht
      rw [hs, ht] at hc
      exact hc hsame
    · exact hsame

/-- Witness for C2: same-rank edges of weights 0, -5 and 7 leave the result at 99999,
and so does the graph without vertices and edges. -/
theorem findMinPart_no_cross_witness :
    (∀ p ∈ exGraphSameRank.elist, exGraphSameRank.sameRank p.2) ∧
    findMinPart (exGraphSameRank :: [exGraphSameRank, {}]) =
      some (List.replicate (2 + 1) 99999) :=
  ⟨by decide, findMinPart_no_cross exGraphSameRank [exGraphSameRank, {}] (by decide)⟩

/-! ## makeGraph: the stated properties -/

/-- C3: when the total number of link references is even, makeGraph returns and the
edge list has grown by exactly half that total; no edge that was there before is
lost. The identifiers from `Edge::count` on are unused, as holds for every
graph since identifiers only come from that counter. -/
theorem makeGraph_edge_count (fmtFloat : FloatVal → String) (sim : Simulation)
    (map : List (String × SDL_Component)) (ps : ProcState) (graph : Graph)
    (hev : linkRefCount map % 2 = 0)
    (hfresh : ∀ k, ps.Edge_count ≤ k → mapFind k graph.elist = none) :
    ∃ r, makeGraph fmtFloat sim map ps graph = some r ∧ r.reported = false ∧
      r.graph.elist.length = graph.elist.length + linkRefCount map / 2 ∧
      (∀ x ∈ graph.elist, x ∈ r.graph.elist) := by
  obtain ⟨g2, heq, _, _, hf⟩ := makeGraph_even_spec fmtFloat sim map ps graph hev
  obtain ⟨hl, hold, _⟩ := hf hfresh
  exact ⟨_, heq, rfl, hl, hold⟩

/-- Witness for C3: the three-component example has four link references and yields
two edges. -/
theorem makeGraph_edge_count_witness :
    linkRefCount exMapABC % 2 = 0 ∧
    (∀ k, ({} : ProcState).Edge_count ≤ k → mapFind k ({} : Graph).elist = none) ∧
    ∃ r, makeGraph exFmtFloat exSim exMapABC {} {} = some r ∧ r.reported = false ∧
      r.graph.elist.length = ({} : Graph).elist.length + linkRefCount exMapABC / 2 ∧
      (∀ x ∈ ({} : Graph).elist, x ∈ r.graph.elist) :=
  ⟨by decide, fun _ _ => rfl,
    makeGraph_edge_count exFmtFloat exSim exMapABC {} {} (by decide) (fun _ _ => rfl)⟩

/-- C6, evaluated on a failing input: link x joins A, which declares no latency, and
B, which declares 4294967295 ticks. The missing parameter contributes 0, B
contributes the tick count narrowed to int, which is -1, and the edge weight is
-1, not 0. -/
theorem makeGraph_missing_lat_negative :
    find_lat exSim ⟨⟨0⟩, 0, [("x", exLinkNoLat)]⟩ "x" = 0 ∧
    exSim.getSimCycles "4294967295" "edge x" = 4294967295 ∧
    find_lat exSim ⟨⟨0⟩, 1, [("x", exLink "4294967295")]⟩ "x" = -1 ∧
    (makeGraph exFmtFloat exSim exMapMissingLat {} {}).map
        (fun r => r.graph.elist.map
          (fun x => (x.2.prop_list.get GRAPH_LINK_NAME, x.2.prop_list.get GRAPH_WEIGHT))) =
      some [("x", "-1")] := by
  decide

/-- C7: when the total number of link references is odd, makeGraph returns after
printing its message, the edge list and the edge counter are as before, and for
every component of the map the vertex list holds a vertex with a fresh
identifier, the rank and the name of the component, and an empty adjacency list. -/
theorem makeGraph_odd_total (fmtFloat : FloatVal → String) (sim : Simulation)
    (map : List (String × SDL_Component)) (ps : ProcState) (graph : Graph)
    (hodd : linkRefCount map % 2 = 1) :
    ∃ r, makeGraph fmtFloat sim map ps graph = some r ∧ r.reported = true ∧
      r.graph.elist = graph.elist ∧ r.ps.Edge_count = ps.Edge_count ∧
      ∀ (i : Nat) (h : i < map.length), ∃ v,
        mapFind (ps.Vertex_count + i) r.graph.vlist = some v ∧
        v.id = ps.Vertex_count + i ∧ v.rank = map[i].2.rank ∧
        v.prop_list.get GRAPH_COMP_NAME = map[i].1 ∧ v.adj_list = [] := by
  refine ⟨_, makeGraph_odd_spec fmtFloat sim map ps graph hodd, rfl, rfl, rfl, ?_⟩
  intro i h
  obtain ⟨⟨v, hv, hid, hr, hn⟩, ⟨w, hw, hadj⟩⟩ :=
    makeGraph_vlist1_new fmtFloat map ps graph _ (vertexIds_get ps.Vertex_count map i h)
  simp only at hv hw
  rw [hv] at hw
  cases hw
  exact ⟨v, hv, hid, hr, hn, hadj⟩

/-- Witness for C7: three link references (x at A and B, y at B only). -/
theorem makeGraph_odd_total_witness :
    linkRefCount exMapOdd % 2 = 1 ∧
    ∃ r, makeGraph exFmtFloat exSim exMapOdd {} {} = some r ∧ r.reported = true ∧
      r.graph.elist = ({} : Graph).elist ∧ r.ps.Edge_count = ({} : ProcState).Edge_count ∧
      ∀ (i : Nat) (h : i < exMapOdd.length), ∃ v,
        mapFind (({} : ProcState).Vertex_count + i) r.graph.vlist = some v ∧
        v.id = ({} : ProcState).Vertex_count + i ∧ v.rank = exMapOdd[i].2.rank ∧
        v.prop_list.get GRAPH_COMP_NAME = exMapOdd[i].1 ∧ v.adj_list = [] :=
  ⟨by decide, makeGraph_odd_total exFmtFloat exSim exMapOdd {} {} (by decide)⟩

/-! ## End to end: makeGraph followed by findMinPart -/

theorem find_lat_declared (sim : Simulation) (c : SDL_Component) (n : String) (l : SDL_Link)
    (hk : keysAscending c.links) (hl : (n, l) ∈ c.links)
    (hs : (l.params.find "lat").isSome) (hlt : declaredLat sim n l < 99999) :
    find_lat sim c n = declaredLat sim n l ∧ 0 ≤ declaredLat sim n l := by
  have hfind := mapFind_of_mem_distinct n l c.links (keysAscending_nodup _ hk) hl
  obtain ⟨s, hs2⟩ := Option.isSome_iff_exists.mp hs
  unfold declaredLat at hlt ⊢
  unfold find_lat
  rw [hs2] at hlt
  simp only [hfind, hs2]
  simp only at hlt
  refine ⟨toInt32_small _ (by omega), by omega⟩

theorem mkEdge_weight_cross (sim : Simulation) (g : Graph) (x : Int × Edge) (p0 p1 : Int)
    (c0 c1 : SDL_Component) (n : String) (l0 l1 : SDL_Link) (v0 v1 : Vertex)
    (hedge : x.2 = mkEdge sim x.1 p0 p1 c0 c1 n)
    (hf0 : mapFind p0 g.vlist = some v0) (hf1 : mapFind p1 g.vlist = some v1)
    (hr0 : v0.rank = c0.rank) (hr1 : v1.rank = c1.rank)
    (hk0 : keysAscending c0.links) (hk1 : keysAscending c1.links)
    (hl0 : (n, l0) ∈ c0.links) (hl1 : (n, l1) ∈ c1.links)
    (hs0 : (l0.params.find "lat").isSome) (hs1 : (l1.params.find "lat").isSome)
    (hlt0 : declaredLat sim n l0 < 99999) (hlt1 : declaredLat sim n l1 < 99999) :
    x.2.weight = Min.min (declaredLat sim n l0) (declaredLat sim n l1) ∧
    (g.crossRank x.2 ↔ c0.rank ≠ c1.rank) := by
  obtain ⟨e0, h0⟩ := find_lat_declared sim c0 n l0 hk0 hl0 hs0 hlt0
  obtain ⟨e1, h1⟩ := find_lat_declared sim c1 n l1 hk1 hl1 hs1 hlt1
  constructor
  · unfold Edge.weight
    rw [hedge, mkEdge_weight, e0, e1, min_eq_Min]
    refine atoi_fmtInt _ (le_min h0 h1) ?_
    have := min_le_left (declaredLat sim n l0) (declaredLat sim n l1)
    omega
  · have hv0 : x.2.v 0 = p0 := by rw [hedge]; rfl
    have hv1 : x.2.v 1 = p1 := by rw [hedge]; rfl
    unfold Graph.crossRank
    rw [hv0, hv1, hf0, hf1]
    simp only [hr0, hr1]

theorem crossLinkLatencies_lt (sim : Simulation) (map : List (String × SDL_Component))
    (hlat : ∀ y ∈ map, ∀ l ∈ y.2.links,
      (l.2.params.find "lat").isSome ∧ declaredLat sim l.1 l.2 < 99999) :
    ∀ v ∈ crossLinkLatencies sim map, v < 99999 := by
  rintro v ⟨a, ha, b, _, n, la, lb, _, hla, _, rfl⟩
  have := (hlat a ha (n, la) hla).2
  have h2 := min_le_left (declaredLat sim n la) (declaredLat sim n lb)
  simp only at this
  omega

/-- The cross-rank edge weights of the graph makeGraph builds from a well-formed map
are exactly the latencies of the links that cross ranks. -/
theorem makeGraph_crossWeights (fmtFloat : FloatVal → String) (sim : Simulation)
    (map : List (String × SDL_Component)) (ps : ProcState)
    (hkeys : keysAscending map) (hlinks : ∀ y ∈ map, keysAscending y.2.links)
    (htwo : ∀ n ∈ refNames map, (refNames map).count n = 2)
    (hlat : ∀ y ∈ map, ∀ l ∈ y.2.links,
      (l.2.params.find "lat").isSome ∧ declaredLat sim l.1 l.2 < 99999) :
    ∃ g2, makeGraph fmtFloat sim map ps {} =
        some { ps := { ps with Vertex_count := ps.Vertex_count + map.length,
                               Edge_count := ps.Edge_count + (linkRefCount map / 2 : Nat) },
               graph := g2, reported := false } ∧
      g2.elist.length = linkRefCount map / 2 ∧ g2.endpointsPresent ∧
      g2.crossWeights = crossLinkLatencies sim map := by
  have hcnt02 : ∀ n, ((makeGraph_linkMap fmtFloat map ps {}).map Prod.fst).count n = 0 ∨
      ((makeGraph_linkMap fmtFloat map ps {}).map Prod.fst).count n = 2 := by
    intro n
    rw [makeGraph_linkMap_names]
    by_cases hn : n ∈ refNames map
    · exact Or.inr (htwo n hn)
    · exact Or.inl (List.count_eq_zero.mpr hn)
  have hcnt : ∀ n, ((makeGraph_linkMap fmtFloat map ps {}).map Prod.fst).count n % 2 = 0 := by
    intro n
    rcases hcnt02 n with h | h <;> omega
  have hsorted := makeGraph_linkMap_sorted fmtFloat map ps {}
  have hev : linkRefCount map % 2 = 0 := by
    rw [← makeGraph_linkMap_length fmtFloat map ps {}]
    exact even_length_of_even_counts _ hsorted hcnt
  obtain ⟨g2, heq, hpres, hmem, hf⟩ := makeGraph_even_spec fmtFloat sim map ps {} hev
  obtain ⟨hlen, _, hcomp⟩ := hf (fun _ _ => rfl)
  have hnd := keysAscending_nodup map hkeys
  -- what every edge of the result looks like
  have hedges : ∀ x ∈ g2.elist, ∃ a ∈ map, ∃ b ∈ map, ∃ n la lb,
      (n, la) ∈ a.2.links ∧ (n, lb) ∈ b.2.links ∧
      (mapFind (x.2.v 0) g2.vlist).isSome ∧ (mapFind (x.2.v 1) g2.vlist).isSome ∧
      x.2.weight = Min.min (declaredLat sim n la) (declaredLat sim n lb) ∧
      (g2.crossRank x.2 ↔ a.2.rank ≠ b.2.rank) := by
    intro x hx
    rcases hmem x hx with h | ⟨pr, hpr, hne⟩
    · simp at h
    · obtain ⟨x0, hx0, x1, hx1, l0, l1, c0, c1, v0, v1, e0, e1, hl0, hl1, hc0, hc1,
        hf0, hr0, hn0, hf1, hr1, hn1, hedge⟩ :=
        makeGraph_new_edge_data fmtFloat sim map ps {} g2.vlist _ _ hpres pr hpr x hne
      have hsame := pairs_same_name _ hsorted hcnt pr hpr
      have hm0 := vertexIds_mem_map _ _ x0 hx0
      have hm1 := vertexIds_mem_map _ _ x1 hx1
      have hc0b := mapFind_of_mem_distinct _ _ map hnd hm0
      have hc1b := mapFind_of_mem_distinct _ _ map hnd hm1
      rw [hc0] at hc0b
      rw [hc1] at hc1b
      cases hc0b
      cases hc1b
      rw [hsame] at hl0
      have hA := hlat _ hm0 _ hl0
      have hB := hlat _ hm1 _ hl1
      obtain ⟨hw, hcr⟩ := mkEdge_weight_cross sim g2 x pr.1.2 pr.2.2 x0.2.2 x1.2.2 pr.2.1
        l0 l1 v0 v1 hedge hf0 hf1 hr0 hr1 (hlinks _ hm0) (hlinks _ hm1) hl0 hl1
        hA.1 hB.1 hA.2 hB.2
      have hv0 : x.2.v 0 = pr.1.2 := by rw [hedge]; rfl
      have hv1 : x.2.v 1 = pr.2.2 := by rw [hedge]; rfl
      refine ⟨_, hm0, _, hm1, pr.2.1, l0, l1, hl0, hl1, ?_, ?_, hw, hcr⟩
      · rw [hv0, hf0]; rfl
      · rw [hv1, hf1]; rfl
  refine ⟨g2, heq, by simpa using hlen, ?_, ?_⟩
  · intro x hx
    obtain ⟨_, _, _, _, _, _, _, _, _, h0, h1, _, _⟩ := hedges x hx
    exact ⟨h0, h1⟩
  · ext v
    constructor
    · rintro ⟨x, hx, hcross, rfl⟩
      obtain ⟨a, ha, b, hb, n, la, lb, hla, hlb, _, _, hw, hcr⟩ := hedges x hx
      exact ⟨a, ha, b, hb, n, la, lb, hcr.mp hcross, hla, hlb, hw⟩
    · rintro ⟨a, ha, b, hb, n, la, lb, hrank, hla, hlb, rfl⟩
      obtain ⟨ka, hka⟩ := vertexIds_of_mem_map ps.Vertex_count map a ha
      obtain ⟨kb, hkb⟩ := vertexIds_of_mem_map ps.Vertex_count map b hb
      have hperm := makeGraph_linkMap_perm fmtFloat map ps {}
      have hqa : (n, ka) ∈ makeGraph_linkMap fmtFloat map ps {} :=
        hperm.symm.subset ((linkRefs_mem _ _).mpr ⟨_, hka, (n, la), hla, rfl⟩)
      have hqb : (n, kb) ∈ makeGraph_linkMap fmtFloat map ps {} :=
        hperm.symm.subset ((linkRefs_mem _ _).mpr ⟨_, hkb, (n, lb), hlb, rfl⟩)
      have hkab : ka ≠ kb := by
        intro h
        have := vertexIds_key_unique _ _ _ hka _ hkb h
        simp only [Prod.mk.injEq] at this
        exact hrank (by rw [this.2.2])
      have hne : ((n, ka) : String × Int) ≠ (n, kb) := by
        intro h
        exact hkab (congrArg Prod.snd h)
      -- the edge for the pair, whichever way round it was formed
      have key : ∀ (k0 k1 : Int) (a0 a1 : String × SDL_Component) (m0 m1 : SDL_Link),
          (k0, a0.1, a0.2) ∈ vertexIds ps.Vertex_count map →
          (k1, a1.1, a1.2) ∈ vertexIds ps.Vertex_count map →
          (n, m0) ∈ a0.2.links → (n, m1) ∈ a1.2.links → a0.2.rank ≠ a1.2.rank →
          ((n, k0), (n, k1)) ∈ pairs (makeGraph_linkMap fmtFloat map ps {}) →
          Min.min (declaredLat sim n m0) (declaredLat sim n m1) ∈ g2.crossWeights := by
        intro k0 k1 a0 a1 m0 m1 hk0 hk1 hm0 hm1 hr hpr
        obtain ⟨x, hx, hnew⟩ := hcomp _ hpr
        obtain ⟨x0, hx0, x1, hx1, l0, l1, c0, c1, v0, v1, e0, e1, hl0, hl1, hc0, hc1,
          hf0, hr0, hn0, hf1, hr1, hn1, hedge⟩ :=
          makeGraph_new_edge_data fmtFloat sim map ps {} g2.vlist _ _ hpres _ hpr x hnew
        simp only at e0 e1 hl0 hl1 hf0 hf1 hedge
        have u0 := vertexIds_key_unique _ _ _ hk0 _ hx0 e0
        have u1 := vertexIds_key_unique _ _ _ hk1 _ hx1 e1
        subst u0 u1
        have hmem0 := vertexIds_mem_map _ _ _ hk0
        have hmem1 := vertexIds_mem_map _ _ _ hk1
        simp only at hmem0 hmem1 hc0 hc1 hr0 hr1
        have hc0b := mapFind_of_mem_distinct _ _ map hnd hmem0
        have hc1b := mapFind_of_mem_distinct _ _ map hnd hmem1
        rw [hc0] at hc0b
        rw [hc1] at hc1b
        cases hc0b
        cases hc1b
        have hA := hlat _ hmem0 _ hm0
        have hB := hlat _ hmem1 _ hm1
        obtain ⟨hw, hcr⟩ := mkEdge_weight_cross sim g2 x k0 k1 a0.2 a1.2 n
          m0 m1 v0 v1 hedge hf0 hf1 hr0 hr1 (hlinks _ hmem0) (hlinks _ hmem1) hm0 hm1
          hA.1 hB.1 hA.2 hB.2
        exact ⟨x, hx, hcr.mpr hr, hw.symm⟩
      rcases pairs_complete _ hsorted hcnt02 (n, ka) hqa (n, kb) hqb rfl hne with hp | hp
      · exact key ka kb a b la lb hka hkb hla hlb hrank hp
      · have := key kb ka b a lb la hkb hka hlb hla (fun h => hrank h.symm) hp
        rw [min_comm] at this
        exact this

/-- C8: for a component map with distinct component names and distinct link names per
component, in which every link name is referenced exactly twice and every reference
declares a latency below 99999 ticks, makeGraph on the empty graph returns with
one edge per link, and findMinPart on the result returns on every process the
minimum over the links that cross ranks of the smaller declared latency, or 99999
when no link crosses ranks. -/
theorem lookahead_end_to_end (fmtFloat : FloatVal → String) (sim : Simulation)
    (map : List (String × SDL_Component)) (ps : ProcState) (others : List Graph)
    (hkeys : keysAscending map) (hlinks : ∀ y ∈ map, keysAscending y.2.links)
    (htwo : ∀ n ∈ refNames map, (refNames map).count n = 2)
    (hlat : ∀ y ∈ map, ∀ l ∈ y.2.links,
      (l.2.params.find "lat").isSome ∧ declaredLat sim l.1 l.2 < 99999) :
    ∃ r m, makeGraph fmtFloat sim map ps {} = some r ∧
      r.graph.elist.length = linkRefCount map / 2 ∧
      findMinPart (r.graph :: others) = some (List.replicate (others.length + 1) m) ∧
      (crossLinkLatencies sim map = ∅ → m = 99999) ∧
      ((crossLinkLatencies sim map).Nonempty → IsLeast (crossLinkLatencies sim map) m) := by
  obtain ⟨g2, heq, hlen, hwf, hcw⟩ :=
    makeGraph_crossWeights fmtFloat sim map ps hkeys hlinks htwo hlat
  obtain ⟨m, hm, _, hall, hex⟩ := findMinPart_scan_spec g2 g2.elist 99999 hwf
  have hlt := crossLinkLatencies_lt sim map hlat
  refine ⟨_, m, heq, hlen, by rw [findMinPart_cons, hm]; rfl, ?_, ?_⟩
  · intro hempty
    rcases hex with h | ⟨p, hp, hc, hpm⟩
    · exact h
    · have hmem : p.2.weight ∈ g2.crossWeights := ⟨p, hp, hc, rfl⟩
      rw [hcw, hempty] at hmem
      exact absurd hmem (Set.not_mem_empty _)
  · rintro ⟨v, hv⟩
    have hlow : ∀ w ∈ crossLinkLatencies sim map, m ≤ w := by
      intro w hw
      rw [← hcw] at hw
      obtain ⟨p, hp, hc, rfl⟩ := hw
      exact hall p hp hc
    refine ⟨?_, hlow⟩
    rcases hex with h | ⟨p, hp, hc, hpm⟩
    · have h1 := hlow v hv
      have h2 := hlt v hv
      omega
    · rw [← hcw]
      exact ⟨p, hp, hc, hpm⟩

/-- Witness for C8: the example of section 8 gives two edges of weights 4 and 2 and
findMinPart returns 4 on both processes. -/
theorem lookahead_end_to_end_witness :
    keysAscending exMapABC ∧ (∀ y ∈ exMapABC, keysAscending y.2.links) ∧
    (∀ n ∈ refNames exMapABC, (refNames exMapABC).count n = 2) ∧
    (∀ y ∈ exMapABC, ∀ l ∈ y.2.links,
      (l.2.params.find "lat").isSome ∧ declaredLat exSim l.1 l.2 < 99999) ∧
    (makeGraph exFmtFloat exSim exMapABC {} {}).map
        (fun r => r.graph.elist.map
          (fun x => (x.2.prop_list.get GRAPH_LINK_NAME, x.2.prop_list.get GRAPH_WEIGHT))) =
      some [("x", "4"), ("y", "2")] ∧
    (makeGraph exFmtFloat exSim exMapABC {} {}).bind
        (fun r => findMinPart [r.graph, r.graph]) = some [4, 4] ∧
    ∃ r m, makeGraph exFmtFloat exSim exMapABC {} {} = some r ∧
      r.graph.elist.length = linkRefCount exMapABC / 2 ∧
      findMinPart (r.graph :: [({} : Graph)]) = some (List.replicate (1 + 1) m) ∧
      (crossLinkLatencies exSim exMapABC = ∅ → m = 99999) ∧
      ((crossLinkLatencies exSim exMapABC).Nonempty →
        IsLeast (crossLinkLatencies exSim exMapABC) m) :=
  ⟨by decide, by decide, by decide, by decide, by decide, by decide,
    lookahead_end_to_end exFmtFloat exSim exMapABC {} [{}] (by decide) (by decide)
      (by decide) (by decide)⟩

/-! ## The shape of the graph makeGraph builds -/

theorem adjTotal_cons (x : Int × Vertex) (l : List (Int × Vertex)) :
    adjTotal (x :: l) = x.2.adj_list.length + adjTotal l := by
  simp [adjTotal]

theorem adjTotal_mapSet_fresh (k : Int) (v : Vertex) (l : List (Int × Vertex))
    (h : mapFind k l = none) : adjTotal (mapSet k v l) = adjTotal l + v.adj_list.length := by
  induction l with
  | nil => simp [mapSet, adjTotal]
  | cons q t ih =>
    obtain ⟨k1, v1⟩ := q
    by_cases h1 : k1 = k
    · simp [mapFind, h1] at h
    · simp only [mapFind, h1, if_false] at h
      unfold mapSet
      split
      · simp only [adjTotal_cons]
        omega
      · simp only [h1, if_false, adjTotal_cons, ih h]
        omega

theorem adjTotal_mapModify (k a : Int) (l : List (Int × Vertex)) (h : mapFind k l ≠ none) :
    adjTotal (mapModify k (fun v => { v with adj_list := v.adj_list ++ [a] }) l) =
      adjTotal l + 1 := by
  induction l with
  | nil => simp [mapFind] at h
  | cons q t ih =>
    obtain ⟨k1, v1⟩ := q
    by_cases h1 : k1 = k
    · simp only [mapModify, h1, if_true, adjTotal_cons, List.length_append,
        List.length_singleton]
      omega
    · simp only [mapFind, h1, if_false] at h
      simp only [mapModify, h1, if_false, adjTotal_cons, ih h]
      omega

theorem mapFind_mapModify {K V : Type} [DecidableEq K] (k p : K) (f : V → V)
    (l : List (K × V)) :
    mapFind k (mapModify p f l) = (mapFind k l).map (fun v => if p = k then f v else v) := by
  by_cases h : p = k
  · subst h
    rw [mapFind_mapModify_self]
    simp
  · rw [mapFind_mapModify_ne _ _ _ _ h]
    simp [h]

theorem adjAdd_ge : ∀ (lm : List (String × Int)) (count k : Int),
    ∀ a ∈ adjAdd lm count k, count ≤ a
  | [], _, _, a, h => by simp [adjAdd] at h
  | [_], _, _, a, h => by simp [adjAdd] at h
  | (_, p0) :: (_, p1) :: rest, count, k, a, h => by
    simp only [adjAdd, List.mem_append] at h
    rcases h with (h | h) | h
    · split at h
      · simp only [List.mem_singleton] at h
        omega
      · simp at h
    · split at h
      · simp only [List.mem_singleton] at h
        omega
      · simp at h
    · have := adjAdd_ge rest (count + 1) k a h
      omega

theorem makeGraph_vertices_get (fmtFloat : FloatVal → String)
    (map : List (String × SDL_Component)) (count vId : Int) (vlist : List (Int × Vertex))
    (lm : List (String × Int)) (i : Nat) (h : i < map.length) :
    mapFind (count + i) (makeGraph_vertices fmtFloat map count vId vlist lm).2.1 =
      some (mkVertex fmtFloat (count + i) (vId + i) map[i].1 map[i].2) := by
  induction map generalizing count vId vlist lm i with
  | nil => simp at h
  | cons y rest ih =>
    obtain ⟨name, c⟩ := y
    rw [makeGraph_vertices_cons]
    cases i with
    | zero =>
      simp only [Nat.cast_zero, add_zero, List.getElem_cons_zero]
      rw [makeGraph_vertices_other _ _ _ _ _ _ _ (Or.inl (by omega))]
      exact mapFind_mapSet_self _ _ _
    | succ j =>
      have hj : j < rest.length := by simpa using h
      have := ih (count + 1) (vId + 1) (mapSet count (mkVertex fmtFloat count vId name c) vlist)
        (makeGraph_links count c.links lm) j hj
      have e1 : count + ((j + 1 : Nat) : Int) = count + 1 + (j : Int) := by
        push_cast; ring
      have e2 : vId + ((j + 1 : Nat) : Int) = vId + 1 + (j : Int) := by
        push_cast; ring
      simp only [List.getElem_cons_succ]
      rw [e1, e2]
      exact this

theorem makeGraph_vertices_length (fmtFloat : FloatVal → String)
    (map : List (String × SDL_Component)) (count vId : Int) (vlist : List (Int × Vertex))
    (lm : List (String × Int)) (hfresh : ∀ k, count ≤ k → mapFind k vlist = none) :
    (makeGraph_vertices fmtFloat map count vId vlist lm).2.1.length =
      vlist.length + map.length ∧
    adjTotal (makeGraph_vertices fmtFloat map count vId vlist lm).2.1 = adjTotal vlist := by
  induction map generalizing count vId vlist lm with
  | nil => simp [makeGraph_vertices]
  | cons y rest ih =>
    obtain ⟨name, c⟩ := y
    rw [makeGraph_vertices_cons]
    have hf2 : ∀ k, count + 1 ≤ k →
        mapFind k (mapSet count (mkVertex fmtFloat count vId name c) vlist) = none := by
      intro k hk
      rw [mapFind_mapSet_ne _ _ _ _ (by omega)]
      exact hfresh k (by omega)
    obtain ⟨h1, h2⟩ := ih (count + 1) (vId + 1) _ (makeGraph_links count c.links lm) hf2
    rw [h1, h2, length_mapSet_fresh _ _ _ (hfresh count (le_refl _)),
      adjTotal_mapSet_fresh _ _ _ (hfresh count (le_refl _))]
    simp only [List.length_cons, mkVertex, List.length_nil]
    omega

theorem makeGraph_vertices_adj (fmtFloat : FloatVal → String)
    (map : List (String × SDL_Component)) (count vId : Int) (vlist : List (Int × Vertex))
    (lm : List (String × Int)) (k : Int) (v : Vertex)
    (h : mapFind k (makeGraph_vertices fmtFloat map count vId vlist lm).2.1 = some v) :
    mapFind k vlist = some v ∨ v.adj_list = [] := by
  induction map generalizing count vId vlist lm with
  | nil => exact Or.inl (by simpa [makeGraph_vertices] using h)
  | cons y rest ih =>
    obtain ⟨name, c⟩ := y
    rw [makeGraph_vertices_cons] at h
    rcases ih _ _ _ _ h with h2 | h2
    · by_cases hk : count = k
      · subst hk
        rw [mapFind_mapSet_self] at h2
        cases h2
        exact Or.inr rfl
      · rw [mapFind_mapSet_ne _ _ _ _ hk] at h2
        exact Or.inl h2
    · exact Or.inr h2

theorem makeGraph_edges_vlist (sim : Simulation) (map : List (String × SDL_Component)) :
    ∀ (lm : List (String × Int)) (count : Int) (g : Graph) (c2 : Int) (g2 : Graph),
    (∀ q ∈ lm, ∃ name rank c, VertexOf g.vlist q.2 name rank ∧ mapFind name map = some c) →
    makeGraph_edges sim map lm count g = some (c2, g2) →
    (∀ k, mapFind k g2.vlist = (mapFind k g.vlist).map
      (fun v => { v with adj_list := v.adj_list ++ adjAdd lm count k })) ∧
    g2.vlist.length = g.vlist.length ∧
    adjTotal g2.vlist = adjTotal g.vlist + 2 * (pairs lm).length
  | [], count, g, c2, g2, _, hrun => by
    simp only [makeGraph_edges, Option.some.injEq, Prod.mk.injEq] at hrun
    obtain ⟨_, rfl⟩ := hrun
    refine ⟨?_, rfl, by simp [pairs]⟩
    intro k
    cases mapFind k g.vlist <;> simp [adjAdd]
  | [_], _, _, _, _, _, hrun => by simp [makeGraph_edges] at hrun
  | (n0, p0) :: (edge, p1) :: rest, count, g, c2, g2, hres, hrun => by
    obtain ⟨name0, r0, c0, h0, hc0⟩ := hres (n0, p0) (by simp)
    obtain ⟨name1, r1, c1, h1, hc1⟩ := hres (edge, p1) (by simp)
    rw [makeGraph_edges_step sim map n0 edge p0 p1 rest count g name0 name1 r0 r1 c0 c1
      h0 hc0 h1 hc1] at hrun
    have hres3 : ∀ q ∈ rest, ∃ name rank c,
        VertexOf (mapModify p1 (fun v => { v with adj_list := v.adj_list ++ [count] })
          (mapModify p0 (fun v => { v with adj_list := v.adj_list ++ [count] }) g.vlist))
          q.2 name rank ∧ mapFind name map = some c := by
      intro q hq
      obtain ⟨name, rank, c, hv, hc⟩ := hres q (by simp [hq])
      exact ⟨name, rank, c, VertexOf_mapModify _ _ _ _ _ _ (VertexOf_mapModify _ _ _ _ _ _ hv),
        hc⟩
    obtain ⟨hfind, hlen, hadj⟩ := makeGraph_edges_vlist sim map rest (count + 1) _ c2 g2
      hres3 hrun
    obtain ⟨v0, hv0, _⟩ := h0
    obtain ⟨v1, hv1, _⟩ := h1
    refine ⟨?_, ?_, ?_⟩
    · intro k
      rw [hfind k]
      simp only [mapFind_mapModify]
      cases mapFind k g.vlist with
      | none => rfl
      | some v =>
        simp only [Option.map_some', adjAdd]
        by_cases e0 : p0 = k <;> by_cases e1 : p1 = k <;> simp [e0, e1]
    · rw [hlen]
      simp only [length_mapModify]
    · rw [hadj]
      simp only
      rw [adjTotal_mapModify, adjTotal_mapModify]
      · simp only [pairs, List.length_cons]
        omega
      · rw [hv0]
        simp
      · rw [Ne, mapFind_mapModify_none, hv1]
        simp

theorem count_adjAdd_head (n0 edge : String) (p0 p1 : Int) (rest : List (String × Int))
    (count k : Int) (adj : List Int) (hadj : ∀ a ∈ adj, a < count) :
    (adj ++ adjAdd ((n0, p0) :: (edge, p1) :: rest) count k).count count =
      (if p0 = k then 1 else 0) + (if p1 = k then 1 else 0) := by
  have h1 : adj.count count = 0 := by
    rw [List.count_eq_zero]
    intro hmem
    exact absurd (hadj _ hmem) (lt_irrefl _)
  have h2 : (adjAdd rest (count + 1) k).count count = 0 := by
    rw [List.count_eq_zero]
    intro hmem
    have := adjAdd_ge rest (count + 1) k _ hmem
    omega
  simp only [adjAdd, List.count_append, h1, h2]
  by_cases e0 : p0 = k <;> by_cases e1 : p1 = k <;> simp [e0, e1]

theorem makeGraph_edges_adj (sim : Simulation) (map : List (String × SDL_Component)) :
    ∀ (lm : List (String × Int)) (count : Int) (g : Graph) (c2 : Int) (g2 : Graph),
    (∀ q ∈ lm, ∃ name rank c, VertexOf g.vlist q.2 name rank ∧ mapFind name map = some c) →
    (∀ k v, mapFind k g.vlist = some v → ∀ a ∈ v.adj_list, a < count) →
    makeGraph_edges sim map lm count g = some (c2, g2) →
    ∀ x ∈ g2.elist, x ∈ g.elist ∨
      (x.2.id = x.1 ∧ ∃ v0 v1,
        mapFind (x.2.v 0) g2.vlist = some v0 ∧ mapFind (x.2.v 1) g2.vlist = some v1 ∧
        v0.adj_list.count x.1 = (if x.2.v 0 = x.2.v 1 then 2 else 1) ∧
        v1.adj_list.count x.1 = (if x.2.v 0 = x.2.v 1 then 2 else 1))
  | [], count, g, c2, g2, _, _, hrun => by
    simp only [makeGraph_edges, Option.some.injEq, Prod.mk.injEq] at hrun
    obtain ⟨_, rfl⟩ := hrun
    intro x hx
    exact Or.inl hx
  | [_], _, _, _, _, _, _, hrun => by simp [makeGraph_edges] at hrun
  | (n0, p0) :: (edge, p1) :: rest, count, g, c2, g2, hres, hfresh, hrun => by
    obtain ⟨name0, r0, c0, h0, hc0⟩ := hres (n0, p0) (by simp)
    obtain ⟨name1, r1, c1, h1, hc1⟩ := hres (edge, p1) (by simp)
    obtain ⟨hfind, _, _⟩ := makeGraph_edges_vlist sim map _ count g c2 g2 hres hrun
    rw [makeGraph_edges_step sim map n0 edge p0 p1 rest count g name0 name1 r0 r1 c0 c1
      h0 hc0 h1 hc1] at hrun
    have hres3 : ∀ q ∈ rest, ∃ name rank c,
        VertexOf (mapModify p1 (fun v => { v with adj_list := v.adj_list ++ [count] })
          (mapModify p0 (fun v => { v with adj_list := v.adj_list ++ [count] }) g.vlist))
          q.2 name rank ∧ mapFind name map = some c := by
      intro q hq
      obtain ⟨name, rank, c, hv, hc⟩ := hres q (by simp [hq])
      exact ⟨name, rank, c, VertexOf_mapModify _ _ _ _ _ _ (VertexOf_mapModify _ _ _ _ _ _ hv),
        hc⟩
    have hfresh3 : ∀ k v,
        mapFind k (mapModify p1 (fun v => { v with adj_list := v.adj_list ++ [count] })
          (mapModify p0 (fun v => { v with adj_list := v.adj_list ++ [count] }) g.vlist)) =
          some v → ∀ a ∈ v.adj_list, a < count + 1 := by
      intro k v hv a ha
      simp only [mapFind_mapModify] at hv
      cases hk : mapFind k g.vlist with
      | none => simp [hk] at hv
      | some w =>
        have hw := hfresh k w hk
        simp only [hk, Option.map_some', Option.some.injEq] at hv
        subst hv
        by_cases e0 : p0 = k <;> by_cases e1 : p1 = k <;>
          simp only [e0, e1, if_true, if_false, List.mem_append, List.mem_singleton] at ha
        · rcases ha with (ha | ha) | ha
          · have := hw a ha
            omega
          · omega
          · omega
        · rcases ha with ha | ha
          · have := hw a ha
            omega
          · omega
        · rcases ha with ha | ha
          · have := hw a ha
            omega
          · omega
        · have := hw a ha
          omega
    intro x hx
    rcases makeGraph_edges_adj sim map rest (count + 1) _ c2 g2 hres3 hfresh3 hrun x hx
      with h | h
    · rcases mem_mapSet _ _ _ _ h with rfl | h2
      · right
        obtain ⟨v0, hv0, _⟩ := h0
        obtain ⟨v1, hv1, _⟩ := h1
        have hf0 := hfind p0
        have hf1 := hfind p1
        rw [hv0] at hf0
        rw [hv1] at hf1
        have hc0 := count_adjAdd_head n0 edge p0 p1 rest count p0 v0.adj_list (hfresh p0 v0 hv0)
        have hc1 := count_adjAdd_head n0 edge p0 p1 rest count p1 v1.adj_list (hfresh p1 v1 hv1)
        refine ⟨rfl, _, _, hf0, hf1, ?_, ?_⟩
        · show (v0.adj_list ++ adjAdd ((n0, p0) :: (edge, p1) :: rest) count p0).count count =
            if p0 = p1 then 2 else 1
          rw [hc0]
          by_cases e : p0 = p1
          · simp [e]
          · have e2 : ¬ p1 = p0 := fun h => e h.symm
            simp [e, e2]
        · show (v1.adj_list ++ adjAdd ((n0, p0) :: (edge, p1) :: rest) count p1).count count =
            if p0 = p1 then 2 else 1
          rw [hc1]
          by_cases e : p0 = p1
          · simp [e]
          · simp [e]
      · exact Or.inl h2
    · exact Or.inr h

/-- The run of makeGraph on an even number of associations, with the result of its
second loop. -/
theorem makeGraph_even_run (fmtFloat : FloatVal → String) (sim : Simulation)
    (map : List (String × SDL_Component)) (ps : ProcState) (graph : Graph)
    (hev : linkRefCount map % 2 = 0) :
    ∃ g2, makeGraph_edges sim map (makeGraph_linkMap fmtFloat map ps graph) ps.Edge_count
        { graph with vlist := makeGraph_vlist1 fmtFloat map ps graph } =
        some (ps.Edge_count + (linkRefCount map / 2 : Nat), g2) ∧
      makeGraph fmtFloat sim map ps graph =
        some { ps := { ps with Vertex_count := ps.Vertex_count + map.length,
                               Edge_count := ps.Edge_count + (linkRefCount map / 2 : Nat) },
               graph := g2, reported := false } := by
  have hl := makeGraph_linkMap_length fmtFloat map ps graph
  have hc := makeGraph_vertices_count fmtFloat map ps.Vertex_count 0 graph.vlist []
  have hpl : (pairs (makeGraph_linkMap fmtFloat map ps graph)).length = linkRefCount map / 2 := by
    rw [pairs_length, hl]
  obtain ⟨g2, heq, _⟩ := makeGraph_edges_spec sim map
    (makeGraph_linkMap fmtFloat map ps graph) ps.Edge_count
    { graph with vlist := makeGraph_vlist1 fmtFloat map ps graph }
    (makeGraph_linkMap_resolves fmtFloat map ps graph) (by rw [hl]; exact hev)
  rw [hpl] at heq
  refine ⟨g2, heq, ?_⟩
  unfold makeGraph_linkMap at hl
  unfold makeGraph_linkMap makeGraph_vlist1 at heq
  unfold makeGraph
  simp only [hl, hev, hc, heq]
  simp

theorem mkVertex_id_prop (fmtFloat : FloatVal → String) (count vId : Int) (name : String)
    (c : SDL_Component) :
    (mkVertex fmtFloat count vId name c).prop_list.get GRAPH_ID = fmtInt vId := by
  simp only [mkVertex, PropList.get, PropList.set]
  rw [mapFind_mapSet_ne _ _ _ _ (by decide), mapFind_mapSet_self]
  rfl

theorem mkVertex_weight_prop (fmtFloat : FloatVal → String) (count vId : Int) (name : String)
    (c : SDL_Component) :
    (mkVertex fmtFloat count vId name c).prop_list.get GRAPH_WEIGHT = fmtFloat c.weight := by
  simp only [mkVertex, PropList.get, PropList.set]
  rw [mapFind_mapSet_self]
  rfl

/-- C19: whether the number of link references is even or odd, makeGraph returns, the
vertex list has grown by exactly one vertex per component, and the vertex of the
component at position i of the map (the map iterates in name order) has the
fresh identifier `Vertex::count + i`, the rank of the component, its name as
component-name property, the decimal rendering of i as index property and the
rendering of its weight as weight property. The identifiers from `Vertex::count`
on are unused, as holds for every graph since identifiers only come from that
counter. -/
theorem makeGraph_vertex_per_component (fmtFloat : FloatVal → String) (sim : Simulation)
    (map : List (String × SDL_Component)) (ps : ProcState) (graph : Graph)
    (hfresh : ∀ k, ps.Vertex_count ≤ k → mapFind k graph.vlist = none) :
    ∃ r, makeGraph fmtFloat sim map ps graph = some r ∧
      r.graph.vlist.length = graph.vlist.length + map.length ∧
      r.ps.Vertex_count = ps.Vertex_count + map.length ∧
      ∀ (i : Nat) (h : i < map.length), ∃ v,
        mapFind (ps.Vertex_count + i) r.graph.vlist = some v ∧
        v.id = ps.Vertex_count + i ∧ v.rank = map[i].2.rank ∧
        v.prop_list.get GRAPH_COMP_NAME = map[i].1 ∧
        v.prop_list.get GRAPH_ID = fmtInt i ∧
        v.prop_list.get GRAPH_WEIGHT = fmtFloat map[i].2.weight := by
  have hlen := (makeGraph_vertices_length fmtFloat map ps.Vertex_count 0 graph.vlist []
    hfresh).1
  have hget : ∀ (i : Nat) (h : i < map.length),
      mapFind (ps.Vertex_count + i) (makeGraph_vlist1 fmtFloat map ps graph) =
        some (mkVertex fmtFloat (ps.Vertex_count + i) i map[i].1 map[i].2) := by
    intro i h
    have := makeGraph_vertices_get fmtFloat map ps.Vertex_count 0 graph.vlist [] i h
    simpa [makeGraph_vlist1] using this
  by_cases hev : linkRefCount map % 2 = 0
  · obtain ⟨g2, hrun, heq⟩ := makeGraph_even_run fmtFloat sim map ps graph hev
    obtain ⟨hfind, hl2, _⟩ := makeGraph_edges_vlist sim map _ _ _ _ g2
      (makeGraph_linkMap_resolves fmtFloat map ps graph) hrun
    refine ⟨_, heq, ?_, rfl, ?_⟩
    · rw [hl2]
      exact hlen
    · intro i h
      have hf := hfind (ps.Vertex_count + i)
      simp only at hf
      rw [hget i h] at hf
      simp only [Option.map_some'] at hf
      exact ⟨_, hf, rfl, rfl,
        mkVertex_comp_name fmtFloat (ps.Vertex_count + i) i map[i].1 map[i].2,
        mkVertex_id_prop fmtFloat (ps.Vertex_count + i) i map[i].1 map[i].2,
        mkVertex_weight_prop fmtFloat (ps.Vertex_count + i) i map[i].1 map[i].2⟩
  · have hodd : linkRefCount map % 2 = 1 := by omega
    refine ⟨_, makeGraph_odd_spec fmtFloat sim map ps graph hodd, hlen, rfl, ?_⟩
    intro i h
    exact ⟨_, hget i h, rfl, rfl,
      mkVertex_comp_name fmtFloat (ps.Vertex_count + i) i map[i].1 map[i].2,
      mkVertex_id_prop fmtFloat (ps.Vertex_count + i) i map[i].1 map[i].2,
      mkVertex_weight_prop fmtFloat (ps.Vertex_count + i) i map[i].1 map[i].2⟩

/-- Witness for C19: the three-component example on the empty graph with the vertex
counter at 5; the index properties are 0, 1, 2 in name order. -/
theorem makeGraph_vertex_per_component_witness :
    (∀ k, ({ Vertex_count := 5 } : ProcState).Vertex_count ≤ k →
      mapFind k ({} : Graph).vlist = none) ∧
    (makeGraph exFmtFloat exSim exMapABC { Vertex_count := 5 } {}).map
        (fun r => r.graph.vlist.map
          (fun x => (x.1, x.2.prop_list.get GRAPH_COMP_NAME, x.2.prop_list.get GRAPH_ID))) =
      some [(5, "A", "0"), (6, "B", "1"), (7, "C", "2")] ∧
    ∃ r, makeGraph exFmtFloat exSim exMapABC { Vertex_count := 5 } {} = some r ∧
      r.graph.vlist.length = ({} : Graph).vlist.length + exMapABC.length ∧
      r.ps.Vertex_count = ({ Vertex_count := 5 } : ProcState).Vertex_count + exMapABC.length ∧
      ∀ (i : Nat) (h : i < exMapABC.length), ∃ v,
        mapFind (({ Vertex_count := 5 } : ProcState).Vertex_count + i) r.graph.vlist = some v ∧
        v.id = ({ Vertex_count := 5 } : ProcState).Vertex_count + i ∧
        v.rank = exMapABC[i].2.rank ∧
        v.prop_list.get GRAPH_COMP_NAME = exMapABC[i].1 ∧
        v.prop_list.get GRAPH_ID = fmtInt i ∧
        v.prop_list.get GRAPH_WEIGHT = exFmtFloat exMapABC[i].2.weight :=
  ⟨fun _ _ => rfl, by decide,
    makeGraph_vertex_per_component exFmtFloat exSim exMapABC { Vertex_count := 5 } {}
      (fun _ _ => rfl)⟩

/-- C20: applied to the empty graph, makeGraph returns on every component map, and in
the result every edge has both endpoint identifiers in the vertex list, is stored
under its own identifier, and occurs in the adjacency list of each of its two
endpoints exactly once, or exactly twice in the one list when the two endpoints
coincide; the adjacency lists together have twice as many entries as there are
edges. -/
theorem makeGraph_well_formed (fmtFloat : FloatVal → String) (sim : Simulation)
    (map : List (String × SDL_Component)) (ps : ProcState) :
    ∃ r, makeGraph fmtFloat sim map ps {} = some r ∧ r.graph.endpointsPresent ∧
      (∀ x ∈ r.graph.elist, x.2.id = x.1 ∧ ∃ v0 v1,
        mapFind (x.2.v 0) r.graph.vlist = some v0 ∧
        mapFind (x.2.v 1) r.graph.vlist = some v1 ∧
        v0.adj_list.count x.2.id = (if x.2.v 0 = x.2.v 1 then 2 else 1) ∧
        v1.adj_list.count x.2.id = (if x.2.v 0 = x.2.v 1 then 2 else 1)) ∧
      adjTotal r.graph.vlist = 2 * r.graph.elist.length := by
  have hvl := makeGraph_vertices_length fmtFloat map ps.Vertex_count 0 [] []
    (fun _ _ => rfl)
  have hadj0 : adjTotal (makeGraph_vlist1 fmtFloat map ps {}) = 0 := by
    have := hvl.2
    simpa [makeGraph_vlist1, adjTotal] using this
  by_cases hev : linkRefCount map % 2 = 0
  · obtain ⟨g2, hrun, heq⟩ := makeGraph_even_run fmtFloat sim map ps {} hev
    have hres := makeGraph_linkMap_resolves fmtFloat map ps {}
    obtain ⟨_, _, htot⟩ := makeGraph_edges_vlist sim map _ _ _ _ g2 hres hrun
    have hfresh : ∀ k v, mapFind k (makeGraph_vlist1 fmtFloat map ps {}) = some v →
        ∀ a ∈ v.adj_list, a < ps.Edge_count := by
      intro k v hv a ha
      rcases makeGraph_vertices_adj fmtFloat map ps.Vertex_count 0 [] [] k v hv with h | h
      · simp [mapFind] at h
      · rw [h] at ha
        simp at ha
    have hedges := makeGraph_edges_adj sim map _ _ _ _ g2 hres hfresh hrun
    obtain ⟨g3, heq3, _, _, hf⟩ := makeGraph_edges_spec sim map
      (makeGraph_linkMap fmtFloat map ps {}) ps.Edge_count
      { ({} : Graph) with vlist := makeGraph_vlist1 fmtFloat map ps {} } hres
      (by rw [makeGraph_linkMap_length]; exact hev)
    have hlen3 := (hf (fun _ _ => rfl)).1
    have hg : g3 = g2 := by
      have := heq3.symm.trans hrun
      simp only [Option.some.injEq, Prod.mk.injEq] at this
      exact this.2
    subst hg
    have hall : ∀ x ∈ g3.elist, x.2.id = x.1 ∧ ∃ v0 v1,
        mapFind (x.2.v 0) g3.vlist = some v0 ∧ mapFind (x.2.v 1) g3.vlist = some v1 ∧
        v0.adj_list.count x.2.id = (if x.2.v 0 = x.2.v 1 then 2 else 1) ∧
        v1.adj_list.count x.2.id = (if x.2.v 0 = x.2.v 1 then 2 else 1) := by
      intro x hx
      rcases hedges x hx with h | ⟨hid, v0, v1, h0, h1, hc0, hc1⟩
      · simp at h
      · exact ⟨hid, v0, v1, h0, h1, by rw [hid]; exact hc0, by rw [hid]; exact hc1⟩
    refine ⟨_, heq, ?_, hall, ?_⟩
    · intro x hx
      obtain ⟨_, v0, v1, h0, h1, _, _⟩ := hall x hx
      simp [h0, h1]
    · show adjTotal g3.vlist = 2 * g3.elist.length
      rw [htot, hlen3]
      simp only at hadj0 ⊢
      rw [hadj0]
      simp
  · have hodd : linkRefCount map % 2 = 1 := by omega
    refine ⟨_, makeGraph_odd_spec fmtFloat sim map ps {} hodd, ?_, ?_, ?_⟩
    · intro x hx
      simp at hx
    · intro x hx
      simp at hx
    · show adjTotal (makeGraph_vlist1 fmtFloat map ps {}) = 2 * 0
      rw [hadj0]

/-- An example with a self-loop: the single component A references the links a and b;
the one edge that results joins the vertex of A to itself and its identifier is
twice in the adjacency list of that vertex. -/
theorem makeGraph_self_loop_example :
    (makeGraph exFmtFloat exSim exMapSelfLoop {} {}).map
        (fun r => (r.graph.elist.map (fun x => (x.1, x.2.vertex)),
                   r.graph.vlist.map (fun x => (x.1, x.2.adj_list)))) =
      some ([(0, (0, 0))], [(0, [0, 0])]) := by
  decide

/-! ## The configuration graph -/

theorem addLink_fill_ok (sim : Simulation) (ps : ProcState) (g : ConfigGraph)
    (comp_id link : Nat) (port latency_str : String) (l : ConfigLink)
    (hl : ps.linkHeap[link]? = some l) :
    ConfigGraph.addLink_fill sim ps g comp_id link port latency_str =
      .ok ({ ps with
              linkHeap := ps.linkHeap.set link
                (l.fill comp_id port (sim.getSimCycles latency_str "ConfigGraph::addLink")) },
           { g with comps := ownLink comp_id link g.comps }) () := by
  simp only [ConfigGraph.addLink_fill, hl, ConfigLink.fill, ownLink]

theorem addLink_new (sim : Simulation) (ps : ProcState) (g : ConfigGraph)
    (comp_id : Nat) (link_name port latency_str : String)
    (hc : mapFind comp_id g.comps ≠ none) (hnew : mapFind link_name g.links = none) :
    ConfigGraph.addLink sim ps g comp_id link_name port latency_str =
      .ok ({ ps with
              ConfigLink_count := ps.ConfigLink_count + 1
              linkHeap := ps.linkHeap ++
                [({ ConfigLink.new ps.ConfigLink_count with name := link_name } :
                    ConfigLink).fill comp_id port
                  (sim.getSimCycles latency_str "ConfigGraph::addLink")] },
           { comps := ownLink comp_id ps.linkHeap.length g.comps,
             links := mapSet link_name ps.linkHeap.length g.links }) () := by
  unfold ConfigGraph.addLink
  simp only [hc, if_false, hnew]
  rw [addLink_fill_ok sim _ _ comp_id _ port latency_str
    { ConfigLink.new ps.ConfigLink_count with name := link_name } (by simp)]
  simp

theorem addLink_existing (sim : Simulation) (ps : ProcState) (g : ConfigGraph)
    (comp_id : Nat) (link_name port latency_str : String) (link : Nat) (l : ConfigLink)
    (hc : mapFind comp_id g.comps ≠ none) (hf : mapFind link_name g.links = some link)
    (hl : ps.linkHeap[link]? = some l) (hr : l.current_ref < 2) :
    ConfigGraph.addLink sim ps g comp_id link_name port latency_str =
      .ok ({ ps with
              linkHeap := ps.linkHeap.set link
                (l.fill comp_id port (sim.getSimCycles latency_str "ConfigGraph::addLink")) },
           { g with comps := ownLink comp_id link g.comps }) () := by
  unfold ConfigGraph.addLink
  have hr2 : ¬ l.current_ref ≥ 2 := by omega
  simp only [hc, if_false, hf, hl, hr2]
  exact addLink_fill_ok sim ps g comp_id link port latency_str l hl

theorem addLink_full (sim : Simulation) (ps : ProcState) (g : ConfigGraph)
    (comp_id : Nat) (link_name port latency_str : String) (link : Nat) (l : ConfigLink)
    (hc : mapFind comp_id g.comps ≠ none) (hf : mapFind link_name g.links = some link)
    (hl : ps.linkHeap[link]? = some l) (hr : 2 ≤ l.current_ref) :
    ConfigGraph.addLink sim ps g comp_id link_name port latency_str = .exit 1 (ps, g) := by
  unfold ConfigGraph.addLink
  have hr2 : l.current_ref ≥ 2 := hr
  simp only [hc, if_false, hf, hl, hr2, if_true]

/-- C9: on a link name that is not yet in the link table and with component
identifiers that are in the component table, the first addLink returns and fills
slot 0 of the new link with its component, port and latency in ticks; the second
returns and fills slot 1 with its own triple, leaving slot 0 as it was; the third
terminates the process through exit(1) before anything is changed, so that the
link keeps its two slots and its reference count of 2. -/
theorem addLink_three_references (sim : Simulation) (ps : ProcState) (g : ConfigGraph)
    (c1 c2 c3 : Nat) (link_name : String) (port1 port2 port3 lat1 lat2 lat3 : String)
    (h1 : mapFind c1 g.comps ≠ none) (h2 : mapFind c2 g.comps ≠ none)
    (h3 : mapFind c3 g.comps ≠ none) (hnew : mapFind link_name g.links = none) :
    ∃ ps1 g1 ps2 g2 link l1 l2,
      ConfigGraph.addLink sim ps g c1 link_name port1 lat1 = .ok (ps1, g1) () ∧
      mapFind link_name g1.links = some link ∧ ps1.linkHeap[link]? = some l1 ∧
      l1.name = link_name ∧ l1.current_ref = 1 ∧
      getSlot 0 l1.component = c1 ∧ getSlot 0 l1.port = port1 ∧
      getSlot 0 l1.latency = sim.getSimCycles lat1 "ConfigGraph::addLink" ∧
      ConfigGraph.addLink sim ps1 g1 c2 link_name port2 lat2 = .ok (ps2, g2) () ∧
      mapFind link_name g2.links = some link ∧ ps2.linkHeap[link]? = some l2 ∧
      l2.name = link_name ∧ l2.current_ref = 2 ∧
      getSlot 0 l2.component = c1 ∧ getSlot 0 l2.port = port1 ∧
      getSlot 0 l2.latency = sim.getSimCycles lat1 "ConfigGraph::addLink" ∧
      getSlot 1 l2.component = c2 ∧ getSlot 1 l2.port = port2 ∧
      getSlot 1 l2.latency = sim.getSimCycles lat2 "ConfigGraph::addLink" ∧
      ConfigGraph.addLink sim ps2 g2 c3 link_name port3 lat3 = .exit 1 (ps2, g2) := by
  have e1 := addLink_new sim ps g c1 link_name port1 lat1 h1 hnew
  have hfind : mapFind link_name (mapSet link_name ps.linkHeap.length g.links) =
      some ps.linkHeap.length := mapFind_mapSet_self _ _ _
  have h2b : mapFind c2 (ownLink c1 ps.linkHeap.length g.comps) ≠ none := by
    unfold ownLink
    rw [Ne, mapFind_mapModify_none]
    exact h2
  have h3b : mapFind c3 (ownLink c2 ps.linkHeap.length
      (ownLink c1 ps.linkHeap.length g.comps)) ≠ none := by
    unfold ownLink
    rw [Ne, mapFind_mapModify_none, mapFind_mapModify_none]
    exact h3
  have hheap1 : ∀ (l : ConfigLink), (ps.linkHeap ++ [l])[ps.linkHeap.length]? = some l := by
    intro l
    simp
  have hheap2 : ∀ (l m : ConfigLink),
      ((ps.linkHeap ++ [l]).set ps.linkHeap.length m)[ps.linkHeap.length]? = some m := by
    intro l m
    simp
  have e2 := addLink_existing sim
    { ps with
      ConfigLink_count := ps.ConfigLink_count + 1
      linkHeap := ps.linkHeap ++
        [({ ConfigLink.new ps.ConfigLink_count with name := link_name } :
            ConfigLink).fill c1 port1 (sim.getSimCycles lat1 "ConfigGraph::addLink")] }
    { comps := ownLink c1 ps.linkHeap.length g.comps,
      links := mapSet link_name ps.linkHeap.length g.links }
    c2 link_name port2 lat2 ps.linkHeap.length _
    h2b hfind (hheap1 _) (by simp [ConfigLink.fill, ConfigLink.new])
  have e3 := addLink_full sim
    { ps with
      ConfigLink_count := ps.ConfigLink_count + 1
      linkHeap := (ps.linkHeap ++
        [({ ConfigLink.new ps.ConfigLink_count with name := link_name } :
            ConfigLink).fill c1 port1 (sim.getSimCycles lat1 "ConfigGraph::addLink")]).set
        ps.linkHeap.length
        ((({ ConfigLink.new ps.ConfigLink_count with name := link_name } :
            ConfigLink).fill c1 port1 (sim.getSimCycles lat1 "ConfigGraph::addLink")).fill
          c2 port2 (sim.getSimCycles lat2 "ConfigGraph::addLink")) }
    { comps := ownLink c2 ps.linkHeap.length (ownLink c1 ps.linkHeap.length g.comps),
      links := mapSet link_name ps.linkHeap.length g.links }
    c3 link_name port3 lat3 ps.linkHeap.length _
    h3b hfind (hheap2 _ _) (by simp [ConfigLink.fill, ConfigLink.new])
  exact ⟨_, _, _, _, ps.linkHeap.length, _, _, e1, hfind, hheap1 _, rfl, rfl, rfl, rfl, rfl,
    e2, hfind, hheap2 _ _, rfl, rfl, rfl, rfl, rfl, rfl, rfl, rfl, e3⟩

/-- Witness for C9: three calls on the link name bus in a graph of three components. -/
theorem addLink_three_references_witness :
    mapFind 0 exConfigGraph.comps ≠ none ∧ mapFind 1 exConfigGraph.comps ≠ none ∧
    mapFind 2 exConfigGraph.comps ≠ none ∧ mapFind "bus" exConfigGraph.links = none ∧
    ∃ ps1 g1 ps2 g2 link l1 l2,
      ConfigGraph.addLink exSim exProcState exConfigGraph 0 "bus" "p0" "10" = .ok (ps1, g1) () ∧
      mapFind "bus" g1.links = some link ∧ ps1.linkHeap[link]? = some l1 ∧
      l1.name = "bus" ∧ l1.current_ref = 1 ∧
      getSlot 0 l1.component = 0 ∧ getSlot 0 l1.port = "p0" ∧
      getSlot 0 l1.latency = exSim.getSimCycles "10" "ConfigGraph::addLink" ∧
      ConfigGraph.addLink exSim ps1 g1 1 "bus" "p1" "20" = .ok (ps2, g2) () ∧
      mapFind "bus" g2.links = some link ∧ ps2.linkHeap[link]? = some l2 ∧
      l2.name = "bus" ∧ l2.current_ref = 2 ∧
      getSlot 0 l2.component = 0 ∧ getSlot 0 l2.port = "p0" ∧
      getSlot 0 l2.latency = exSim.getSimCycles "10" "ConfigGraph::addLink" ∧
      getSlot 1 l2.component = 1 ∧ getSlot 1 l2.port = "p1" ∧
      getSlot 1 l2.latency = exSim.getSimCycles "20" "ConfigGraph::addLink" ∧
      ConfigGraph.addLink exSim ps2 g2 2 "bus" "p2" "30" = .exit 1 (ps2, g2) :=
  ⟨by decide, by decide, by decide, by decide,
    addLink_three_references exSim exProcState exConfigGraph 0 1 2 "bus" "p0" "p1" "p2"
      "10" "20" "30" (by decide) (by decide) (by decide) (by decide)⟩

/-- C10: when the component `comp_id` exists and its parameters hold an entry of `key`
with value `v_old`, addParameter with overwrite = false returns, and afterwards the
parameters of the component are the former entries plus one further entry of `key`
with value `v_new`: both values are present, and `key` has one entry more than
before. -/
theorem addParameter_keeps_both (ps : ProcState) (g : ConfigGraph) (comp_id : Nat)
    (key v_old v_new : String) (c : ConfigComponent)
    (hc : mapFind comp_id g.comps = some c) (hold : (key, v_old) ∈ c.params.map) :
    ∃ g2 c2, ConfigGraph.addParameter ps g comp_id key v_new false = .ok (ps, g2) () ∧
      mapFind comp_id g2.comps = some c2 ∧
      List.Perm c2.params.map ((key, v_new) :: c.params.map) ∧
      (key, v_old) ∈ c2.params.map ∧ (key, v_new) ∈ c2.params.map ∧
      (c2.params.map.filter (fun e => e.1 = key)).length =
        (c.params.map.filter (fun e => e.1 = key)).length + 1 := by
  have hperm := mmInsert_perm key v_new c.params.map
  refine ⟨{ g with
      comps := mapModify comp_id
        (fun c => { c with params := c.params.insert key v_new }) g.comps },
    { c with params := c.params.insert key v_new }, ?_, ?_, hperm, ?_, ?_, ?_⟩
  · simp [ConfigGraph.addParameter, hc]
  · simp only
    rw [mapFind_mapModify_self, hc]
    rfl
  · exact hperm.symm.subset (List.mem_cons_of_mem _ hold)
  · exact hperm.symm.subset (List.mem_cons_self _ _)
  · have := (hperm.filter (fun e => decide (e.1 = key))).length_eq
    simp only [Params.insert]
    rw [this]
    simp

/-- Witness for C10: clock = 1GHz is kept when clock = 2GHz is added without
overwrite. -/
theorem addParameter_keeps_both_witness :
    mapFind 0 exConfigGraphParam.comps = some exComponentParam ∧
    ("clock", "1GHz") ∈ exComponentParam.params.map ∧
    ∃ g2 c2,
      ConfigGraph.addParameter {} exConfigGraphParam 0 "clock" "2GHz" false = .ok ({}, g2) () ∧
      mapFind 0 g2.comps = some c2 ∧
      List.Perm c2.params.map (("clock", "2GHz") :: exComponentParam.params.map) ∧
      ("clock", "1GHz") ∈ c2.params.map ∧ ("clock", "2GHz") ∈ c2.params.map ∧
      (c2.params.map.filter (fun e => e.1 = "clock")).length =
        (exComponentParam.params.map.filter (fun e => e.1 = "clock")).length + 1 :=
  ⟨by decide, by decide,
    addParameter_keeps_both {} exConfigGraphParam 0 "clock" "1GHz" "2GHz" exComponentParam
      (by decide) (by decide)⟩

/-! ## The configuration graph: parameters, weights, identifiers -/

theorem filter_ne_mmInsert (k v : String) (l : List (String × String)) :
    (mmInsert k v l).filter (fun e => e.1 ≠ k) = l.filter (fun e => e.1 ≠ k) := by
  induction l with
  | nil => simp [mmInsert]
  | cons q t ih =>
    obtain ⟨k1, v1⟩ := q
    unfold mmInsert
    split
    · simp
    · simp only [List.filter_cons, ih]

theorem insertRange_perm (entries : List (String × String)) (p : Params) :
    List.Perm (p.insertRange entries).map (p.map ++ entries) := by
  induction entries generalizing p with
  | nil => simp [Params.insertRange]
  | cons e rest ih =>
    have h := ih (p.insert e.1 e.2)
    simp only [Params.insertRange, List.foldl_cons] at h ⊢
    refine h.trans ?_
    simp only [Params.insert]
    refine ((mmInsert_perm e.1 e.2 p.map).append_right rest).trans ?_
    simp only [List.cons_append]
    exact List.perm_middle.symm

/-- C11: when the component `comp_id` exists, addParameter with overwrite = true
returns, and afterwards the parameters of the component hold exactly one entry of
`key`, with the new value, whether or not `key` had entries before, while the
entries of all other keys are as before, in the same order; nothing else of the
component changes. -/
theorem addParameter_overwrite (ps : ProcState) (g : ConfigGraph) (comp_id : Nat)
    (key value : String) (c : ConfigComponent) (hc : mapFind comp_id g.comps = some c) :
    ∃ g2 c2, ConfigGraph.addParameter ps g comp_id key value true = .ok (ps, g2) () ∧
      mapFind comp_id g2.comps = some c2 ∧
      c2 = { c with params := c2.params } ∧
      c2.params.map.filter (fun e => e.1 = key) = [(key, value)] ∧
      c2.params.map.filter (fun e => e.1 ≠ key) = c.params.map.filter (fun e => e.1 ≠ key) := by
  refine ⟨{ g with
      comps := mapModify comp_id
        (fun c => { c with params := c.params.assign key value }) g.comps },
    { c with params := c.params.assign key value }, ?_, ?_, rfl, ?_, ?_⟩
  · simp [ConfigGraph.addParameter, hc]
  · simp only
    rw [mapFind_mapModify_self, hc]
    rfl
  · simp only [Params.assign]
    have hperm := (mmInsert_perm key value
      (c.params.map.filter (fun kv => kv.1 ≠ key))).filter (fun e => decide (e.1 = key))
    have hnil : ((key, value) :: c.params.map.filter (fun kv => kv.1 ≠ key)).filter
        (fun e => decide (e.1 = key)) = [(key, value)] := by
      simp [List.filter_cons, List.filter_filter]
    rw [hnil] at hperm
    exact List.perm_singleton.mp hperm
  · simp only [Params.assign]
    rw [filter_ne_mmInsert]
    simp [List.filter_filter]

/-- Witness for C11: clock = 1GHz is replaced by clock = 2GHz, size = 8 stays. -/
theorem addParameter_overwrite_witness :
    mapFind 0 exConfigGraphParam.comps = some exComponentParam ∧
    ConfigGraph.addParameter {} exConfigGraphParam 0 "clock" "2GHz" true =
      .ok ({}, { comps := [(0, { exComponentParam with
                                 params := ⟨[("clock", "2GHz"), ("size", "8")]⟩ })],
                 links := [] }) () ∧
    ∃ g2 c2,
      ConfigGraph.addParameter {} exConfigGraphParam 0 "clock" "2GHz" true = .ok ({}, g2) () ∧
      mapFind 0 g2.comps = some c2 ∧
      c2 = { exComponentParam with params := c2.params } ∧
      c2.params.map.filter (fun e => e.1 = "clock") = [("clock", "2GHz")] ∧
      c2.params.map.filter (fun e => e.1 ≠ "clock") =
        exComponentParam.params.map.filter (fun e => e.1 ≠ "clock") :=
  ⟨by decide, by decide,
    addParameter_overwrite {} exConfigGraphParam 0 "clock" "2GHz" exComponentParam
      (by decide)⟩

/-- C12: when the component `comp_id` exists, addParams returns, and afterwards the
parameters of the component are the former entries together with the entries of
`p`: every former entry is still there with its value, every key of `p` is
present, and an entry of `p` whose key was absent before is there with the value
`p` gives it; nothing else of the component changes. -/
theorem addParams_keeps (ps : ProcState) (g : ConfigGraph) (comp_id : Nat) (p : Params)
    (c : ConfigComponent) (hc : mapFind comp_id g.comps = some c) :
    ∃ g2 c2, ConfigGraph.addParams ps g comp_id p = .ok (ps, g2) () ∧
      mapFind comp_id g2.comps = some c2 ∧
      c2 = { c with params := c2.params } ∧
      List.Perm c2.params.map (c.params.map ++ p.map) ∧
      (∀ e ∈ c.params.map, e ∈ c2.params.map) ∧
      (∀ e ∈ p.map, (c2.params.find e.1).isSome) ∧
      (∀ e ∈ p.map, c.params.find e.1 = none → e ∈ c2.params.map) := by
  have hperm := insertRange_perm p.map c.params
  refine ⟨{ g with
      comps := mapModify comp_id
        (fun c => { c with params := c.params.insertRange p.map }) g.comps },
    { c with params := c.params.insertRange p.map }, ?_, ?_, rfl, hperm, ?_, ?_, ?_⟩
  · simp [ConfigGraph.addParams, hc]
  · simp only
    rw [mapFind_mapModify_self, hc]
    rfl
  · intro e he
    exact hperm.symm.subset (List.mem_append_left _ he)
  · intro e he
    have hmem : e ∈ (c.params.insertRange p.map).map :=
      hperm.symm.subset (List.mem_append_right _ he)
    obtain ⟨w, hw⟩ := mapFind_isSome_of_mem e.1 e.2 _ hmem
    simp only [Params.find, hw, Option.isSome_some]
  · intro e he _
    exact hperm.symm.subset (List.mem_append_right _ he)

/-- Witness for C12: clock is kept at 1GHz while clock = 2GHz and width = 64 are
added. -/
theorem addParams_keeps_witness :
    mapFind 0 exConfigGraphParam.comps = some exComponentParam ∧
    ∃ g2 c2, ConfigGraph.addParams {} exConfigGraphParam 0 exParams = .ok ({}, g2) () ∧
      mapFind 0 g2.comps = some c2 ∧
      c2 = { exComponentParam with params := c2.params } ∧
      List.Perm c2.params.map (exComponentParam.params.map ++ exParams.map) ∧
      (∀ e ∈ exComponentParam.params.map, e ∈ c2.params.map) ∧
      (∀ e ∈ exParams.map, (c2.params.find e.1).isSome) ∧
      (∀ e ∈ exParams.map, exComponentParam.params.find e.1 = none → e ∈ c2.params.map) :=
  ⟨by decide, addParams_keeps {} exConfigGraphParam 0 exParams exComponentParam (by decide)⟩

/-- C13: when `comp_id` is not in the component table, each of setComponentRank,
setComponentWeight, addParams, addParameter and addLink ends in abort(), and the
state at that point is the state the call started from: no component, no link and
no slot has been touched. -/
theorem unknown_component_aborts (sim : Simulation) (ps : ProcState) (g : ConfigGraph)
    (comp_id : Nat) (h : mapFind comp_id g.comps = none) :
    (∀ rank, ConfigGraph.setComponentRank ps g comp_id rank = .abort (ps, g)) ∧
    (∀ weight, ConfigGraph.setComponentWeight ps g comp_id weight = .abort (ps, g)) ∧
    (∀ p, ConfigGraph.addParams ps g comp_id p = .abort (ps, g)) ∧
    (∀ key value overwrite,
      ConfigGraph.addParameter ps g comp_id key value overwrite = .abort (ps, g)) ∧
    (∀ link_name port latency_str,
      ConfigGraph.addLink sim ps g comp_id link_name port latency_str = .abort (ps, g)) := by
  refine ⟨?_, ?_, ?_, ?_, ?_⟩
  · intro rank
    simp [ConfigGraph.setComponentRank, h]
  · intro weight
    simp [ConfigGraph.setComponentWeight, h]
  · intro p
    simp [ConfigGraph.addParams, h]
  · intro key value overwrite
    simp [ConfigGraph.addParameter, h]
  · intro link_name port latency_str
    simp [ConfigGraph.addLink, h]

/-- Witness for C13: identifier 7 in a graph whose components are 0, 1 and 2. -/
theorem unknown_component_aborts_witness :
    mapFind 7 exConfigGraph.comps = none ∧
    (∀ rank, ConfigGraph.setComponentRank exProcState exConfigGraph 7 rank =
      .abort (exProcState, exConfigGraph)) ∧
    (∀ weight, ConfigGraph.setComponentWeight exProcState exConfigGraph 7 weight =
      .abort (exProcState, exConfigGraph)) ∧
    (∀ p, ConfigGraph.addParams exProcState exConfigGraph 7 p =
      .abort (exProcState, exConfigGraph)) ∧
    (∀ key value overwrite,
      ConfigGraph.addParameter exProcState exConfigGraph 7 key value overwrite =
        .abort (exProcState, exConfigGraph)) ∧
    (∀ link_name port latency_str,
      ConfigGraph.addLink exSim exProcState exConfigGraph 7 link_name port latency_str =
        .abort (exProcState, exConfigGraph)) :=
  ⟨by decide, unknown_component_aborts exSim exProcState exConfigGraph 7 (by decide)⟩

/-- C17: when the component `comp_id` exists, setComponentWeight returns and the
component then carries exactly the weight passed in, with all its other fields as
before; every other component, the link table, the link objects and the counters
are unchanged. -/
theorem setComponentWeight_readback (ps : ProcState) (g : ConfigGraph) (comp_id : Nat)
    (weight : FloatVal) (c : ConfigComponent) (hc : mapFind comp_id g.comps = some c) :
    ∃ g2, ConfigGraph.setComponentWeight ps g comp_id weight = .ok (ps, g2) () ∧
      mapFind comp_id g2.comps = some { c with weight := weight } ∧
      (∀ k, k ≠ comp_id → mapFind k g2.comps = mapFind k g.comps) ∧
      g2.comps.length = g.comps.length ∧ g2.links = g.links := by
  refine ⟨{ g with
      comps := mapModify comp_id (fun c => { c with weight := weight }) g.comps },
    ?_, ?_, ?_, ?_, rfl⟩
  · simp [ConfigGraph.setComponentWeight, hc]
  · simp only
    rw [mapFind_mapModify_self, hc]
    rfl
  · intro k hk
    exact mapFind_mapModify_ne _ _ _ _ (fun h => hk h.symm)
  · exact length_mapModify _ _ _

/-- Witness for C17: component 1 of the three-component graph gets the weight with
bit pattern 1078530011. -/
theorem setComponentWeight_readback_witness :
    mapFind 1 exConfigGraph.comps =
      some { ConfigComponent.new 1 with name := "B", type := "mem" } ∧
    ∃ g2, ConfigGraph.setComponentWeight exProcState exConfigGraph 1 ⟨1078530011⟩ =
        .ok (exProcState, g2) () ∧
      mapFind 1 g2.comps = some { ({ ConfigComponent.new 1 with name := "B", type := "mem" } :
        ConfigComponent) with weight := ⟨1078530011⟩ } ∧
      (∀ k, k ≠ 1 → mapFind k g2.comps = mapFind k exConfigGraph.comps) ∧
      g2.comps.length = exConfigGraph.comps.length ∧ g2.links = exConfigGraph.links :=
  ⟨by decide,
    setComponentWeight_readback exProcState exConfigGraph 1 ⟨1078530011⟩
      { ConfigComponent.new 1 with name := "B", type := "mem" } (by decide)⟩

theorem allocatesFresh_of_mapSet (ps : ProcState) (g : ConfigGraph) (comp : ConfigComponent)
    (name type : String) (introspector : Bool) (extra : ConfigComponent → Prop)
    (hfresh : ∀ k, ps.ConfigComponent_count ≤ k → mapFind k g.comps = none)
    (hid : comp.id = ps.ConfigComponent_count) (hname : comp.name = name)
    (htype : comp.type = type) (hintro : comp.isIntrospector = introspector)
    (hlinks : comp.links = []) (hextra : extra comp) :
    allocatesFresh ps g
      (.ok ({ ps with ConfigComponent_count := ps.ConfigComponent_count + 1 },
            { g with comps := mapSet ps.ConfigComponent_count comp g.comps })
        ps.ConfigComponent_count) name type introspector extra := by
  refine ⟨_, comp, rfl, hfresh _ (le_refl _), ?_, mapFind_mapSet_self _ _ _, hid, hname,
    htype, hintro, hlinks, hextra, length_mapSet_fresh _ _ _ (hfresh _ (le_refl _)), ?_, rfl, ?_⟩
  · intro k hk
    by_contra hlt
    exact hk (hfresh k (by omega))
  · intro k hk
    exact mapFind_mapSet_ne _ _ _ _ (fun h => hk h.symm)
  · intro k hk
    rw [mapFind_mapSet_ne _ _ _ _ (by omega)]
    exact hfresh k (by omega)

/-- C18: in a graph whose identifiers all lie below the counter
`ConfigComponent::count`, each of the two addComponent overloads and
addIntrospector returns the counter value as a new identifier, not in use before
and greater than every identifier in use, advances the counter, stores under the
identifier a component with the given name and type (and the given weight and
rank for the four-argument overload; the introspector flag set by addIntrospector
only), adds exactly one component and leaves every other component unchanged. -/
theorem addComponent_fresh (ps : ProcState) (g : ConfigGraph) (name type : String)
    (weight : FloatVal) (rank : Int)
    (hfresh : ∀ k, ps.ConfigComponent_count ≤ k → mapFind k g.comps = none) :
    allocatesFresh ps g (ConfigGraph.addComponent ps g name type) name type false
      (fun _ => True) ∧
    allocatesFresh ps g (ConfigGraph.addComponent4 ps g name type weight rank) name type false
      (fun c => c.weight = weight ∧ c.rank = rank) ∧
    allocatesFresh ps g (ConfigGraph.addIntrospector ps g name type) name type true
      (fun _ => True) :=
  ⟨allocatesFresh_of_mapSet ps g _ name type false _ hfresh rfl rfl rfl rfl rfl trivial,
   allocatesFresh_of_mapSet ps g _ name type false _ hfresh rfl rfl rfl rfl rfl ⟨rfl, rfl⟩,
   allocatesFresh_of_mapSet ps g _ name type true _ hfresh rfl rfl rfl rfl rfl trivial⟩

/-- Witness for C18: a fourth component for the graph with components 0, 1, 2 and the
counter at 3. -/
theorem addComponent_fresh_witness :
    (∀ k, exProcState.ConfigComponent_count ≤ k → mapFind k exConfigGraph.comps = none) ∧
    (ConfigGraph.addComponent exProcState exConfigGraph "D" "dsp").state?.map
        (fun s => (s.1.ConfigComponent_count, s.2.comps.map Prod.fst)) =
      some (4, [0, 1, 2, 3]) ∧
    allocatesFresh exProcState exConfigGraph
      (ConfigGraph.addComponent exProcState exConfigGraph "D" "dsp") "D" "dsp" false
      (fun _ => True) ∧
    allocatesFresh exProcState exConfigGraph
      (ConfigGraph.addComponent4 exProcState exConfigGraph "D" "dsp" ⟨5⟩ 2) "D" "dsp" false
      (fun c => c.weight = ⟨5⟩ ∧ c.rank = 2) ∧
    allocatesFresh exProcState exConfigGraph
      (ConfigGraph.addIntrospector exProcState exConfigGraph "D" "dsp") "D" "dsp" true
      (fun _ => True) := by
  have hfresh : ∀ k, exProcState.ConfigComponent_count ≤ k →
      mapFind k exConfigGraph.comps = none := by
    intro k hk
    have h3 : 3 ≤ k := hk
    rw [mapFind_eq_none_iff]
    intro p hp
    simp only [exConfigGraph, List.mem_cons, List.mem_singleton, List.not_mem_nil,
      or_false] at hp
    rcases hp with rfl | rfl | rfl <;> simp only <;> omega
  exact ⟨hfresh, by decide, addComponent_fresh exProcState exConfigGraph "D" "dsp" ⟨5⟩ 2 hfresh⟩

/-! ## Events -/

/-- Event::serialize archives nothing: saving an event yields the empty archive
whatever its portable identifier is, and loading leaves the receiving object as it
was constructed. -/
theorem serialize_archives_nothing (e fresh : Event) (version : Nat) :
    e.save version = [] ∧ fresh.load (e.save version) version = fresh ∧
    (fresh.load (e.save version) version).link_id = fresh.link_id :=
  ⟨rfl, rfl, rfl⟩

/-- C15, evaluated on a failing input: the event with portable identifier 7 is saved
to the empty archive, the same archive the event with identifier 0 is saved to,
and the object loaded from it keeps the identifier 0 it was constructed with
instead of 7. -/
theorem serialize_loses_link_id :
    exEventUnresolved.link_id = 7 ∧ exEventUnresolved.save 0 = [] ∧
    exEventFresh.save 0 = exEventUnresolved.save 0 ∧
    (exEventFresh.load (exEventUnresolved.save 0) 0).link_id = 0 := by
  decide

/-! ## The referential invariant of the configuration graph -/

theorem refTotal_cons (p : Nat) (x : Nat × ConfigComponent) (comps : List (Nat × ConfigComponent)) :
    refTotal p (x :: comps) = x.2.links.count p + refTotal p comps := by
  simp [refTotal]

theorem refTotal_mapSet_fresh (k : Nat) (c : ConfigComponent)
    (comps : List (Nat × ConfigComponent)) (p : Nat) (h : mapFind k comps = none) :
    refTotal p (mapSet k c comps) = refTotal p comps + c.links.count p := by
  induction comps with
  | nil => simp [mapSet, refTotal]
  | cons q t ih =>
    obtain ⟨k1, c1⟩ := q
    by_cases h1 : k1 = k
    · simp [mapFind, h1] at h
    · simp only [mapFind, h1, if_false] at h
      unfold mapSet
      split
      · simp only [refTotal_cons]
        omega
      · simp only [h1, if_false, refTotal_cons, ih h]
        omega

theorem refTotal_mapModify (k : Nat) (f : ConfigComponent → ConfigComponent)
    (comps : List (Nat × ConfigComponent)) (p : Nat) (hf : ∀ c, (f c).links = c.links) :
    refTotal p (mapModify k f comps) = refTotal p comps := by
  induction comps with
  | nil => simp [mapModify]
  | cons q t ih =>
    obtain ⟨k1, c1⟩ := q
    by_cases h1 : k1 = k
    · simp [mapModify, h1, refTotal_cons, hf]
    · simp [mapModify, h1, refTotal_cons, ih]

theorem refTotal_ownLink (comp link : Nat) (comps : List (Nat × ConfigComponent)) (p : Nat)
    (h : mapFind comp comps ≠ none) :
    refTotal p (ownLink comp link comps) = refTotal p comps + (if p = link then 1 else 0) := by
  induction comps with
  | nil => simp [mapFind] at h
  | cons q t ih =>
    obtain ⟨k1, c1⟩ := q
    by_cases h1 : k1 = comp
    · simp only [ownLink, mapModify, h1, if_true, refTotal_cons, List.count_append]
      by_cases hp : p = link
      · subst hp
        simp
        omega
      · have hne : ¬ link = p := fun e => hp e.symm
        simp [hp, List.count_cons, hne]
    · simp only [mapFind, h1, if_false] at h
      have := ih h
      simp only [ownLink] at this
      simp only [ownLink, mapModify, h1, if_false, refTotal_cons, this]
      omega

theorem mem_mapModify {K V : Type} [DecidableEq K] (k : K) (f : V → V) (l : List (K × V))
    (x : K × V) (hx : x ∈ mapModify k f l) : x ∈ l ∨ ∃ c, (k, c) ∈ l ∧ x = (k, f c) := by
  induction l with
  | nil => simp [mapModify] at hx
  | cons q t ih =>
    obtain ⟨k1, v1⟩ := q
    by_cases h1 : k1 = k
    · simp only [mapModify, h1, if_true, List.mem_cons] at hx
      rcases hx with rfl | hx
      · exact Or.inr ⟨v1, by simp [h1], rfl⟩
      · exact Or.inl (List.mem_cons_of_mem _ hx)
    · simp only [mapModify, h1, if_false, List.mem_cons] at hx
      rcases hx with rfl | hx
      · exact Or.inl (List.mem_cons_self _ _)
      · rcases ih hx with h | ⟨c, hc, rfl⟩
        · exact Or.inl (List.mem_cons_of_mem _ h)
        · exact Or.inr ⟨c, List.mem_cons_of_mem _ hc, rfl⟩

theorem mapFind_map_val {K V : Type} [DecidableEq K] (k : K) (f : V → V) (l : List (K × V)) :
    mapFind k (l.map (fun p => (p.1, f p.2))) = (mapFind k l).map f := by
  induction l with
  | nil => simp [mapFind]
  | cons q t ih =>
    obtain ⟨k1, v1⟩ := q
    by_cases h1 : k1 = k
    · simp [mapFind, h1]
    · simp [mapFind, h1, ih]

/-- A change of the component table that keeps the identifiers in use, the link lists
and the link occurrences keeps the invariant. -/
theorem consistent_of_comps_update (ps : ProcState) (g : ConfigGraph) (count : Nat)
    (comps2 : List (Nat × ConfigComponent)) (h : g.consistent ps)
    (h1 : ∀ k, count ≤ k → mapFind k comps2 = none)
    (h2 : ∀ k, mapFind k g.comps ≠ none → mapFind k comps2 ≠ none)
    (h3 : ∀ x ∈ comps2, x.2.links = [] ∨ ∃ y ∈ g.comps, x.2.links = y.2.links)
    (h4 : ∀ p, refTotal p comps2 = refTotal p g.comps) :
    ConfigGraph.consistent { ps with ConfigComponent_count := count }
      { g with comps := comps2 } := by
  obtain ⟨_, j3, j2⟩ := h
  refine ⟨h1, ?_, ?_⟩
  · intro x hx p hp
    rcases h3 x hx with hnil | ⟨y, hy, hl⟩
    · rw [hnil] at hp
      simp at hp
    · rw [hl] at hp
      exact j3 y hy p hp
  · intro y hy
    obtain ⟨l, hl, hn, hs, hr1, hr2, hr3⟩ := j2 y hy
    exact ⟨l, hl, hn, fun i hi => h2 _ (hs i hi), hr1, hr2, by rw [hr3]; exact (h4 _).symm⟩

theorem consistent_mapSet (ps : ProcState) (g : ConfigGraph) (comp : ConfigComponent)
    (h : g.consistent ps) (hlinks : comp.links = []) :
    ConfigGraph.consistent { ps with ConfigComponent_count := ps.ConfigComponent_count + 1 }
      { g with comps := mapSet ps.ConfigComponent_count comp g.comps } := by
  have hfresh := h.1
  refine consistent_of_comps_update ps g _ _ h ?_ ?_ ?_ ?_
  · intro k hk
    rw [mapFind_mapSet_ne _ _ _ _ (by omega)]
    exact hfresh k (by omega)
  · intro k hk
    have hne : ps.ConfigComponent_count ≠ k := by
      rintro rfl
      exact hk (hfresh _ (le_refl _))
    rw [mapFind_mapSet_ne _ _ _ _ hne]
    exact hk
  · intro x hx
    rcases mem_mapSet _ _ _ _ hx with rfl | hx
    · exact Or.inl hlinks
    · exact Or.inr ⟨x, hx, rfl⟩
  · intro p
    rw [refTotal_mapSet_fresh _ _ _ _ (hfresh _ (le_refl _)), hlinks]
    simp

theorem consistent_mapModify (ps : ProcState) (g : ConfigGraph) (comp_id : Nat)
    (f : ConfigComponent → ConfigComponent) (h : g.consistent ps)
    (hf : ∀ c, (f c).links = c.links) :
    ConfigGraph.consistent ps { g with comps := mapModify comp_id f g.comps } := by
  have := consistent_of_comps_update ps g ps.ConfigComponent_count
    (mapModify comp_id f g.comps) h ?_ ?_ ?_ ?_
  · exact this
  · intro k hk
    rw [mapFind_mapModify_none]
    exact h.1 k hk
  · intro k hk
    rw [Ne, mapFind_mapModify_none]
    exact hk
  · intro x hx
    rcases mem_mapModify _ _ _ _ hx with hx | ⟨c, hc, rfl⟩
    · exact Or.inr ⟨x, hx, rfl⟩
    · exact Or.inr ⟨(comp_id, c), hc, hf c⟩
  · intro p
    exact refTotal_mapModify _ _ _ _ hf

theorem consistent_setComponentRanks (ps : ProcState) (g : ConfigGraph) (rank : Int)
    (h : g.consistent ps) :
    ConfigGraph.consistent ps
      { g with comps := g.comps.map (fun p => (p.1, { p.2 with rank := rank })) } := by
  have e : ∀ k, mapFind k (g.comps.map (fun p => (p.1, { p.2 with rank := rank }))) =
      (mapFind k g.comps).map (fun c => { c with rank := rank }) := fun k =>
    mapFind_map_val k (fun (c : ConfigComponent) => { c with rank := rank }) g.comps
  have := consistent_of_comps_update ps g ps.ConfigComponent_count
    (g.comps.map (fun p => (p.1, { p.2 with rank := rank }))) h ?_ ?_ ?_ ?_
  · exact this
  · intro k hk
    rw [e k, h.1 k hk]
    rfl
  · intro k hk
    rw [e k]
    cases hf : mapFind k g.comps with
    | none => exact absurd hf hk
    | some c => simp
  · intro x hx
    obtain ⟨y, hy, rfl⟩ := List.mem_map.mp hx
    exact Or.inr ⟨y, hy, rfl⟩
  · intro p
    simp [refTotal, List.map_map, Function.comp_def]

theorem heap_lt_of_some (heap : List ConfigLink) (p : Nat) (l : ConfigLink)
    (h : heap[p]? = some l) : p < heap.length := by
  by_contra hn
  rw [List.getElem?_eq_none (by omega)] at h
  cases h

theorem getSlot_setSlot_one {α : Type} (x : α) (slots : α × α) (i : Nat) (hi : i < 2) :
    getSlot i (setSlot 1 x slots) = if i = 0 then getSlot 0 slots else x := by
  have : i = 0 ∨ i = 1 := by omega
  rcases this with rfl | rfl <;> simp [getSlot, setSlot]

theorem consistent_addLink_new (sim : Simulation) (ps : ProcState) (g : ConfigGraph)
    (comp_id : Nat) (link_name port latency_str : String)
    (hc : mapFind comp_id g.comps ≠ none) (hnew : mapFind link_name g.links = none)
    (h : g.consistent ps) :
    ConfigGraph.consistent
      { ps with
        ConfigLink_count := ps.ConfigLink_count + 1
        linkHeap := ps.linkHeap ++
          [({ ConfigLink.new ps.ConfigLink_count with name := link_name } :
              ConfigLink).fill comp_id port
            (sim.getSimCycles latency_str "ConfigGraph::addLink")] }
      { comps := ownLink comp_id ps.linkHeap.length g.comps,
        links := mapSet link_name ps.linkHeap.length g.links } := by
  obtain ⟨j1, j3, j2⟩ := h
  have hptr : ∀ x ∈ g.comps, ∀ p ∈ x.2.links, p < ps.linkHeap.length := by
    intro x hx p hp
    obtain ⟨l, hl, _⟩ := j3 x hx p hp
    exact heap_lt_of_some _ _ _ hl
  have hzero : refTotal ps.linkHeap.length g.comps = 0 := by
    unfold refTotal
    rw [List.sum_eq_zero]
    intro n hn
    obtain ⟨x, hx, rfl⟩ := List.mem_map.mp hn
    rw [List.count_eq_zero]
    intro hmem
    exact absurd (hptr x hx _ hmem) (lt_irrefl _)
  have hkeys : ∀ k, mapFind k g.comps ≠ none →
      mapFind k (ownLink comp_id ps.linkHeap.length g.comps) ≠ none := by
    intro k hk
    unfold ownLink
    rw [Ne, mapFind_mapModify_none]
    exact hk
  have hnewheap : (ps.linkHeap ++
      [({ ConfigLink.new ps.ConfigLink_count with name := link_name } :
          ConfigLink).fill comp_id port
        (sim.getSimCycles latency_str "ConfigGraph::addLink")])[ps.linkHeap.length]? =
      some (({ ConfigLink.new ps.ConfigLink_count with name := link_name } :
          ConfigLink).fill comp_id port
        (sim.getSimCycles latency_str "ConfigGraph::addLink")) := by
    simp
  refine ⟨?_, ?_, ?_⟩
  · intro k hk
    show mapFind k (ownLink comp_id ps.linkHeap.length g.comps) = none
    unfold ownLink
    rw [mapFind_mapModify_none]
    exact j1 k hk
  · intro x hx p hp
    have hold : ∀ q, (∃ y ∈ g.comps, q ∈ y.2.links) →
        ∃ l, (ps.linkHeap ++
          [({ ConfigLink.new ps.ConfigLink_count with name := link_name } :
              ConfigLink).fill comp_id port
            (sim.getSimCycles latency_str "ConfigGraph::addLink")])[q]? = some l ∧
          mapFind l.name (mapSet link_name ps.linkHeap.length g.links) = some q := by
      rintro q ⟨y, hy, hq⟩
      obtain ⟨l, hl, hn⟩ := j3 y hy q hq
      refine ⟨l, ?_, ?_⟩
      · rw [List.getElem?_append_left (heap_lt_of_some _ _ _ hl)]
        exact hl
      · have hne : link_name ≠ l.name := by
          intro e
          rw [← e, hnew] at hn
          cases hn
        rw [mapFind_mapSet_ne _ _ _ _ hne]
        exact hn
    have hx2 : x ∈ mapModify comp_id
        (fun c => { c with links := c.links ++ [ps.linkHeap.length] }) g.comps := hx
    rcases mem_mapModify _ _ _ _ hx2 with hx3 | ⟨c, hc2, rfl⟩
    · exact hold p ⟨x, hx3, hp⟩
    · simp only [List.mem_append, List.mem_singleton] at hp
      rcases hp with hp | rfl
      · exact hold p ⟨(comp_id, c), hc2, hp⟩
      · exact ⟨_, hnewheap, mapFind_mapSet_self _ _ _⟩
  · intro y hy
    have hy2 : y ∈ mapSet link_name ps.linkHeap.length g.links := hy
    rcases mem_mapSet _ _ _ _ hy2 with rfl | hy3
    · refine ⟨_, hnewheap, rfl, ?_, ?_, ?_, ?_⟩
      · intro i hi
        have hi0 : i = 0 := by
          simp only [ConfigLink.fill, ConfigLink.new] at hi
          omega
        subst hi0
        simp only [ConfigLink.fill, ConfigLink.new, setSlot, getSlot, if_true]
        exact hkeys _ hc
      · simp [ConfigLink.fill, ConfigLink.new]
      · simp [ConfigLink.fill, ConfigLink.new]
      · show _ = refTotal ps.linkHeap.length (ownLink comp_id ps.linkHeap.length g.comps)
        rw [refTotal_ownLink _ _ _ _ hc, hzero]
        simp [ConfigLink.fill, ConfigLink.new]
    · obtain ⟨l, hl, hn, hs, hr1, hr2, hr3⟩ := j2 y hy3
      have hlt := heap_lt_of_some _ _ _ hl
      refine ⟨l, ?_, hn, fun i hi => hkeys _ (hs i hi), hr1, hr2, ?_⟩
      · rw [List.getElem?_append_left hlt]
        exact hl
      · show _ = refTotal y.2 (ownLink comp_id ps.linkHeap.length g.comps)
        rw [refTotal_ownLink _ _ _ _ hc, hr3]
        have hne : ¬ y.2 = ps.linkHeap.length := by omega
        simp [hne]

theorem consistent_addLink_existing (sim : Simulation) (ps : ProcState) (g : ConfigGraph)
    (comp_id : Nat) (link_name port latency_str : String) (link : Nat) (l : ConfigLink)
    (hc : mapFind comp_id g.comps ≠ none) (hf : mapFind link_name g.links = some link)
    (hl : ps.linkHeap[link]? = some l) (hr : l.current_ref < 2) (h : g.consistent ps) :
    ConfigGraph.consistent
      { ps with
        linkHeap := ps.linkHeap.set link
          (l.fill comp_id port (sim.getSimCycles latency_str "ConfigGraph::addLink")) }
      { g with comps := ownLink comp_id link g.comps } := by
  obtain ⟨j1, j3, j2⟩ := h
  have hlt := heap_lt_of_some _ _ _ hl
  obtain ⟨l0, hl0, hname, hslots, hr1, _, hr3⟩ := j2 (link_name, link) (mapFind_mem _ _ _ hf)
  simp only at hl0 hname hr3
  rw [hl] at hl0
  cases hl0
  have hkeys : ∀ k, mapFind k g.comps ≠ none →
      mapFind k (ownLink comp_id link g.comps) ≠ none := by
    intro k hk
    unfold ownLink
    rw [Ne, mapFind_mapModify_none]
    exact hk
  have hself : (ps.linkHeap.set link
      (l.fill comp_id port (sim.getSimCycles latency_str "ConfigGraph::addLink")))[link]? =
      some (l.fill comp_id port (sim.getSimCycles latency_str "ConfigGraph::addLink")) := by
    simp [hlt]
  refine ⟨?_, ?_, ?_⟩
  · intro k hk
    show mapFind k (ownLink comp_id link g.comps) = none
    unfold ownLink
    rw [mapFind_mapModify_none]
    exact j1 k hk
  · intro x hx p hp
    have hold : ∀ q, (∃ y ∈ g.comps, q ∈ y.2.links) →
        ∃ m, (ps.linkHeap.set link
          (l.fill comp_id port (sim.getSimCycles latency_str "ConfigGraph::addLink")))[q]? =
            some m ∧ mapFind m.name g.links = some q := by
      rintro q ⟨y, hy, hq⟩
      obtain ⟨m, hm, hn⟩ := j3 y hy q hq
      by_cases hql : link = q
      · subst hql
        rw [hl] at hm
        cases hm
        exact ⟨_, hself, hn⟩
      · exact ⟨m, by rw [List.getElem?_set_ne hql]; exact hm, hn⟩
    have hx2 : x ∈ mapModify comp_id (fun c => { c with links := c.links ++ [link] })
        g.comps := hx
    rcases mem_mapModify _ _ _ _ hx2 with hx3 | ⟨c, hc2, rfl⟩
    · exact hold p ⟨x, hx3, hp⟩
    · simp only [List.mem_append, List.mem_singleton] at hp
      rcases hp with hp | rfl
      · exact hold p ⟨(comp_id, c), hc2, hp⟩
      · refine ⟨_, hself, ?_⟩
        show mapFind l.name g.links = some p
        rw [hname]
        exact hf
  · intro y hy
    obtain ⟨m, hm, hn, hs, hm1, hm2, hm3⟩ := j2 y hy
    by_cases hyl : link = y.2
    · rw [← hyl] at hm hm3 ⊢
      rw [hl] at hm
      cases hm
      have hone : l.current_ref = 1 := by omega
      refine ⟨_, hself, hn, ?_, ?_, ?_, ?_⟩
      · intro i hi
        have hi2 : i < 2 := by
          simp only [ConfigLink.fill] at hi
          omega
        simp only [ConfigLink.fill, hone]
        rw [getSlot_setSlot_one _ _ _ hi2]
        split
        · exact hkeys _ (hs 0 (by omega))
        · exact hkeys _ hc
      · simp [ConfigLink.fill]
      · simp only [ConfigLink.fill]
        omega
      · show _ = refTotal link (ownLink comp_id link g.comps)
        rw [refTotal_ownLink _ _ _ _ hc, ← hm3]
        simp [ConfigLink.fill]
    · refine ⟨m, ?_, hn, fun i hi => hkeys _ (hs i hi), hm1, hm2, ?_⟩
      · rw [List.getElem?_set_ne hyl]
        exact hm
      · show _ = refTotal y.2 (ownLink comp_id link g.comps)
        rw [refTotal_ownLink _ _ _ _ hc, hm3]
        have hne : ¬ y.2 = link := fun e => hyl e.symm
        simp [hne]

theorem consistent_run (sim : Simulation) (c : ConfigCall) (s s2 : ProcState × ConfigGraph)
    (h : s.2.consistent s.1) (hrun : c.run sim s = some s2) : s2.2.consistent s2.1 := by
  obtain ⟨ps, g⟩ := s
  cases c with
  | addComponent name type =>
    simp only [ConfigCall.run, ConfigGraph.addComponent, Outcome.state?, Option.some.injEq]
      at hrun
    subst hrun
    exact consistent_mapSet ps g _ h rfl
  | addComponent4 name type weight rank =>
    simp only [ConfigCall.run, ConfigGraph.addComponent4, Outcome.state?, Option.some.injEq]
      at hrun
    subst hrun
    exact consistent_mapSet ps g _ h rfl
  | addIntrospector name type =>
    simp only [ConfigCall.run, ConfigGraph.addIntrospector, Outcome.state?, Option.some.injEq]
      at hrun
    subst hrun
    exact consistent_mapSet ps g _ h rfl
  | setComponentRank comp_id rank =>
    simp only [ConfigCall.run, ConfigGraph.setComponentRank] at hrun
    split at hrun
    · simp [Outcome.state?] at hrun
    · simp only [Outcome.state?, Option.some.injEq] at hrun
      subst hrun
      exact consistent_mapModify ps g comp_id _ h (fun _ => rfl)
  | setComponentWeight comp_id weight =>
    simp only [ConfigCall.run, ConfigGraph.setComponentWeight] at hrun
    split at hrun
    · simp [Outcome.state?] at hrun
    · simp only [Outcome.state?, Option.some.injEq] at hrun
      subst hrun
      exact consistent_mapModify ps g comp_id _ h (fun _ => rfl)
  | setComponentRanks rank =>
    simp only [ConfigCall.run, ConfigGraph.setComponentRanks, Outcome.state?,
      Option.some.injEq] at hrun
    subst hrun
    exact consistent_setComponentRanks ps g rank h
  | addParams comp_id p =>
    simp only [ConfigCall.run, ConfigGraph.addParams] at hrun
    split at hrun
    · simp [Outcome.state?] at hrun
    · simp only [Outcome.state?, Option.some.injEq] at hrun
      subst hrun
      exact consistent_mapModify ps g comp_id _ h (fun _ => rfl)
  | addParameter comp_id key value overwrite =>
    simp only [ConfigCall.run, ConfigGraph.addParameter] at hrun
    split at hrun
    · simp [Outcome.state?] at hrun
    · split at hrun
      · simp only [Outcome.state?, Option.some.injEq] at hrun
        subst hrun
        exact consistent_mapModify ps g comp_id _ h (fun _ => rfl)
      · simp only [Outcome.state?, Option.some.injEq] at hrun
        subst hrun
        exact consistent_mapModify ps g comp_id _ h (fun _ => rfl)
  | addLink comp_id link_name port latency_str =>
    simp only [ConfigCall.run] at hrun
    by_cases hc : mapFind comp_id g.comps = none
    · simp [ConfigGraph.addLink, hc, Outcome.state?] at hrun
    · cases hf : mapFind link_name g.links with
      | none =>
        rw [addLink_new sim ps g comp_id link_name port latency_str hc hf] at hrun
        simp only [Outcome.state?, Option.some.injEq] at hrun
        subst hrun
        exact consistent_addLink_new sim ps g comp_id link_name port latency_str hc hf h
      | some link =>
        obtain ⟨l, hl, _⟩ := h.2.2 (link_name, link) (mapFind_mem _ _ _ hf)
        simp only at hl
        by_cases hr : l.current_ref < 2
        · rw [addLink_existing sim ps g comp_id link_name port latency_str link l hc hf hl hr]
            at hrun
          simp only [Outcome.state?, Option.some.injEq] at hrun
          subst hrun
          exact consistent_addLink_existing sim ps g comp_id link_name port latency_str
            link l hc hf hl hr h
        · rw [addLink_full sim ps g comp_id link_name port latency_str link l hc hf hl
            (by omega)] at hrun
          simp [Outcome.state?] at hrun

theorem consistent_runCalls (sim : Simulation) (calls : List ConfigCall) :
    ∀ (s s2 : ProcState × ConfigGraph), s.2.consistent s.1 →
      runCalls sim calls s = some s2 → s2.2.consistent s2.1 := by
  induction calls with
  | nil =>
    intro s s2 h hrun
    simp only [runCalls, Option.some.injEq] at hrun
    exact hrun ▸ h
  | cons c cs ih =>
    intro s s2 h hrun
    simp only [runCalls] at hrun
    cases hc : c.run sim s with
    | none => simp [hc] at hrun
    | some s1 =>
      simp only [hc] at hrun
      exact ih s1 s2 (consistent_run sim c s s1 h hc) hrun

theorem consistent_empty (ps : ProcState) : ({} : ConfigGraph).consistent ps := by
  refine ⟨fun _ _ => rfl, ?_, ?_⟩
  · intro x hx
    simp at hx
  · intro y hy
    simp at hy

/-- C16: in every state reached from the empty graph (whatever the counters and the
objects allocated so far) by a sequence of addComponent, addIntrospector,
setComponentRank, setComponentWeight, setComponentRanks, addParams, addParameter
and addLink calls that all return, every link a component owns is the link the
link table holds under its name, every occupied link slot names a component of
the component table, and the reference count of every link is 1 or 2 and equals
the number of occurrences of the link in the link lists of the components. -/
theorem referential_of_calls (sim : Simulation) (ps0 : ProcState) (calls : List ConfigCall)
    (s : ProcState × ConfigGraph) (h : runCalls sim calls (ps0, {}) = some s) :
    s.2.referential s.1 := by
  obtain ⟨_, j3, j2⟩ := consistent_runCalls sim calls (ps0, {}) s (consistent_empty ps0) h
  refine ⟨j3, ?_⟩
  intro y hy
  obtain ⟨l, hl, _, hs, h1, h2, h3⟩ := j2 y hy
  exact ⟨l, hl, hs, h1, h2, h3⟩

/-- Witness for C16: eight calls that build three components and two links. -/
theorem referential_of_calls_witness :
    runCalls exSim exCalls ({}, {}) = some exCallsState ∧
    exCallsState.2.referential exCallsState.1 :=
  ⟨by decide, referential_of_calls exSim {} exCalls exCallsState (by decide)⟩

end SST
